import Mathlib

/-!
Writable catalog engine of CernVM-FS: a shallow embedding.

The development embeds `cvmfs/catalog_sql.cc` (directory-entry codec, prepared
statements) and `cvmfs/catalog_rw.cc` (writable catalog, `Partition`,
`MergeIntoParent`).

Modelling conventions.

* A table is the list of its rows in row-id order.  A statement either succeeds
  and yields the new table or fails and leaves the table as it was; the only
  failures modelled are constraint violations (primary key, foreign key).
  Storage failures of the underlying engine are not modelled.
* The MD5 path hash is a parameter `PH : String → Nat`.
* The process environment read by `getenv` is a parameter.
* Integer columns are `Int`; the record fields carry the column values
  unchanged (the record types live in a header that is not part of the sources
  at hand, so column values are taken to lie within the field ranges).
* The prepared statements of the writable catalog address the columns
  `hardlinks`, `uid` and `gid`, which exist from schema 2.1 on; every catalog of
  the model has such a schema.
* An operation yields a `Res`: the boolean it returns with the state it leaves,
  or `abort` when an `assert` fails, or `exhausted` when the recursion of
  `MoveToNestedRecursively` goes deeper than the bound it is given.  The
  theorems about `Partition` hold for every bound.
* A content hash of a nested catalog is its hex text, the null hash the empty
  text; an in-memory child catalog is named by its mountpoint.
* The table `statistics` is the list of its rows; of the table `properties`
  only the value of `schema` is modelled, as what the constructor of `Database`
  reads.  Floating-point schema versions are taken as the rationals they stand
  for.
-/

namespace catalog

/-! ## Process context -/

/-- Context of the running process: the path hash, the environment and the byte
that sits right after the characters of a short string (the loops of
`ExpandSymlink` read it). -/
structure Process where
  PH : String → Nat
  getenv : String → Option String
  sentinel : Char

/-! ## Rows and directory entries -/

/-- One row of the `catalog` table (columns of `Database::Create`). -/
structure Row where
  md5path : Nat
  parent : Nat
  hardlinks : Int
  hash : List Nat
  size : Int
  mode : Nat
  mtime : Int
  flags : Nat
  name : String
  symlink : String
  uid : Int
  gid : Int
deriving DecidableEq, Repr

/-- One row of the `chunks` table. -/
structure Chunk where
  md5path : Nat
  offset : Int
  size : Int
  hash : List Nat
deriving DecidableEq, Repr

/-- The in-memory `DirectoryEntry` record, as far as the codec touches it. -/
structure DirectoryEntry where
  checksum : List Nat
  hardlinks : Int
  size : Int
  mode : Nat
  mtime : Int
  uid : Int
  gid : Int
  name : String
  symlink : String
  is_nested_catalog_root : Bool
  is_nested_catalog_mountpoint : Bool
deriving DecidableEq, Repr

/-- Modelled from the spec: the flag bits of the `flags` column (the constants
are declared in a header outside the sources): 1 = IsDir. -/
def kFlagDir : Nat := 1
/-- Modelled from the spec: flag bit 2 = IsNestedRoot. -/
def kFlagDirNestedRoot : Nat := 2
/-- Modelled from the spec: flag bit 4 = IsNestedMountpoint. -/
def kFlagDirNestedMountpoint : Nat := 4
/-- Modelled from the spec: flag bit 8 = IsFile. -/
def kFlagFile : Nat := 8
/-- Modelled from the spec: flag bit 16 = IsLink. -/
def kFlagLink : Nat := 16

/-- Modelled from the spec: `DirectoryEntry::IsDirectory`, the POSIX test
`S_ISDIR` on the mode (declared in a header outside the sources). -/
def DirectoryEntry.IsDirectory (e : DirectoryEntry) : Bool :=
  e.mode &&& 0o170000 == 0o040000

/-- Modelled from the spec: `DirectoryEntry::IsLink`, the POSIX test `S_ISLNK`
on the mode (declared in a header outside the sources). -/
def DirectoryEntry.IsLink (e : DirectoryEntry) : Bool :=
  e.mode &&& 0o170000 == 0o120000

def DirectoryEntry.IsNestedCatalogRoot (e : DirectoryEntry) : Bool :=
  e.is_nested_catalog_root

def DirectoryEntry.IsNestedCatalogMountpoint (e : DirectoryEntry) : Bool :=
  e.is_nested_catalog_mountpoint

/-- Embeds `SqlDirent::CreateDatabaseFlags`. -/
def CreateDatabaseFlags (entry : DirectoryEntry) : Nat :=
  let database_flags : Nat := 0
  let database_flags :=
    if entry.IsNestedCatalogRoot then database_flags ||| kFlagDirNestedRoot
    else if entry.IsNestedCatalogMountpoint then
      database_flags ||| kFlagDirNestedMountpoint
    else database_flags
  if entry.IsDirectory then database_flags ||| kFlagDir
  else if entry.IsLink then database_flags ||| (kFlagFile ||| kFlagLink)
  else database_flags ||| kFlagFile

/-! ## Symlink expansion -/

/-- C string view of a text value: the characters before the first NUL
(`strlen` in `GetDirent`, the name handed to `getenv`). -/
def cstr (s : List Char) : List Char :=
  s.takeWhile (fun ch => ch != Char.ofNat 0)

/-- Inner `while (rpar <= cEnd)` of `ExpandSymlink`: offset of the first `)`
in the remaining buffer, if any. -/
def findRpar : List Char → Option Nat
  | [] => none
  | ch :: rest => if ch = ')' then some 0 else (findRpar rest).map (· + 1)

/-- Second loop of `ExpandSymlink` (label `expand_symlink`).  `rest` is the
buffer from the cursor `c` up to and including the byte at `cEnd`; the counter
bounds the number of iterations. -/
def expandLoop (getenv : String → Option String) :
    Nat → List Char → List Char → List Char
  | 0, _, result => result
  | _ + 1, [], result => result
  | n + 1, ch :: rest, result =>
    -- (*c == '$') && (c < cEnd-2) && (*(c+1) == '(')
    if ch = '$' ∧ 3 ≤ rest.length ∧ rest.head? = some '(' then
      let after := rest.drop 1            -- c += 2
      match findRpar after with
      | none =>
        -- right parenthesis missing: Append("$(", 2); continue (then ++c)
        expandLoop getenv n (after.drop 1) (result ++ ['$', '('])
      | some k =>
        let environ_var := after.take k
        let value :=
          match getenv (String.mk (cstr environ_var)) with
          | some v => cstr v.data
          | none => []
        -- c = rpar+1; continue (then ++c)
        expandLoop getenv n (after.drop (k + 2)) (result ++ value)
    else
      expandLoop getenv n rest (result ++ [ch])

/-- Embeds `SqlDirent::ExpandSymlink`.  The first loop looks for a `$` among the
characters and the byte at `cEnd`; without one the string stays as it is.
Otherwise the second loop runs from the position of that first `$`. -/
def ExpandSymlink (pr : Process) (raw_symlink : String) : String :=
  let buf := raw_symlink.data ++ [pr.sentinel]
  if '$' ∈ buf then
    let from_dollar := buf.dropWhile (fun ch => ch != '$')
    String.mk (expandLoop pr.getenv (from_dollar.length + 1) from_dollar [])
  else raw_symlink

/-! ## Codec -/

/-- Embeds `SqlLookup::GetDirent` for a catalog of schema 2.1 or later. -/
def GetDirent (pr : Process) (r : Row) : DirectoryEntry :=
  let database_flags := r.flags
  { is_nested_catalog_root := database_flags &&& kFlagDirNestedRoot != 0
    is_nested_catalog_mountpoint :=
      database_flags &&& kFlagDirNestedMountpoint != 0
    hardlinks := r.hardlinks
    uid := r.uid
    gid := r.gid
    mode := r.mode
    size := r.size
    mtime := r.mtime
    checksum := r.hash
    name := String.mk (cstr r.name.data)
    symlink := ExpandSymlink pr (String.mk (cstr r.symlink.data)) }

/-- Embeds `SqlDirentWrite::BindDirentFields` together with the two path-hash
bindings: the row a write statement stores for `entry`. -/
def BindDirent (md5path parent : Nat) (entry : DirectoryEntry) : Row :=
  { md5path := md5path
    parent := parent
    hash := entry.checksum
    hardlinks := entry.hardlinks
    size := entry.size
    mode := entry.mode
    uid := entry.uid
    gid := entry.gid
    mtime := entry.mtime
    flags := CreateDatabaseFlags entry
    name := entry.name
    symlink := entry.symlink }

/-! ## Tables and statements -/

/-- The rows `Database::Create` puts into the table `statistics`. -/
def seedStatistics : List (String × Int) :=
  [("self_regular", 0), ("self_symlink", 0), ("self_dir", 1), ("self_nested", 0),
    ("subtree_regular", 0), ("subtree_symlink", 0), ("subtree_dir", 0), ("subtree_nested", 0)]

/-- One open writable catalog: its mountpoint path, the tables `catalog`,
`chunks` and `nested_catalogs`, the mountpoints of the in-memory children
attached to it, the dirty flag, and the table `statistics` (as `Database::Create`
seeds it, unless said otherwise). -/
structure Catalog where
  path : String
  rows : List Row
  chunks : List Chunk
  nested_catalogs : List (String × String)
  children : List String
  dirty : Bool
  statistics : List (String × Int) := seedStatistics
deriving DecidableEq, Repr

/-- Outcome of an operation of the engine: it returns a boolean and leaves a
state, or an `assert` fails, or the recursion budget of the model is used up. -/
inductive Res (σ : Type) where
  | done (ok : Bool) (s : σ)
  | abort
  | exhausted
deriving DecidableEq, Repr

/-- Rows selected by `WHERE (md5path_1 = :md5_1) AND (md5path_2 = :md5_2)`. -/
def hasKey (rows : List Row) (k : Nat) : Bool :=
  rows.any (fun r => r.md5path == k)

/-- The statement of `SqlDirentInsert`: the primary key `pk_catalog` rejects a
row whose path hash is present. -/
def sqlInsert (rows : List Row) (r : Row) : Option (List Row) :=
  if hasKey rows r.md5path then none else some (rows ++ [r])

/-- The statement of `SqlDirentUpdate`: every column but the two path hashes is
replaced in the rows with the given path hash. -/
def sqlUpdate (rows : List Row) (k : Nat) (entry : DirectoryEntry) : List Row :=
  rows.map (fun r => if r.md5path = k then BindDirent r.md5path r.parent entry else r)

/-- The statement of `SqlDirentTouch`. -/
def sqlTouch (rows : List Row) (k : Nat) (mtime : Int) : List Row :=
  rows.map (fun r => if r.md5path = k then { r with mtime := mtime } else r)

/-- The statement of `SqlDirentUnlink`, with `PRAGMA foreign_keys = ON`: the
foreign key of `chunks` rejects the deletion of a row some chunk refers to. -/
def sqlUnlink (rows : List Row) (chunks : List Chunk) (k : Nat) : Option (List Row) :=
  if hasKey rows k ∧ chunks.any (fun ch => ch.md5path == k) then none
  else some (rows.filter (fun r => r.md5path != k))

/-- The statement `INSERT INTO other.catalog SELECT * FROM main.catalog;`: one statement, so
either every row goes in or the target table stays as it was. -/
def sqlInsertAll (target : List Row) : List Row → Option (List Row)
  | [] => some target
  | r :: rest =>
    match sqlInsert target r with
    | none => none
    | some target1 => sqlInsertAll target1 rest

/-- The statement `SELECT max(hardlinks) FROM catalog;` as read by `RetrieveInt64`: the
maximum, and 0 for the NULL of an empty table. -/
def sqlMaxHardlinks : List Row → Int
  | [] => 0
  | r :: rest => rest.foldl (fun acc x => max acc x.hardlinks) r.hardlinks

/-- Embeds `SqlMaxHardlinkGroup::GetMaxGroupId`: `RetrieveInt64(0) >> 32` as
`uint32_t`. -/
def GetMaxGroupId (rows : List Row) : Nat :=
  ((sqlMaxHardlinks rows / 2 ^ 32) % 2 ^ 32).toNat

/-- Embeds `WritableCatalog::GetMaxLinkId`: the statement always yields its one row. -/
def GetMaxLinkId (c : Catalog) : Nat :=
  GetMaxGroupId c.rows

/-- Modelled from the spec: `GetParentPath` of the utility library (outside the
sources): the path up to its last slash, the empty path when there is none. -/
def GetParentPath (path : String) : String :=
  String.mk ((path.data.reverse.dropWhile (fun ch => ch != '/')).drop 1).reverse

/-! ## Writable catalog -/

def SetDirty (c : Catalog) : Catalog := { c with dirty := true }

/-- Embeds `WritableCatalog::Commit` (the transaction itself is not modelled). -/
def Commit (c : Catalog) : Catalog := { c with dirty := false }

/-- Embeds `WritableCatalog::AddEntry(entry, entry_path, parent_path)`. -/
def AddEntry (pr : Process) (c : Catalog) (entry : DirectoryEntry)
    (entry_path parent_path : String) : Bool × Catalog :=
  let c := SetDirty c
  match sqlInsert c.rows (BindDirent (pr.PH entry_path) (pr.PH parent_path) entry) with
  | some rows => (true, { c with rows := rows })
  | none => (false, c)

/-- Modelled from the spec: the two-argument `AddEntry(entry, entry_path)` of the
class declaration (outside the sources), which takes the parent path from the
entry path. -/
def AddEntryAt (pr : Process) (c : Catalog) (entry : DirectoryEntry)
    (entry_path : String) : Bool × Catalog :=
  AddEntry pr c entry entry_path (GetParentPath entry_path)

/-- Embeds `WritableCatalog::TouchEntry`. -/
def TouchEntry (pr : Process) (c : Catalog) (entry : DirectoryEntry)
    (entry_path : String) : Bool × Catalog :=
  let c := SetDirty c
  (true, { c with rows := sqlTouch c.rows (pr.PH entry_path) entry.mtime })

/-- Embeds `WritableCatalog::RemoveEntry`. -/
def RemoveEntry (pr : Process) (c : Catalog) (file_path : String) : Bool × Catalog :=
  let c := SetDirty c
  match sqlUnlink c.rows c.chunks (pr.PH file_path) with
  | some rows => (true, { c with rows := rows })
  | none => (false, c)

/-- Embeds `WritableCatalog::UpdateEntry(entry, path_hash)`. -/
def UpdateEntry (c : Catalog) (entry : DirectoryEntry) (path_hash : Nat) :
    Bool × Catalog :=
  let c := SetDirty c
  (true, { c with rows := sqlUpdate c.rows path_hash entry })

/-- Modelled from the spec: `Catalog::LookupPath` of the read-only catalog
(outside the sources): lookup by path hash, the row decoded by `GetDirent`. -/
def LookupPath (pr : Process) (c : Catalog) (path : String) : Option DirectoryEntry :=
  (c.rows.find? (fun r => r.md5path == pr.PH path)).map (GetDirent pr)

/-- Modelled from the spec: `Catalog::ListingPath` of the read-only catalog
(outside the sources): list by parent path hash, each row decoded by
`GetDirent`. -/
def ListingPath (pr : Process) (c : Catalog) (path : String) : List DirectoryEntry :=
  (c.rows.filter (fun r => r.parent == pr.PH path)).map (GetDirent pr)

/-! ## Nested-catalog references and in-memory children -/

/-- Modelled from the spec: `Catalog::FindChild` (outside the sources): the
attached child at a mountpoint, if any.  A child is named by its mountpoint. -/
def FindChild (c : Catalog) (mountpoint : String) : Option String :=
  c.children.find? (fun p => p == mountpoint)

/-- Modelled from the spec: `Catalog::AddChild` (outside the sources). -/
def AddChild (c : Catalog) (child : String) : Catalog :=
  { c with children := c.children ++ [child] }

/-- Modelled from the spec: `Catalog::RemoveChild` (outside the sources). -/
def RemoveChild (c : Catalog) (child : String) : Catalog :=
  { c with children := c.children.filter (fun p => p != child) }

/-- Embeds `WritableCatalog::InsertNestedCatalog`.  A content hash is given by its hex
text, the null hash by the empty text; the primary key of `nested_catalogs`
rejects a path that is present. -/
def InsertNestedCatalog (c : Catalog) (mountpoint : String)
    (attached_reference : Option String) (content_hash : String) : Bool × Catalog :=
  let sha1_string := content_hash
  let successful := !(c.nested_catalogs.any (fun x => x.1 == mountpoint))
  if successful then
    let c := { c with nested_catalogs := c.nested_catalogs ++ [(mountpoint, sha1_string)] }
    match attached_reference with
    | some child => (true, AddChild c child)
    | none => (true, c)
  else (false, c)

/-- Embeds `WritableCatalog::RemoveNestedCatalog`: the success flag, the catalog and
the value left in `*attached_reference`. -/
def RemoveNestedCatalog (c : Catalog) (mountpoint : String) :
    Bool × Catalog × Option String :=
  let c := { c with nested_catalogs := c.nested_catalogs.filter (fun x => x.1 != mountpoint) }
  match FindChild c mountpoint with
  | some child => (true, RemoveChild c child, some child)
  | none => (true, c, none)

/-- Modelled from the spec: `Catalog::ListNestedCatalogs` (outside the
sources): all `(path, sha1)` pairs of `nested_catalogs`. -/
def ListNestedCatalogs (c : Catalog) : List (String × String) :=
  c.nested_catalogs

/-! ## Creation -/

/-- Embeds `Database::Create` followed by opening the file as a writable catalog: the
tables `chunks` and `nested_catalogs` are empty, `catalog` holds the root entry
and `statistics` the eight counters. -/
def Create (pr : Process) (root_entry : DirectoryEntry) (root_path : String) : Catalog :=
  let root_path_hash := pr.PH root_path
  let root_parent_hash := if root_path = "" then 0 else pr.PH (GetParentPath root_path)
  { path := root_path
    rows := [BindDirent root_path_hash root_parent_hash root_entry]
    chunks := []
    nested_catalogs := []
    children := []
    dirty := false
    statistics := seedStatistics }

/-! ## Partition -/

/-- Embeds `WritableCatalog::MakeTransitionPoint`. -/
def MakeTransitionPoint (pr : Process) (c : Catalog) (mountpoint : String) : Res Catalog :=
  match LookupPath pr c mountpoint with
  | none => .done false c
  | some transition_entry =>
    if transition_entry.IsDirectory && !transition_entry.IsNestedCatalogRoot then
      let transition_entry := { transition_entry with is_nested_catalog_mountpoint := true }
      match UpdateEntry c transition_entry (pr.PH mountpoint) with
      | (false, c) => .done false c
      | (true, c) => .done true c
    else .abort

/-- Embeds `WritableCatalog::MakeNestedRoot`. -/
def MakeNestedRoot (pr : Process) (c : Catalog) : Res Catalog :=
  match LookupPath pr c c.path with
  | none => .done false c
  | some root_entry =>
    if root_entry.IsDirectory && !root_entry.IsNestedCatalogMountpoint then
      let root_entry := { root_entry with is_nested_catalog_root := true }
      match UpdateEntry c root_entry (pr.PH c.path) with
      | (false, c) => .done false c
      | (true, c) => .done true c
    else .abort

/-- The two catalogs a structural operation works on, and the list of
grand-child mountpoints met so far. -/
structure MoveState where
  parent : Catalog
  nested : Catalog
  grand_child_mountpoints : List String
deriving DecidableEq, Repr

/-- The `for` loop of `MoveToNestedRecursively` over the listing of
`directory`; `recurse` is the recursive call. -/
def moveListing (pr : Process) (recurse : String → MoveState → Res MoveState)
    (directory : String) : List DirectoryEntry → MoveState → Res MoveState
  | [], st => .done true st
  | i :: rest, st =>
    let full_path := directory ++ "/" ++ i.name
    -- The entries are first inserted into the new catalog
    match AddEntryAt pr st.nested i full_path with
    | (false, nested) => .done false { st with nested := nested }
    | (true, nested) =>
      let st := { st with nested := nested }
      let special : Res MoveState :=
        if i.IsNestedCatalogMountpoint then
          .done true { st with
            grand_child_mountpoints := st.grand_child_mountpoints ++ [full_path] }
        else if i.IsDirectory then recurse full_path st
        else .done true st
      match special with
      | .done true st =>
        -- Remove the entry from the current catalog
        match RemoveEntry pr st.parent full_path with
        | (false, parent) => .done false { st with parent := parent }
        | (true, parent) => moveListing pr recurse directory rest { st with parent := parent }
      | other => other

/-- Embeds `WritableCatalog::MoveToNestedRecursively`; the first argument bounds the
depth of the recursion. -/
def MoveToNestedRecursively (pr : Process) :
    Nat → String → MoveState → Res MoveState
  | 0, _, _ => .exhausted
  | depth + 1, directory, st =>
    moveListing pr (MoveToNestedRecursively pr depth) directory
      (ListingPath pr st.parent directory) st

/-- Embeds `WritableCatalog::MoveCatalogsToNested`. -/
def MoveCatalogsToNested : List String → Catalog → Catalog → Bool × Catalog × Catalog
  | [], this, new_nested_catalog => (true, this, new_nested_catalog)
  | i :: rest, this, new_nested_catalog =>
    match RemoveNestedCatalog this i with
    | (false, this, _) => (false, this, new_nested_catalog)
    | (true, this, attached_reference) =>
      -- the content hash handed over is the null hash
      match InsertNestedCatalog new_nested_catalog i attached_reference "" with
      | (false, new_nested_catalog) => (false, this, new_nested_catalog)
      | (true, new_nested_catalog) => MoveCatalogsToNested rest this new_nested_catalog

/-- Embeds `WritableCatalog::Partition`: `this` is the parent, `new_nested_catalog`
the just created child.  `MoveToNested` of the class declaration is the call of
`MoveToNestedRecursively`. -/
def Partition (pr : Process) (depth : Nat) (this new_nested_catalog : Catalog) :
    Res (Catalog × Catalog) :=
  match MakeTransitionPoint pr this new_nested_catalog.path with
  | .abort => .abort
  | .exhausted => .exhausted
  | .done false this => .done false (this, new_nested_catalog)
  | .done true this =>
    match MakeNestedRoot pr new_nested_catalog with
    | .abort => .abort
    | .exhausted => .exhausted
    | .done false new_nested_catalog => .done false (this, new_nested_catalog)
    | .done true new_nested_catalog =>
      match MoveToNestedRecursively pr depth new_nested_catalog.path
          ⟨this, new_nested_catalog, []⟩ with
      | .abort => .abort
      | .exhausted => .exhausted
      | .done false st => .done false (st.parent, st.nested)
      | .done true st =>
        match MoveCatalogsToNested st.grand_child_mountpoints st.parent st.nested with
        | (ok, this, new_nested_catalog) => .done ok (this, new_nested_catalog)

/-! ## Merge -/

/-- Conversion to `int64_t`, as in the argument of `StringifyInt`. -/
def toInt64 (n : Int) : Int := (n + 2 ^ 63) % 2 ^ 64 - 2 ^ 63

/-- The statement `UPDATE catalog SET hardlinks = hardlinks + offset WHERE hardlinks > 1 << 32;`.
The sum is the integer sum: this is what the engine stores as long as the sum
is a 64-bit integer (below 2^63); a larger sum the engine stores as a REAL,
which is not modelled, so the theorems about the renumbering carry a bound. -/
def sqlUpdateLinkIds (rows : List Row) (offset : Int) : List Row :=
  rows.map (fun r =>
    if r.hardlinks > 2 ^ 32 then { r with hardlinks := r.hardlinks + offset } else r)

/-- The number `CopyToParent` writes into its `UPDATE` statement:
`static_cast<uint64_t>(parent->GetMaxLinkId()) << 32`, printed by
`StringifyInt` as an `int64_t`. -/
def linkIdOffset (parent : Catalog) : Int :=
  toInt64 ((GetMaxLinkId parent : Int) * 2 ^ 32 % 2 ^ 64)

/-- Embeds `WritableCatalog::CopyToParent`: `this` is the nested catalog, `parent` its
writable parent; the result state is `(parent, this)`. -/
def CopyToParent (pr : Process) (this parent : Catalog) : Res (Catalog × Catalog) :=
  let offset : Int := linkIdOffset parent
  let this := { this with rows := sqlUpdateLinkIds this.rows offset }
  -- Remove the nested catalog mount point
  match RemoveEntry pr parent this.path with
  | (false, parent) => .done false (parent, this)
  | (true, parent) =>
    let this := if this.dirty then Commit this else this
    let parent := if parent.dirty then Commit parent else parent
    match sqlInsertAll parent.rows this.rows with
    | none => .done false (parent, this)
    | some rows =>
      let parent := SetDirty { parent with rows := rows }
      match LookupPath pr parent this.path with
      | none => .done false (parent, this)
      | some old_root_entry =>
        if old_root_entry.IsDirectory && old_root_entry.IsNestedCatalogRoot &&
            !old_root_entry.IsNestedCatalogMountpoint then
          -- Remove the nested catalog root mark
          let old_root_entry := { old_root_entry with is_nested_catalog_root := false }
          match UpdateEntry parent old_root_entry (pr.PH this.path) with
          | (ok, parent) => .done ok (parent, this)
        else .abort

/-- The loop of `WritableCatalog::CopyCatalogsToParent`: the result of
`InsertNestedCatalog` is not looked at. -/
def copyCatalogsLoop (this : Catalog) : List (String × String) → Catalog → Catalog
  | [], parent => parent
  | i :: rest, parent =>
    let child := FindChild this i.1
    copyCatalogsLoop this rest (InsertNestedCatalog parent i.1 child i.2).2

/-- Embeds `WritableCatalog::CopyCatalogsToParent`. -/
def CopyCatalogsToParent (this parent : Catalog) : Bool × Catalog :=
  (true, copyCatalogsLoop this (ListNestedCatalogs this) parent)

/-- Embeds `WritableCatalog::MergeIntoParent`: `this` is the nested catalog, which has
the parent `parent` (so `assert(!IsRoot())` holds); the result state is
`(parent, this)`. -/
def MergeIntoParent (pr : Process) (this parent : Catalog) : Res (Catalog × Catalog) :=
  match CopyToParent pr this parent with
  | .abort => .abort
  | .exhausted => .exhausted
  | .done false s => .done false s
  | .done true (parent, this) =>
    match CopyCatalogsToParent this parent with
    | (false, parent) => .done false (parent, this)
    | (true, parent) =>
      match RemoveNestedCatalog parent this.path with
      | (ok, parent, _) => .done ok (parent, this)

/-! ## The subtree below a mountpoint -/

/-- The traversal of `MoveToNestedRecursively` descends into an entry that is a
directory and not a nested-catalog mountpoint. -/
def descends (pr : Process) (r : Row) : Bool :=
  !(GetDirent pr r).IsNestedCatalogMountpoint && (GetDirent pr r).IsDirectory

/-- Path of an entry listed in `directory`, as `MoveToNestedRecursively`
builds it. -/
def fullPath (pr : Process) (directory : String) (r : Row) : String :=
  directory ++ "/" ++ (GetDirent pr r).name

/-- The row `AddEntry(entry, full_path)` stores for the decoded row `r`. -/
def movedRow (pr : Process) (full : String) (r : Row) : Row :=
  BindDirent (pr.PH full) (pr.PH (GetParentPath full)) (GetDirent pr r)

/-- The relation `Below pr rows M full r`: the row `r` of `rows` is an entry at the path
`full` strictly below `M`, reached from `M` by listing children by parent hash,
without descending below a nested-catalog mountpoint. -/
inductive Below (pr : Process) (rows : List Row) (M : String) : String → Row → Prop
  | child {r : Row} : r ∈ rows → r.parent = pr.PH M → Below pr rows M (fullPath pr M r) r
  | step {d : String} {x r : Row} : Below pr rows M d x → descends pr x = true →
      r ∈ rows → r.parent = pr.PH d → Below pr rows M (fullPath pr d r) r

/-- Path consistency of a table: a row listed in a directory is keyed by the
hash of its path in that directory. -/
def PathConsistent (pr : Process) (rows : List Row) : Prop :=
  ∀ r ∈ rows, ∀ d : String, r.parent = pr.PH d → r.md5path = pr.PH (fullPath pr d r)

/-- The primary key of `catalog`: no two rows share a path hash. -/
def KeysUnique (rows : List Row) : Prop :=
  (rows.map Row.md5path).Nodup


/-! ## Invariant of the subtree move -/

/-- What the move has done with a row of the parent table `R` that is no longer
in the parent: the row was met at a path below `M`, its copy is in the nested
catalog, and a mountpoint is on the grand-child list. -/
def Moved (pr : Process) (R : List Row) (M : String) (st : MoveState) (x : Row) : Prop :=
  ∃ full, Below pr R M full x ∧ movedRow pr full x ∈ st.nested.rows ∧
    ((GetDirent pr x).IsNestedCatalogMountpoint = true →
      full ∈ st.grand_child_mountpoints)

/-- Invariant of `MoveToNestedRecursively` with respect to the parent table `R`
at the start of the move. -/
structure MoveInv (pr : Process) (R : List Row) (M : String) (st : MoveState) : Prop where
  sub : ∀ r ∈ st.parent.rows, r ∈ R
  moved : ∀ x ∈ R, x ∉ st.parent.rows → Moved pr R M st x
  closed : ∀ x ∈ R, x ∉ st.parent.rows → descends pr x = true →
    ∀ r ∈ R, r.parent = x.md5path → r ∉ st.parent.rows
  grand : ∀ g ∈ st.grand_child_mountpoints,
    ∃ x, Below pr R M g x ∧ (GetDirent pr x).IsNestedCatalogMountpoint = true

/-- How a state of the move relates to an earlier one: the parent table only
loses rows, the nested table and the grand-child list only gain entries at the
end, and nothing else changes. -/
structure Grow (st st' : MoveState) : Prop where
  rows : st'.parent.rows.Sublist st.parent.rows
  nested : st.nested.rows <+: st'.nested.rows
  grand : st.grand_child_mountpoints <+: st'.grand_child_mountpoints
  pchunks : st'.parent.chunks = st.parent.chunks
  pnested : st'.parent.nested_catalogs = st.parent.nested_catalogs
  pchildren : st'.parent.children = st.parent.children
  ppath : st'.parent.path = st.parent.path
  nchunks : st'.nested.chunks = st.nested.chunks
  nnested : st'.nested.nested_catalogs = st.nested.nested_catalogs
  nchildren : st'.nested.children = st.nested.children
  npath : st'.nested.path = st.nested.path
  nkeys : KeysUnique st.nested.rows → KeysUnique st'.nested.rows

/-- A directory the move may list: the mountpoint itself or an entry below it
the traversal descends into. -/
def ValidDir (pr : Process) (R : List Row) (M : String) (d : String) : Prop :=
  d = M ∨ ∃ x, Below pr R M d x ∧ descends pr x = true

/-- Contract of one call of the move on the directory `d`. -/
def MoveSpec (pr : Process) (R : List Row) (M : String)
    (f : String → MoveState → Res MoveState) : Prop :=
  ∀ d st st', ValidDir pr R M d → MoveInv pr R M st → f d st = .done true st' →
    MoveInv pr R M st' ∧ Grow st st' ∧
      ∀ r ∈ R, r.parent = pr.PH d → r ∉ st'.parent.rows

/-! ## Auxiliary notions for the merge -/

/-- The row `sqlUpdateLinkIds` makes of a row. -/
def shiftRow (offset : Int) (r : Row) : Row :=
  if r.hardlinks > 2 ^ 32 then { r with hardlinks := r.hardlinks + offset } else r

/-- Hardlink group id of a row: the high 32 bits of `hardlinks`. -/
def Row.groupId (r : Row) : Int := r.hardlinks / 2 ^ 32

/-- Link count of a row: the low 32 bits of `hardlinks`. -/
def Row.linkCount (r : Row) : Int := r.hardlinks % 2 ^ 32

/-- The reference/mountpoint invariant of a catalog: every row of
`nested_catalogs` has an entry in the same catalog, keyed by the hash of its
path, with IsNestedMountpoint set. -/
def RefInv (pr : Process) (c : Catalog) : Prop :=
  ∀ x ∈ c.nested_catalogs, ∃ r ∈ c.rows, r.md5path = pr.PH x.1 ∧
    (GetDirent pr r).IsNestedCatalogMountpoint = true

/-! ## Link counts -/

/-- The columns of the table `catalog`, as `Database::Create` makes it. -/
def catalogColumns : List String :=
  ["md5path_1", "md5path_2", "parent_1", "parent_2", "hardlinks", "hash", "size", "mode",
    "mtime", "flags", "name", "symlink", "uid", "gid"]

/-- The columns the statement of `SqlIncLinkcount` names:
`UPDATE catalog SET inode = CASE ... END WHERE hardlinks = (SELECT hardlinks from
catalog WHERE md5path_1 = :md5_1 AND md5path_2 = :md5_2);`. -/
def incLinkcountColumns : List String :=
  ["inode", "hardlinks", "md5path_1", "md5path_2"]

/-- Whether the statement of `SqlIncLinkcount` can be prepared: every column it
names has to be a column of the table. -/
def sqlIncLinkcountPrepared : Bool :=
  incLinkcountColumns.all (fun col => catalogColumns.contains col)

/-- Embeds `WritableCatalog::IncLinkcount`.  A statement that is not prepared
takes no binding, so the conjunction of the bindings and of `Execute` is false.
A prepared statement would assign the column `inode`, which is none of the
columns of `Row`. -/
def IncLinkcount (_pr : Process) (c : Catalog) (_path_within_group : String)
    (_delta : Int) : Bool × Catalog :=
  let c := SetDirty c
  if sqlIncLinkcountPrepared then (true, c) else (false, c)
/-! ## Relations every write respects -/

/-- A relation between two states of one catalog that every write of the
engine other than `Commit` respects: it is reflexive and transitive, and it
holds when the table `catalog`, the table `nested_catalogs` or the list of
children is replaced and when the dirty flag is set. -/
structure Frame (Q : Catalog → Catalog → Prop) : Prop where
  refl : ∀ c, Q c c
  trans : ∀ {a b c}, Q a b → Q b c → Q a c
  rows : ∀ c (rows : List Row), Q c { c with rows := rows }
  dirty : ∀ c, Q c (SetDirty c)
  nested : ∀ c (n : List (String × String)), Q c { c with nested_catalogs := n }
  children : ∀ c (ch : List String), Q c { c with children := ch }

/-- The dirty flag does not go from set to clear. -/
def DirtyKept (c c' : Catalog) : Prop := c.dirty = true → c'.dirty = true

/-- The table `statistics` is the same. -/
def SameStatistics (c c' : Catalog) : Prop := c'.statistics = c.statistics

/-! ## Codec round trip -/

/-- Following the words of the spec, a legal row: the flags hold nothing but the five flag bits,
the bits IsDir, IsFile and IsLink are the ones the mode gives, and IsNestedRoot
and IsNestedMountpoint are not both set. -/
def LegalRow (r : Row) : Prop :=
  r.flags < 32 ∧
  (r.flags &&& kFlagDir ≠ 0 ↔ r.mode &&& 0o170000 = 0o040000) ∧
  (r.flags &&& kFlagFile ≠ 0 ↔ r.mode &&& 0o170000 ≠ 0o040000) ∧
  (r.flags &&& kFlagLink ≠ 0 ↔ r.mode &&& 0o170000 = 0o120000) ∧
  ¬ (r.flags &&& kFlagDirNestedRoot ≠ 0 ∧ r.flags &&& kFlagDirNestedMountpoint ≠ 0)

instance (r : Row) : Decidable (LegalRow r) := by
  unfold LegalRow
  infer_instance

/-- Decoding a row with `GetDirent` and encoding the entry again with
`BindDirentFields`, under the path hashes of the row. -/
def reencode (pr : Process) (r : Row) : Row :=
  BindDirent r.md5path r.parent (GetDirent pr r)

/-! ## Opening a database file -/

/-- The constants of the class `Database` that its constructor reads.  They are
declared in a header outside the sources, so they are parameters here.  The
floating-point numbers of the code are taken as the rationals they stand
for. -/
structure SchemaConstants where
  kSchemaEpsilon : ℚ
  kLatestSupportedSchema : ℚ
deriving DecidableEq

/-- What the constructor `Database::Database(filename, open_mode)` meets in the file:
whether `sqlite3_open_v2` succeeds, whether `open` for the read-ahead succeeds,
whether `platform_readahead` succeeds, and the value the statement
`SELECT value FROM properties WHERE key='schema';` fetches, if it fetches a row. -/
structure DatabaseFile where
  sqlite_open : Bool
  readahead_open : Bool
  readahead : Bool
  schema : Option ℚ
deriving DecidableEq

/-- The members `ready_` and `schema_version_` of a `Database`. -/
structure Database where
  ready : Bool
  schema_version : ℚ
deriving DecidableEq

set_option linter.dupNamespace false

/-- Embeds the constructor `Database::Database(filename, open_mode)`. -/
def Database.Database (k : SchemaConstants) (f : DatabaseFile) : Database :=
  -- ready_ = false; schema_version_ = 0.0
  if !f.sqlite_open then ⟨false, 0⟩
  else if !f.readahead_open then ⟨false, 0⟩
  else if !f.readahead then ⟨false, 0⟩
  else
    let schema_version : ℚ :=
      match f.schema with
      | some v => v
      | none => 1
    if schema_version ≥ 2 - k.kSchemaEpsilon ∧
        schema_version < k.kLatestSupportedSchema - k.kSchemaEpsilon then
      ⟨false, schema_version⟩
    else ⟨true, schema_version⟩

/-! ## Statistics -/

/-- Embeds the statement of `SqlGetCounter`, `SELECT value from statistics WHERE counter = :counter;`:
the value of the row it fetches, if it fetches one. -/
def sqlGetCounter (c : Catalog) (counter : String) : Option Int :=
  (c.statistics.find? (fun x => x.1 == counter)).map Prod.snd

/-- Following the words of the spec: the number of rows with IsDir and without IsNestedRoot. -/
def countDirs (rows : List Row) : Nat :=
  rows.countP (fun r => r.flags &&& kFlagDir != 0 && r.flags &&& kFlagDirNestedRoot == 0)

/-- Following the words of the spec: the number of regular-file rows (IsFile without IsLink). -/
def countRegular (rows : List Row) : Nat :=
  rows.countP (fun r => r.flags &&& kFlagFile != 0 && r.flags &&& kFlagLink == 0)

/-- Following the words of the spec: the number of symlink rows. -/
def countSymlinks (rows : List Row) : Nat :=
  rows.countP (fun r => r.flags &&& kFlagLink != 0)

/-- Following the words of the spec: the number of rows with IsNestedMountpoint. -/
def countNested (rows : List Row) : Nat :=
  rows.countP (fun r => r.flags &&& kFlagDirNestedMountpoint != 0)

/-- Following the words of the spec: the four `self_` counters are the four row counts. -/
def StatisticsInvariant (c : Catalog) : Prop :=
  sqlGetCounter c "self_dir" = some (countDirs c.rows : Int) ∧
  sqlGetCounter c "self_regular" = some (countRegular c.rows : Int) ∧
  sqlGetCounter c "self_symlink" = some (countSymlinks c.rows : Int) ∧
  sqlGetCounter c "self_nested" = some (countNested c.rows : Int)

instance (c : Catalog) : Decidable (StatisticsInvariant c) := by
  unfold StatisticsInvariant
  infer_instance

/-- The catalogs reachable from `Database::Create` by `AddEntry`, `RemoveEntry`,
`UpdateEntry`, `Partition` and `MergeIntoParent`, whatever these return. -/
inductive Reachable (pr : Process) : Catalog → Prop
  | create (root_entry : DirectoryEntry) (root_path : String) :
      Reachable pr (Create pr root_entry root_path)
  | add {c : Catalog} (e : DirectoryEntry) (entry_path parent_path : String) :
      Reachable pr c → Reachable pr (AddEntry pr c e entry_path parent_path).2
  | remove {c : Catalog} (file_path : String) :
      Reachable pr c → Reachable pr (RemoveEntry pr c file_path).2
  | update {c : Catalog} (e : DirectoryEntry) (path_hash : Nat) :
      Reachable pr c → Reachable pr (UpdateEntry c e path_hash).2
  | partition_parent {P C P' C' : Catalog} {depth : Nat} {ok : Bool} :
      Reachable pr P → Reachable pr C → Partition pr depth P C = .done ok (P', C') →
      Reachable pr P'
  | partition_nested {P C P' C' : Catalog} {depth : Nat} {ok : Bool} :
      Reachable pr P → Reachable pr C → Partition pr depth P C = .done ok (P', C') →
      Reachable pr C'
  | merge_parent {P C P' C' : Catalog} {ok : Bool} :
      Reachable pr P → Reachable pr C → MergeIntoParent pr C P = .done ok (P', C') →
      Reachable pr P'
  | merge_nested {P C P' C' : Catalog} {ok : Bool} :
      Reachable pr P → Reachable pr C → MergeIntoParent pr C P = .done ok (P', C') →
      Reachable pr C'

/-! ## Exclusive marks -/

/-- The data-model invariant on the marks of a table: no row carries
IsNestedRoot together with IsNestedMountpoint. -/
def FlagsExclusive (rows : List Row) : Prop :=
  ∀ r ∈ rows, ¬ (r.flags &&& kFlagDirNestedRoot ≠ 0 ∧ r.flags &&& kFlagDirNestedMountpoint ≠ 0)

instance (pr : Process) (c : Catalog) : Decidable (RefInv pr c) := by
  unfold RefInv
  infer_instance

instance (rows : List Row) : Decidable (FlagsExclusive rows) := by
  unfold FlagsExclusive
  infer_instance

/-! ## The subtree move with the list of the directories it visits -/

/-- The loop of `moveListing` once more, yielding next to the outcome the
directories on which the recursive call was made, in the order of the calls. -/
def moveListingTrace (pr : Process)
    (recurse : String → MoveState → Res MoveState × List String) (directory : String) :
    List DirectoryEntry → MoveState → Res MoveState × List String
  | [], st => (.done true st, [])
  | i :: rest, st =>
    let full_path := directory ++ "/" ++ i.name
    match AddEntryAt pr st.nested i full_path with
    | (false, nested) => (.done false { st with nested := nested }, [])
    | (true, nested) =>
      let st := { st with nested := nested }
      let special : Res MoveState × List String :=
        if i.IsNestedCatalogMountpoint then
          (.done true { st with
            grand_child_mountpoints := st.grand_child_mountpoints ++ [full_path] }, [])
        else if i.IsDirectory then recurse full_path st
        else (.done true st, [])
      match special with
      | (.done true st, visited) =>
        match RemoveEntry pr st.parent full_path with
        | (false, parent) => (.done false { st with parent := parent }, visited)
        | (true, parent) =>
          let later := moveListingTrace pr recurse directory rest { st with parent := parent }
          (later.1, visited ++ later.2)
      | other => other

/-- `MoveToNestedRecursively` once more, yielding next to the outcome the list of
the directories it is called on: the directory itself, then the directories of
the recursive calls in the order of the calls. -/
def MoveToNestedRecursivelyTrace (pr : Process) :
    Nat → String → MoveState → Res MoveState × List String
  | 0, directory, _ => (.exhausted, [directory])
  | depth + 1, directory, st =>
    let below := moveListingTrace pr (MoveToNestedRecursivelyTrace pr depth) directory
      (ListingPath pr st.parent directory) st
    (below.1, directory :: below.2)

/-- The number of rows of the parent whose parent hash is not the path hash of
a row of the nested catalog: a bound on the depth the move can still reach. -/
def moveBudget (st : MoveState) : Nat :=
  st.parent.rows.countP (fun r => !hasKey st.nested.rows r.parent)

/-- What holds of the directories `t` visited from the directory `d` in the
state `st` with the outcome `r`: each is longer than `d`, they have distinct
path hashes, none of these is a key of the nested catalog in `st`, each is
reached from `d` or from a visited directory through a row of `R0` listed
there, and after a success the hashes are keys of the nested catalog, which
has kept its keys, while the parent has only lost rows. -/
structure Visits (pr : Process) (R0 : List Row) (d : String) (st : MoveState)
    (r : Res MoveState) (t : List String) : Prop where
  longer : ∀ x ∈ t, d.length < x.length
  nodup : (t.map pr.PH).Nodup
  fresh : ∀ x ∈ t, hasKey st.nested.rows (pr.PH x) = false
  via : ∀ x ∈ t, ∃ y ∈ d :: t, ∃ row ∈ R0, row.parent = pr.PH y ∧ x = fullPath pr y row
  kept : ∀ st', r = .done true st' →
    (∀ x ∈ t, hasKey st'.nested.rows (pr.PH x) = true) ∧
    (∀ k, hasKey st.nested.rows k = true → hasKey st'.nested.rows k = true) ∧
    (∀ x ∈ st'.parent.rows, x ∈ st.parent.rows)

/-! ## Concrete scenarios -/

/-- A concrete path hash for the scenarios: the characters of the path read as
digits. -/
def demoPH (s : String) : Nat :=
  s.data.foldl (fun acc ch => acc * 4294967296 + ch.toNat) 1

/-- A concrete process for the scenarios: the variable `A` is set to `x`, the
byte after a short string is NUL. -/
def demoProcess : Process :=
  { PH := demoPH
    getenv := fun v => if v = "A" then some "x" else none
    sentinel := Char.ofNat 0 }

/-- A directory row of the scenarios. -/
def demoDir (path parent name : String) (flags : Nat) : Row :=
  { md5path := demoPH path, parent := demoPH parent, hardlinks := 0, hash := [],
    size := 4096, mode := 0o040755, mtime := 10, flags := flags, name := name,
    symlink := "", uid := 0, gid := 0 }

/-- A regular-file row of the scenarios. -/
def demoFile (path parent name : String) (hardlinks : Int) : Row :=
  { md5path := demoPH path, parent := demoPH parent, hardlinks := hardlinks,
    hash := [0xde, 0xad], size := 7, mode := 0o100644, mtime := 11, flags := kFlagFile,
    name := name, symlink := "", uid := 0, gid := 0 }

/-- A symlink row of the scenarios. -/
def demoLink (path parent name target : String) : Row :=
  { md5path := demoPH path, parent := demoPH parent, hardlinks := 0, hash := [],
    size := 7, mode := 0o120777, mtime := 12, flags := kFlagFile ||| kFlagLink,
    name := name, symlink := target, uid := 0, gid := 0 }

/-- The root row of a repository. -/
def demoRoot : Row :=
  { md5path := demoPH "", parent := 0, hardlinks := 0, hash := [], size := 4096,
    mode := 0o040755, mtime := 10, flags := kFlagDir, name := "", symlink := "",
    uid := 0, gid := 0 }

/-- The directory entry a nested catalog at `/a/b` is created with. -/
def demoRootEntry : DirectoryEntry :=
  { checksum := [], hardlinks := 0, size := 4096, mode := 0o040755, mtime := 10,
    uid := 0, gid := 0, name := "b", symlink := "", is_nested_catalog_root := false,
    is_nested_catalog_mountpoint := false }

/-- Scenario S4, the parent: `/a`, `/a/b`, `/a/b/c` and the file `/a/b/d`. -/
def s4Parent : Catalog :=
  { path := ""
    rows := [demoRoot, demoDir "/a" "" "a" kFlagDir, demoDir "/a/b" "/a" "b" kFlagDir,
      demoDir "/a/b/c" "/a/b" "c" kFlagDir, demoFile "/a/b/d" "/a/b" "d" 0]
    chunks := [], nested_catalogs := [], children := [], dirty := false }

/-- Scenario S4, the just created child at `/a/b`. -/
def s4Child : Catalog := Create demoProcess demoRootEntry "/a/b"

/-- Scenario S4 after `Partition`: the parent. -/
def s4ParentAfter : Catalog :=
  { path := ""
    rows := [demoRoot, demoDir "/a" "" "a" kFlagDir,
      demoDir "/a/b" "/a" "b" (kFlagDir ||| kFlagDirNestedMountpoint)]
    chunks := [], nested_catalogs := [], children := [], dirty := true }

/-- Scenario S4 after `Partition`: the child. -/
def s4ChildAfter : Catalog :=
  { path := "/a/b"
    rows := [demoDir "/a/b" "/a" "b" (kFlagDir ||| kFlagDirNestedRoot),
      demoDir "/a/b/c" "/a/b" "c" kFlagDir, demoFile "/a/b/d" "/a/b" "d" 0]
    chunks := [], nested_catalogs := [], children := [], dirty := true }

/-- Scenario S4 with one more entry, the variant symlink `/a/b/l`. -/
def linkParent : Catalog :=
  { s4Parent with
    rows := s4Parent.rows ++ [demoLink "/a/b/l" "/a/b" "l" "/pre/$(A)/post"] }

/-- The text `ExpandSymlink` makes of `/pre/$(A)/post` in the concrete process. -/
def expandedTarget : String :=
  String.mk ['x', 'p', 'o', 's', 't', Char.ofNat 0]

/-- The child of `linkParent` after `Partition`. -/
def linkChildAfter : Catalog :=
  { s4ChildAfter with
    rows := s4ChildAfter.rows ++ [demoLink "/a/b/l" "/a/b" "l" expandedTarget] }

/-- A root entry that differs from the row `/a/b` of scenario S4 in its
modification time. -/
def staleRootEntry : DirectoryEntry :=
  { demoRootEntry with mtime := 99 }

/-- The child created with `staleRootEntry`, after `Partition` of scenario S4. -/
def staleChildAfter : Catalog :=
  { s4ChildAfter with
    rows := [{ demoDir "/a/b" "/a" "b" (kFlagDir ||| kFlagDirNestedRoot) with mtime := 99 },
      demoDir "/a/b/c" "/a/b" "c" kFlagDir, demoFile "/a/b/d" "/a/b" "d" 0] }

/-- A parent with two nested-catalog mountpoints, `/a/b/g` below `/a/b` and
`/z` outside it, both referenced in `nested_catalogs`; the catalog at `/a/b/g`
is attached in memory. -/
def gParent : Catalog :=
  { path := ""
    rows := [demoRoot, demoDir "/a" "" "a" kFlagDir, demoDir "/a/b" "/a" "b" kFlagDir,
      demoDir "/a/b/c" "/a/b" "c" kFlagDir, demoFile "/a/b/d" "/a/b" "d" 0,
      demoDir "/a/b/g" "/a/b" "g" (kFlagDir ||| kFlagDirNestedMountpoint),
      demoDir "/z" "" "z" (kFlagDir ||| kFlagDirNestedMountpoint)]
    chunks := []
    nested_catalogs := [("/a/b/g", "a1b2"), ("/z", "ffff")]
    children := ["/a/b/g"]
    dirty := false }

/-- The parent `gParent` after `Partition` at `/a/b`. -/
def gParentAfter : Catalog :=
  { path := ""
    rows := [demoRoot, demoDir "/a" "" "a" kFlagDir,
      demoDir "/a/b" "/a" "b" (kFlagDir ||| kFlagDirNestedMountpoint),
      demoDir "/z" "" "z" (kFlagDir ||| kFlagDirNestedMountpoint)]
    chunks := []
    nested_catalogs := [("/z", "ffff")]
    children := []
    dirty := true }

/-- The child of `gParent` after `Partition` at `/a/b`. -/
def gChildAfter : Catalog :=
  { path := "/a/b"
    rows := [demoDir "/a/b" "/a" "b" (kFlagDir ||| kFlagDirNestedRoot),
      demoDir "/a/b/c" "/a/b" "c" kFlagDir, demoFile "/a/b/d" "/a/b" "d" 0,
      demoDir "/a/b/g" "/a/b" "g" (kFlagDir ||| kFlagDirNestedMountpoint)]
    chunks := []
    nested_catalogs := [("/a/b/g", "")]
    children := ["/a/b/g"]
    dirty := true }

/-- Scenario S5, the parent: scenario S4 after `Partition` and after the
reference to the new catalog was inserted. -/
def s5Parent : Catalog :=
  (InsertNestedCatalog s4ParentAfter "/a/b" none "").2

/-- Scenario S5 after `MergeIntoParent`: the parent. -/
def s5ParentAfter : Catalog :=
  { path := ""
    rows := [demoRoot, demoDir "/a" "" "a" kFlagDir, demoDir "/a/b" "/a" "b" kFlagDir,
      demoDir "/a/b/c" "/a/b" "c" kFlagDir, demoFile "/a/b/d" "/a/b" "d" 0]
    chunks := [], nested_catalogs := [], children := [], dirty := true }

/-- Scenario S5 after `MergeIntoParent`: the nested catalog, now dangling. -/
def s5ChildAfter : Catalog :=
  { s4ChildAfter with dirty := false }

/-- The value of `hardlinks` for a group id and a link count. -/
def mkHardlinks (group count : Int) : Int := group * 2 ^ 32 + count

/-- Scenario S6, the parent: one hardlink group with id 3, and the nested
catalog mounted at `/a/b`. -/
def s6Parent : Catalog :=
  { path := ""
    rows := [demoRoot, demoDir "/a" "" "a" kFlagDir,
      demoDir "/a/b" "/a" "b" (kFlagDir ||| kFlagDirNestedMountpoint),
      demoFile "/p" "" "p" (mkHardlinks 3 2), demoFile "/q" "" "q" (mkHardlinks 3 2)]
    chunks := [], nested_catalogs := [("/a/b", "")], children := [], dirty := false }

/-- Scenario S6, the nested catalog at `/a/b`: one hardlink group with id 1 and
a lone file. -/
def s6Child : Catalog :=
  { path := "/a/b"
    rows := [demoDir "/a/b" "/a" "b" (kFlagDir ||| kFlagDirNestedRoot),
      demoFile "/a/b/x" "/a/b" "x" (mkHardlinks 1 2),
      demoFile "/a/b/y" "/a/b" "y" (mkHardlinks 1 2),
      demoFile "/a/b/z" "/a/b" "z" (mkHardlinks 0 1)]
    chunks := [], nested_catalogs := [], children := [], dirty := false }

/-- Scenario S6 after `MergeIntoParent`: the parent. -/
def s6ParentAfter : Catalog :=
  { path := ""
    rows := [demoRoot, demoDir "/a" "" "a" kFlagDir,
      demoFile "/p" "" "p" (mkHardlinks 3 2), demoFile "/q" "" "q" (mkHardlinks 3 2),
      demoDir "/a/b" "/a" "b" kFlagDir,
      demoFile "/a/b/x" "/a/b" "x" (mkHardlinks 4 2),
      demoFile "/a/b/y" "/a/b" "y" (mkHardlinks 4 2),
      demoFile "/a/b/z" "/a/b" "z" (mkHardlinks 0 1)]
    chunks := [], nested_catalogs := [], children := [], dirty := true }

/-- Scenario S6 after `MergeIntoParent`: the nested catalog. -/
def s6ChildAfter : Catalog :=
  { path := "/a/b"
    rows := [demoDir "/a/b" "/a" "b" (kFlagDir ||| kFlagDirNestedRoot),
      demoFile "/a/b/x" "/a/b" "x" (mkHardlinks 4 2),
      demoFile "/a/b/y" "/a/b" "y" (mkHardlinks 4 2),
      demoFile "/a/b/z" "/a/b" "z" (mkHardlinks 0 1)]
    chunks := [], nested_catalogs := [], children := [], dirty := false }

/-- A parent with the hardlink group 1 and a nested catalog mounted at `/a/b`. -/
def edgeParent : Catalog :=
  { path := ""
    rows := [demoRoot, demoDir "/a" "" "a" kFlagDir,
      demoDir "/a/b" "/a" "b" (kFlagDir ||| kFlagDirNestedMountpoint),
      demoFile "/p" "" "p" (mkHardlinks 1 2), demoFile "/q" "" "q" (mkHardlinks 1 2)]
    chunks := [], nested_catalogs := [("/a/b", "")], children := [], dirty := false }

/-- A nested catalog at `/a/b` with one row of group 1 and link count 0, that is
`hardlinks = 1 << 32`. -/
def edgeChild : Catalog :=
  { path := "/a/b"
    rows := [demoDir "/a/b" "/a" "b" (kFlagDir ||| kFlagDirNestedRoot),
      demoFile "/a/b/y" "/a/b" "y" (mkHardlinks 1 0)]
    chunks := [], nested_catalogs := [], children := [], dirty := false }

/-- The parent `edgeParent` after the merge of `edgeChild`. -/
def edgeParentAfter : Catalog :=
  { path := ""
    rows := [demoRoot, demoDir "/a" "" "a" kFlagDir,
      demoFile "/p" "" "p" (mkHardlinks 1 2), demoFile "/q" "" "q" (mkHardlinks 1 2),
      demoDir "/a/b" "/a" "b" kFlagDir,
      demoFile "/a/b/y" "/a/b" "y" (mkHardlinks 1 0)]
    chunks := [], nested_catalogs := [], children := [], dirty := true }

/-- A chunk of the file `/a/b/d`. -/
def demoChunk : Chunk :=
  { md5path := demoPH "/a/b/d", offset := 0, size := 7, hash := [0xbe, 0xef] }

/-- The nested catalog of scenario S5 with a chunk for its file `/a/b/d`. -/
def chunkChild : Catalog :=
  { s4ChildAfter with chunks := [demoChunk] }

/-- The nested catalog `chunkChild` after the merge. -/
def chunkChildAfter : Catalog :=
  { chunkChild with dirty := false }

/-- Scenario S1: the catalog `Create` makes for a root entry of mode 0755. -/
def s1Catalog : Catalog :=
  Create demoProcess
    { checksum := [], hardlinks := 0, size := 4096, mode := 0o040755, mtime := 10,
      uid := 0, gid := 0, name := "", symlink := "", is_nested_catalog_root := false,
      is_nested_catalog_mountpoint := false } ""

/-- Scenario S2: the file entry `a` of size 7. -/
def s2Entry : DirectoryEntry :=
  { checksum := [0xde, 0xad], hardlinks := 1, size := 7, mode := 0o100644, mtime := 11,
    uid := 0, gid := 0, name := "a", symlink := "", is_nested_catalog_root := false,
    is_nested_catalog_mountpoint := false }

/-- Scenario S2: the catalog of scenario S1 after `AddEntry` of `/a`. -/
def s2Catalog : Catalog :=
  (AddEntry demoProcess s1Catalog s2Entry "/a" "").2

/-- Scenario S3: two rows of the hardlink group 7 with link count 2. -/
def s3Catalog : Catalog :=
  { path := ""
    rows := [demoRoot, demoFile "/x" "" "x" (mkHardlinks 7 2),
      demoFile "/y" "" "y" (mkHardlinks 7 2)]
    chunks := [], nested_catalogs := [], children := [], dirty := false }

/-- A parent that holds a reference with the path `/a/b/g` next to the
reference to the nested catalog at `/a/b`. -/
def dupParent : Catalog :=
  { path := ""
    rows := [demoRoot, demoDir "/a" "" "a" kFlagDir,
      demoDir "/a/b" "/a" "b" (kFlagDir ||| kFlagDirNestedMountpoint)]
    chunks := []
    nested_catalogs := [("/a/b", ""), ("/a/b/g", "1111")]
    children := []
    dirty := false }

/-- A nested catalog at `/a/b` that holds a reference with the path `/a/b/g`
and the content hash `2222`. -/
def dupChild : Catalog :=
  { path := "/a/b"
    rows := [demoDir "/a/b" "/a" "b" (kFlagDir ||| kFlagDirNestedRoot),
      demoDir "/a/b/g" "/a/b" "g" (kFlagDir ||| kFlagDirNestedMountpoint)]
    chunks := []
    nested_catalogs := [("/a/b/g", "2222")]
    children := []
    dirty := false }

/-- The parent `dupParent` after `CopyToParent` of `dupChild`. -/
def dupParentCopied : Catalog :=
  { path := ""
    rows := [demoRoot, demoDir "/a" "" "a" kFlagDir, demoDir "/a/b" "/a" "b" kFlagDir,
      demoDir "/a/b/g" "/a/b" "g" (kFlagDir ||| kFlagDirNestedMountpoint)]
    chunks := []
    nested_catalogs := [("/a/b", ""), ("/a/b/g", "1111")]
    children := []
    dirty := true }

/-- The parent `dupParent` after `MergeIntoParent` of `dupChild`. -/
def dupParentAfter : Catalog :=
  { dupParentCopied with nested_catalogs := [("/a/b/g", "1111")] }

/-- The parent of scenario S4 with a chunk of its file `/a/b/d`. -/
def chunkParent : Catalog :=
  { s4Parent with chunks := [demoChunk] }

/-- The parent `chunkParent` after the failed `Partition`: the mountpoint is
marked, `/a/b/c` has gone, `/a/b/d` is still there. -/
def chunkParentFailed : Catalog :=
  { path := ""
    rows := [demoRoot, demoDir "/a" "" "a" kFlagDir,
      demoDir "/a/b" "/a" "b" (kFlagDir ||| kFlagDirNestedMountpoint),
      demoFile "/a/b/d" "/a/b" "d" 0]
    chunks := [demoChunk], nested_catalogs := [], children := [], dirty := true }

/-- A parent that still holds the entry `/a/b/c` next to the mountpoint of the
nested catalog at `/a/b`. -/
def clashParent : Catalog :=
  { path := ""
    rows := [demoRoot, demoDir "/a" "" "a" kFlagDir,
      demoDir "/a/b" "/a" "b" (kFlagDir ||| kFlagDirNestedMountpoint),
      demoDir "/a/b/c" "/a/b" "c" kFlagDir]
    chunks := [], nested_catalogs := [("/a/b", "")], children := [], dirty := false }

/-- The parent `clashParent` after the failed merge: the mountpoint row has
gone. -/
def clashParentFailed : Catalog :=
  { path := ""
    rows := [demoRoot, demoDir "/a" "" "a" kFlagDir, demoDir "/a/b/c" "/a/b" "c" kFlagDir]
    chunks := [], nested_catalogs := [("/a/b", "")], children := [], dirty := false }

/-- A parent without the entry `/a/b`. -/
def bareParent : Catalog :=
  { path := ""
    rows := [demoRoot, demoDir "/a" "" "a" kFlagDir]
    chunks := [], nested_catalogs := [], children := [], dirty := false }

/-- The parent of scenario S4 with `/a/b` already the root of a nested
catalog. -/
def rootedParent : Catalog :=
  { s4Parent with
    rows := [demoRoot, demoDir "/a" "" "a" kFlagDir,
      demoDir "/a/b" "/a" "b" (kFlagDir ||| kFlagDirNestedRoot),
      demoDir "/a/b/c" "/a/b" "c" kFlagDir, demoFile "/a/b/d" "/a/b" "d" 0] }

/-- A child created at the path of the file `/a/b/d`. -/
def fileChild : Catalog :=
  Create demoProcess { demoRootEntry with name := "d" } "/a/b/d"

/-- The parent `linkParent` after `Partition` at `/a/b` and `MergeIntoParent`
of the child. -/
def linkRoundTrip : Catalog :=
  { path := ""
    rows := [demoRoot, demoDir "/a" "" "a" kFlagDir, demoDir "/a/b" "/a" "b" kFlagDir,
      demoDir "/a/b/c" "/a/b" "c" kFlagDir, demoFile "/a/b/d" "/a/b" "d" 0,
      demoLink "/a/b/l" "/a/b" "l" expandedTarget]
    chunks := [], nested_catalogs := [], children := [], dirty := true }

/-- The parent `gParent` after `Partition` at `/a/b` and `MergeIntoParent` of
the child. -/
def gRoundTrip : Catalog :=
  { path := ""
    rows := [demoRoot, demoDir "/a" "" "a" kFlagDir,
      demoDir "/z" "" "z" (kFlagDir ||| kFlagDirNestedMountpoint),
      demoDir "/a/b" "/a" "b" kFlagDir,
      demoDir "/a/b/c" "/a/b" "c" kFlagDir, demoFile "/a/b/d" "/a/b" "d" 0,
      demoDir "/a/b/g" "/a/b" "g" (kFlagDir ||| kFlagDirNestedMountpoint)]
    chunks := []
    nested_catalogs := [("/z", "ffff"), ("/a/b/g", "")]
    children := ["/a/b/g"]
    dirty := true }

/-- The parent `gParent` after `Partition` at `/a/b`, with the reference to the
new catalog inserted. -/
def gMounted : Catalog :=
  (InsertNestedCatalog gParentAfter "/a/b" none "").2

/-- The child of `gParent` after `Partition`, with the content hash of its
grand-child known. -/
def gChildHashed : Catalog :=
  { gChildAfter with nested_catalogs := [("/a/b/g", "a1b2")] }

/-- The parent `gMounted` after `MergeIntoParent` of `gChildHashed`. -/
def gMerged : Catalog :=
  { gRoundTrip with nested_catalogs := [("/z", "ffff"), ("/a/b/g", "a1b2")] }

/-! ## Further scenarios -/

/-- An entry of a regular file that carries the nested-root mark. -/
def rootedFileEntry : DirectoryEntry :=
  { checksum := [], hardlinks := 0, size := 7, mode := 0o100644, mtime := 11, uid := 0,
    gid := 0, name := "f", symlink := "", is_nested_catalog_root := true,
    is_nested_catalog_mountpoint := false }

/-- An entry of a directory that carries both marks. -/
def doublyMarkedEntry : DirectoryEntry :=
  { checksum := [], hardlinks := 0, size := 4096, mode := 0o040755, mtime := 10, uid := 0,
    gid := 0, name := "d", symlink := "", is_nested_catalog_root := true,
    is_nested_catalog_mountpoint := true }

/-- Constants for the scenarios: a tolerance of 0.0005 and 2.1 as the latest
supported schema. -/
def demoConstants : SchemaConstants := ⟨1 / 2000, 21 / 10⟩

/-- A readable file without the property `schema`. -/
def legacyFile : DatabaseFile := ⟨true, true, true, none⟩

theorem KeysUnique.eq_of_key {R : List Row} (h : KeysUnique R) {a b : Row}
    (ha : a ∈ R) (hb : b ∈ R) (hk : a.md5path = b.md5path) : a = b :=
  List.inj_on_of_nodup_map h ha hb hk

theorem AddEntryAt_true {pr : Process} {c c' : Catalog} {e : DirectoryEntry} {p : String}
    (h : AddEntryAt pr c e p = (true, c')) :
    c'.rows = c.rows ++ [BindDirent (pr.PH p) (pr.PH (GetParentPath p)) e] ∧
    c'.chunks = c.chunks ∧ c'.nested_catalogs = c.nested_catalogs ∧
    c'.children = c.children ∧ c'.path = c.path ∧
    (KeysUnique c.rows → KeysUnique c'.rows) := by
  unfold AddEntryAt AddEntry at h
  simp only [SetDirty] at h
  split at h
  · simp only [Prod.mk.injEq, true_and] at h
    subst h
    rename_i rows hins
    unfold sqlInsert at hins
    split at hins
    · simp at hins
    · rename_i hfresh
      simp only [Option.some.injEq] at hins
      subst hins
      refine ⟨by simp, rfl, rfl, rfl, rfl, ?_⟩
      intro hK
      unfold KeysUnique at hK ⊢
      simp only [List.map_append, List.map_cons, List.map_nil]
      refine List.Nodup.append hK (List.nodup_singleton _) ?_
      intro k hk1 hk2
      rw [List.mem_singleton] at hk2
      subst hk2
      obtain ⟨x, hx, hxk⟩ := List.mem_map.mp hk1
      apply hfresh
      unfold hasKey
      exact List.any_eq_true.mpr ⟨x, hx, by simpa using hxk⟩
  · simp at h

theorem RemoveEntry_true {pr : Process} {c c' : Catalog} {p : String}
    (h : RemoveEntry pr c p = (true, c')) :
    c'.rows = c.rows.filter (fun r => r.md5path != pr.PH p) ∧
    c'.chunks = c.chunks ∧ c'.nested_catalogs = c.nested_catalogs ∧
    c'.children = c.children ∧ c'.path = c.path := by
  unfold RemoveEntry at h
  simp only [SetDirty] at h
  split at h
  · simp only [Prod.mk.injEq, true_and] at h
    subst h
    rename_i rows hdel
    unfold sqlUnlink at hdel
    split at hdel
    · simp at hdel
    · simp only [Option.some.injEq] at hdel
      subst hdel
      simp
  · simp at h

theorem Grow.refl (st : MoveState) : Grow st st :=
  ⟨List.Sublist.refl _, List.prefix_refl _, List.prefix_refl _, rfl, rfl, rfl, rfl, rfl, rfl,
    rfl, rfl, fun h => h⟩

theorem Grow.trans {a b c : MoveState} (h1 : Grow a b) (h2 : Grow b c) : Grow a c :=
  ⟨h2.rows.trans h1.rows, h1.nested.trans h2.nested, h1.grand.trans h2.grand,
    h2.pchunks.trans h1.pchunks, h2.pnested.trans h1.pnested,
    h2.pchildren.trans h1.pchildren, h2.ppath.trans h1.ppath,
    h2.nchunks.trans h1.nchunks, h2.nnested.trans h1.nnested,
    h2.nchildren.trans h1.nchildren, h2.npath.trans h1.npath,
    fun h => h2.nkeys (h1.nkeys h)⟩

theorem Moved.mono {pr : Process} {R : List Row} {M : String} {st st' : MoveState} {x : Row}
    (hn : ∀ r ∈ st.nested.rows, r ∈ st'.nested.rows)
    (hg : ∀ g ∈ st.grand_child_mountpoints, g ∈ st'.grand_child_mountpoints)
    (h : Moved pr R M st x) : Moved pr R M st' x := by
  obtain ⟨full, hb, hm, hgr⟩ := h
  exact ⟨full, hb, hn _ hm, fun hmp => hg _ (hgr hmp)⟩

theorem ValidDir.below {pr : Process} {R : List Row} {M d : String} {r : Row}
    (hd : ValidDir pr R M d) (hr : r ∈ R) (hp : r.parent = pr.PH d) :
    Below pr R M (fullPath pr d r) r := by
  rcases hd with rfl | ⟨x, hx, hdx⟩
  · exact Below.child hr hp
  · exact Below.step hx hdx hr hp

theorem MoveInv.after_add {pr : Process} {R : List Row} {M : String} {st : MoveState}
    {nested : Catalog} {row : Row} (hinv : MoveInv pr R M st)
    (hrows : nested.rows = st.nested.rows ++ [row])
    (h2 : nested.chunks = st.nested.chunks)
    (h3 : nested.nested_catalogs = st.nested.nested_catalogs)
    (h4 : nested.children = st.nested.children) (h5 : nested.path = st.nested.path)
    (h6 : KeysUnique st.nested.rows → KeysUnique nested.rows) :
    MoveInv pr R M { st with nested := nested } ∧ Grow st { st with nested := nested } := by
  have hmono : ∀ r ∈ st.nested.rows, r ∈ nested.rows := by
    intro r hr; rw [hrows]; exact List.mem_append_left _ hr
  refine ⟨⟨hinv.sub, ?_, hinv.closed, hinv.grand⟩, ?_⟩
  · intro x hx hnx
    exact (hinv.moved x hx hnx).mono hmono (fun g hg => hg)
  · exact ⟨List.Sublist.refl _, by rw [hrows]; exact List.prefix_append _ _,
      List.prefix_refl _, rfl, rfl, rfl, rfl, h2, h3, h4, h5, h6⟩

theorem MoveInv.after_remove {pr : Process} {R : List Row} {M : String} {st : MoveState}
    {parent : Catalog} {r : Row} {full : String} (hK : KeysUnique R)
    (hinv : MoveInv pr R M st) (hr : r ∈ R) (hkey : r.md5path = pr.PH full)
    (hbelow : Below pr R M full r) (hcopy : movedRow pr full r ∈ st.nested.rows)
    (hmp : (GetDirent pr r).IsNestedCatalogMountpoint = true →
      full ∈ st.grand_child_mountpoints)
    (hkids : descends pr r = true →
      ∀ c ∈ R, c.parent = r.md5path → c ∉ st.parent.rows)
    (hrows : parent.rows = st.parent.rows.filter (fun x => x.md5path != pr.PH full))
    (h2 : parent.chunks = st.parent.chunks)
    (h3 : parent.nested_catalogs = st.parent.nested_catalogs)
    (h4 : parent.children = st.parent.children) (h5 : parent.path = st.parent.path) :
    MoveInv pr R M { st with parent := parent } ∧ Grow st { st with parent := parent } ∧
      r ∉ parent.rows := by
  have hsub : ∀ x ∈ parent.rows, x ∈ st.parent.rows := by
    intro x hx; rw [hrows] at hx; exact (List.mem_filter.mp hx).1
  have hgone : ∀ x ∈ R, x ∈ st.parent.rows → x ∉ parent.rows → x = r := by
    intro x hxR hx hnx
    have : x.md5path = pr.PH full := by
      by_contra hne
      apply hnx
      rw [hrows]
      exact List.mem_filter.mpr ⟨hx, by simpa using hne⟩
    exact hK.eq_of_key hxR hr (this.trans hkey.symm)
  refine ⟨⟨fun x hx => hinv.sub x (hsub x hx), ?_, ?_, hinv.grand⟩, ?_, ?_⟩
  · intro x hxR hnx
    by_cases hx : x ∈ st.parent.rows
    · have := hgone x hxR hx hnx
      subst this
      exact ⟨full, hbelow, hcopy, hmp⟩
    · exact hinv.moved x hxR hx
  · intro x hxR hnx hdesc c hcR hcp hc
    have hc' := hsub c hc
    by_cases hx : x ∈ st.parent.rows
    · have := hgone x hxR hx hnx
      subst this
      exact hkids hdesc c hcR hcp hc'
    · exact hinv.closed x hxR hx hdesc c hcR hcp hc'
  · exact ⟨by rw [hrows]; exact List.filter_sublist _, List.prefix_refl _,
      List.prefix_refl _, h2, h3, h4, h5, rfl, rfl, rfl, rfl, fun h => h⟩
  · intro hmem
    rw [hrows] at hmem
    have := (List.mem_filter.mp hmem).2
    simp [hkey] at this

theorem moveListing_spec {pr : Process} {R : List Row} {M : String}
    {f : String → MoveState → Res MoveState} {d : String}
    (hK : KeysUnique R) (hP : PathConsistent pr R) (hrec : MoveSpec pr R M f)
    (hd : ValidDir pr R M d) :
    ∀ (rs : List Row) (st st' : MoveState),
      (∀ r ∈ rs, r ∈ R ∧ r.parent = pr.PH d) → MoveInv pr R M st →
      moveListing pr f d (rs.map (GetDirent pr)) st = .done true st' →
      MoveInv pr R M st' ∧ Grow st st' ∧ ∀ r ∈ rs, r ∉ st'.parent.rows := by
  intro rs
  induction rs with
  | nil =>
    intro st st' _ hinv h
    simp only [List.map_nil, moveListing, Res.done.injEq, true_and] at h
    subst h
    exact ⟨hinv, Grow.refl _, by simp⟩
  | cons r rs ih =>
    intro st st' hrs hinv h
    have hrR : r ∈ R := (hrs r (List.mem_cons_self _ _)).1
    have hrp : r.parent = pr.PH d := (hrs r (List.mem_cons_self _ _)).2
    have hbelow : Below pr R M (fullPath pr d r) r := hd.below hrR hrp
    have hkey : r.md5path = pr.PH (fullPath pr d r) := hP r hrR d hrp
    simp only [List.map_cons, moveListing] at h
    cases hadd : AddEntryAt pr st.nested (GetDirent pr r) (d ++ "/" ++ (GetDirent pr r).name) with
    | mk ok nested =>
      rw [hadd] at h
      cases ok with
      | false => simp at h
      | true =>
        simp only at h
        obtain ⟨a1, a2, a3, a4, a5, a6⟩ := AddEntryAt_true hadd
        obtain ⟨hinv1, hgrow1⟩ := hinv.after_add a1 a2 a3 a4 a5 a6
        have hcopy1 : movedRow pr (fullPath pr d r) r ∈ nested.rows := by
          rw [a1]; exact List.mem_append_right _ (List.mem_singleton_self _)
        -- the state after the special cases
        have key : ∀ st2 : MoveState,
            MoveInv pr R M st2 → Grow { st with nested := nested } st2 →
            ((GetDirent pr r).IsNestedCatalogMountpoint = true →
              fullPath pr d r ∈ st2.grand_child_mountpoints) →
            (descends pr r = true → ∀ c ∈ R, c.parent = r.md5path → c ∉ st2.parent.rows) →
            (match RemoveEntry pr st2.parent (d ++ "/" ++ (GetDirent pr r).name) with
              | (false, parent) => Res.done false { st2 with parent := parent }
              | (true, parent) =>
                moveListing pr f d (rs.map (GetDirent pr)) { st2 with parent := parent })
              = .done true st' →
            MoveInv pr R M st' ∧ Grow st st' ∧ ∀ x ∈ r :: rs, x ∉ st'.parent.rows := by
          intro st2 hinv2 hgrow2 hmp hkids hrem
          cases hre : RemoveEntry pr st2.parent (d ++ "/" ++ (GetDirent pr r).name) with
          | mk ok2 parent =>
            rw [hre] at hrem
            cases ok2 with
            | false => simp at hrem
            | true =>
              simp only at hrem
              obtain ⟨b1, b2, b3, b4, b5⟩ := RemoveEntry_true hre
              have hcopy2 : movedRow pr (fullPath pr d r) r ∈ st2.nested.rows :=
                hgrow2.nested.subset hcopy1
              obtain ⟨hinv3, hgrow3, hgone⟩ :=
                hinv2.after_remove hK hrR hkey hbelow hcopy2 hmp hkids b1 b2 b3 b4 b5
              obtain ⟨hinv4, hgrow4, hrest⟩ :=
                ih _ st' (fun x hx => hrs x (List.mem_cons_of_mem _ hx)) hinv3 hrem
              refine ⟨hinv4, (hgrow1.trans hgrow2).trans (hgrow3.trans hgrow4), ?_⟩
              intro x hx
              rcases List.mem_cons.mp hx with rfl | hx
              · exact fun hmem => hgone (hgrow4.rows.subset hmem)
              · exact hrest x hx
        by_cases hmnt : (GetDirent pr r).IsNestedCatalogMountpoint = true
        · simp only [hmnt, if_true] at h
          refine key { st with nested := nested, grand_child_mountpoints :=
            st.grand_child_mountpoints ++ [fullPath pr d r] } ?_ ?_ ?_ ?_ h
          · refine ⟨hinv1.sub, ?_, hinv1.closed, ?_⟩
            · intro x hx hnx
              obtain ⟨full, hb, hm, hgr⟩ := hinv1.moved x hx hnx
              exact ⟨full, hb, hm, fun hmp => List.mem_append_left _ (hgr hmp)⟩
            · intro g hg
              rcases List.mem_append.mp hg with hg | hg
              · exact hinv1.grand g hg
              · rw [List.mem_singleton.mp hg]
                exact ⟨r, hbelow, hmnt⟩
          · exact ⟨List.Sublist.refl _, List.prefix_refl _, List.prefix_append _ _,
              rfl, rfl, rfl, rfl, rfl, rfl, rfl, rfl, fun h => h⟩
          · intro _
            exact List.mem_append_right _ (List.mem_singleton_self _)
          · intro hdesc
            simp [descends, hmnt] at hdesc
        · by_cases hdir : (GetDirent pr r).IsDirectory = true
          · simp only [hmnt, hdir, if_true] at h
            have hdesc : descends pr r = true := by
              simp [descends, hmnt, hdir]
            cases hsub : f (d ++ "/" ++ (GetDirent pr r).name) { st with nested := nested } with
            | abort => rw [hsub] at h; simp at h
            | exhausted => rw [hsub] at h; simp at h
            | done ok2 st2 =>
              rw [hsub] at h
              cases ok2 with
              | false => simp at h
              | true =>
                obtain ⟨hinv2, hgrow2, hkids⟩ :=
                  hrec _ _ _ (Or.inr ⟨r, hbelow, hdesc⟩) hinv1 hsub
                refine key st2 hinv2 hgrow2 (fun hm => absurd hm hmnt) ?_ h
                intro _ c hc hcp
                exact hkids c hc (hcp.trans hkey)
          · simp only [hmnt, hdir] at h
            refine key { st with nested := nested } hinv1 (Grow.refl _)
              (fun hm => absurd hm hmnt) ?_ h
            intro hdesc
            simp [descends, hdir] at hdesc

theorem MoveToNestedRecursively_spec {pr : Process} {R : List Row} {M : String}
    (hK : KeysUnique R) (hP : PathConsistent pr R) :
    ∀ depth, MoveSpec pr R M (MoveToNestedRecursively pr depth) := by
  intro depth
  induction depth with
  | zero =>
    intro d st st' _ _ h
    simp [MoveToNestedRecursively] at h
  | succ n ih =>
    intro d st st' hd hinv h
    simp only [MoveToNestedRecursively, ListingPath] at h
    obtain ⟨hinv', hgrow, hgone⟩ :=
      moveListing_spec hK hP ih hd _ st st' (by
        intro r hr
        obtain ⟨h1, h2⟩ := List.mem_filter.mp hr
        exact ⟨hinv.sub r h1, by simpa using h2⟩) hinv h
    refine ⟨hinv', hgrow, ?_⟩
    intro r hr hp hmem
    have h1 : r ∈ st.parent.rows := hgrow.rows.subset hmem
    exact hgone r (List.mem_filter.mpr ⟨h1, by simpa using hp⟩) hmem

theorem cstr_idem (s : List Char) : cstr (cstr s) = cstr s := by
  unfold cstr
  induction s with
  | nil => rfl
  | cons a t ih =>
    by_cases h : (a != Char.ofNat 0) = true
    · simp only [List.takeWhile_cons, h, if_true, ih]
    · simp [List.takeWhile_cons, h]

theorem Below.key {pr : Process} {R : List Row} {M full : String} {r : Row}
    (hP : PathConsistent pr R) (h : Below pr R M full r) : r.md5path = pr.PH full := by
  cases h with
  | child hr hp => exact hP r hr M hp
  | step _ _ hr hp => exact hP r hr _ hp

theorem Below.mem {pr : Process} {R : List Row} {M full : String} {r : Row}
    (h : Below pr R M full r) : r ∈ R := by
  cases h with
  | child hr _ => exact hr
  | step _ _ hr _ => exact hr

theorem Below.extends {pr : Process} {R : List Row} {M full : String} {r : Row}
    (h : Below pr R M full r) : ∃ s : String, s ≠ "" ∧ full = M ++ s := by
  induction h with
  | @child r0 _ _ =>
    refine ⟨"/" ++ (GetDirent pr r0).name, ?_, ?_⟩
    · intro h0
      have := congrArg String.length h0
      simp only [String.length_append] at this
      have h1 : "/".length = 1 := by decide
      have h2 : "".length = 0 := by decide
      omega
    · simp [fullPath, String.append_assoc]
  | @step d x r0 _ _ _ _ ih =>
    obtain ⟨s, _, hs⟩ := ih
    refine ⟨s ++ ("/" ++ (GetDirent pr r0).name), ?_, ?_⟩
    · intro h0
      have := congrArg String.length h0
      simp only [String.length_append] at this
      have h1 : "/".length = 1 := by decide
      have h2 : "".length = 0 := by decide
      omega
    · simp [fullPath, hs, String.append_assoc]

theorem Below.key_ne {pr : Process} {R : List Row} {M full : String} {r : Row}
    (hP : PathConsistent pr R) (hM : ∀ s : String, s ≠ "" → pr.PH (M ++ s) ≠ pr.PH M)
    (h : Below pr R M full r) : r.md5path ≠ pr.PH M := by
  obtain ⟨s, hs, hfull⟩ := h.extends
  rw [h.key hP, hfull]
  exact hM s hs

theorem Below.transfer {pr : Process} {R R' : List Row} {M : String} {k : Nat}
    (hsub : ∀ r ∈ R, r.md5path ≠ k → r ∈ R')
    (hne : ∀ full r, Below pr R M full r → r.md5path ≠ k) :
    ∀ {full r}, Below pr R M full r → Below pr R' M full r := by
  intro full r h
  induction h with
  | child hr hp =>
    exact Below.child (hsub _ hr (hne _ _ (Below.child hr hp))) hp
  | step hx hd hr hp ih =>
    exact Below.step ih hd (hsub _ hr (hne _ _ (Below.step hx hd hr hp))) hp

theorem sqlUpdate_keys (rows : List Row) (k : Nat) (e : DirectoryEntry) :
    (sqlUpdate rows k e).map Row.md5path = rows.map Row.md5path := by
  unfold sqlUpdate
  rw [List.map_map]
  apply List.map_congr_left
  intro r _
  by_cases h : r.md5path = k <;> simp [h, BindDirent]

theorem mem_sqlUpdate_of_ne {rows : List Row} {k : Nat} {e : DirectoryEntry} {r : Row}
    (hk : r.md5path ≠ k) : r ∈ sqlUpdate rows k e ↔ r ∈ rows := by
  unfold sqlUpdate
  constructor
  · intro h
    obtain ⟨x, hx, hxe⟩ := List.mem_map.mp h
    by_cases hxk : x.md5path = k
    · rw [if_pos hxk] at hxe
      exact absurd (by rw [← hxe]; simp [BindDirent, hxk]) hk
    · rw [if_neg hxk] at hxe
      exact hxe ▸ hx
  · intro h
    exact List.mem_map.mpr ⟨r, h, by rw [if_neg hk]⟩

theorem mem_sqlUpdate_key {rows : List Row} {k : Nat} {e : DirectoryEntry} {r : Row}
    (h : r ∈ sqlUpdate rows k e) (hk : r.md5path = k) :
    ∃ x ∈ rows, x.md5path = k ∧ r = BindDirent x.md5path x.parent e := by
  unfold sqlUpdate at h
  obtain ⟨x, hx, hxe⟩ := List.mem_map.mp h
  by_cases hxk : x.md5path = k
  · rw [if_pos hxk] at hxe
    exact ⟨x, hx, hxk, hxe.symm⟩
  · rw [if_neg hxk] at hxe
    exact absurd (hxe ▸ hk) hxk

theorem CreateDatabaseFlags_mountpoint {e : DirectoryEntry}
    (h1 : e.IsNestedCatalogRoot = false) (h2 : e.IsNestedCatalogMountpoint = true)
    (h3 : e.IsDirectory = true) :
    CreateDatabaseFlags e = kFlagDir ||| kFlagDirNestedMountpoint := by
  unfold CreateDatabaseFlags
  rw [h1, h2, h3]
  simp [kFlagDir, kFlagDirNestedRoot, kFlagDirNestedMountpoint]

theorem CreateDatabaseFlags_root {e : DirectoryEntry}
    (h1 : e.IsNestedCatalogRoot = true) (h3 : e.IsDirectory = true) :
    CreateDatabaseFlags e = kFlagDir ||| kFlagDirNestedRoot := by
  unfold CreateDatabaseFlags
  rw [h1, h3]
  simp [kFlagDir, kFlagDirNestedRoot, kFlagDirNestedMountpoint]

theorem RemoveNestedCatalog_eq (c : Catalog) (m : String) :
    ∃ c', RemoveNestedCatalog c m = (true, c', if m ∈ c.children then some m else none) ∧
      c'.rows = c.rows ∧ c'.chunks = c.chunks ∧ c'.path = c.path ∧
      c'.nested_catalogs = c.nested_catalogs.filter (fun x => x.1 != m) ∧
      c'.children = c.children.filter (fun p => p != m) := by
  unfold RemoveNestedCatalog FindChild
  dsimp only
  cases hf : List.find? (fun p => p == m) c.children with
  | some child =>
    have h1 := List.find?_some hf
    have h2 := List.mem_of_find?_eq_some hf
    simp only [beq_iff_eq] at h1
    subst h1
    refine ⟨RemoveChild
      { c with nested_catalogs := List.filter (fun x => x.1 != child) c.nested_catalogs }
      child, ?_, rfl, rfl, rfl, rfl, rfl⟩
    simp [h2]
  | none =>
    have h1 := List.find?_eq_none.mp hf
    simp only [beq_iff_eq] at h1
    have hnot : m ∉ c.children := fun hm => h1 m hm rfl
    refine ⟨{ c with nested_catalogs := List.filter (fun x => x.1 != m) c.nested_catalogs },
      ?_, rfl, rfl, rfl, rfl, ?_⟩
    · simp [hnot]
    · dsimp only
      symm
      apply List.filter_eq_self.mpr
      intro p hp
      have := h1 p hp
      simpa using this

theorem InsertNestedCatalog_true {c c' : Catalog} {m : String} {ref : Option String}
    {sha : String} (h : InsertNestedCatalog c m ref sha = (true, c')) :
    c'.rows = c.rows ∧ c'.chunks = c.chunks ∧ c'.path = c.path ∧
    c'.nested_catalogs = c.nested_catalogs ++ [(m, sha)] ∧
    c'.children = c.children ++ ref.toList ∧
    (∀ x ∈ c.nested_catalogs, x.1 ≠ m) := by
  unfold InsertNestedCatalog at h
  simp only at h
  split at h
  · rename_i hs
    have hfresh : ∀ x ∈ c.nested_catalogs, x.1 ≠ m := by
      intro x hx hxm
      have : (c.nested_catalogs.any fun x => x.1 == m) = true :=
        List.any_eq_true.mpr ⟨x, hx, by simpa using hxm⟩
      simp [this] at hs
    cases ref with
    | none =>
      simp only [Prod.mk.injEq, true_and] at h
      subst h
      exact ⟨rfl, rfl, rfl, rfl, by simp, hfresh⟩
    | some child =>
      simp only [Prod.mk.injEq, true_and] at h
      subst h
      exact ⟨rfl, rfl, rfl, rfl, by simp [AddChild], hfresh⟩
  · simp at h

theorem MoveCatalogsToNested_true :
    ∀ (l : List String) (this nested this' nested' : Catalog),
      MoveCatalogsToNested l this nested = (true, this', nested') →
      (this'.rows = this.rows ∧ this'.chunks = this.chunks ∧ this'.path = this.path) ∧
      (nested'.rows = nested.rows ∧ nested'.chunks = nested.chunks ∧
        nested'.path = nested.path) ∧
      this'.nested_catalogs = this.nested_catalogs.filter (fun x => !l.contains x.1) ∧
      nested'.nested_catalogs = nested.nested_catalogs ++ l.map (fun g => (g, "")) ∧
      this'.children = this.children.filter (fun p => !l.contains p) ∧
      (∀ p, p ∈ nested'.children ↔ p ∈ nested.children ∨ (p ∈ l ∧ p ∈ this.children)) := by
  intro l
  induction l with
  | nil =>
    intro this nested this' nested' h
    simp only [MoveCatalogsToNested, Prod.mk.injEq, true_and] at h
    obtain ⟨rfl, rfl⟩ := h
    simp
  | cons i rest ih =>
    intro this nested this' nested' h
    obtain ⟨this1, hrem, r1, r2, r3, r4, r5⟩ := RemoveNestedCatalog_eq this i
    simp only [MoveCatalogsToNested, hrem] at h
    cases hins : InsertNestedCatalog nested i (if i ∈ this.children then some i else none) ""
      with
    | mk ok nested1 =>
      rw [hins] at h
      cases ok with
      | false => simp at h
      | true =>
        simp only at h
        obtain ⟨i1, i2, i3, i4, i5, _⟩ := InsertNestedCatalog_true hins
        obtain ⟨⟨a1, a2, a3⟩, ⟨b1, b2, b3⟩, c1, c2, c3, c4⟩ := ih _ _ _ _ h
        refine ⟨⟨a1.trans r1, a2.trans r2, a3.trans r3⟩,
          ⟨b1.trans i1, b2.trans i2, b3.trans i3⟩, ?_, ?_, ?_, ?_⟩
        · rw [c1, r4, List.filter_filter]
          apply List.filter_congr
          intro x _
          by_cases hx : x.1 = i <;> simp [hx, List.contains_cons]
        · rw [c2, i4]
          simp
        · rw [c3, r5, List.filter_filter]
          apply List.filter_congr
          intro x _
          by_cases hx : x = i <;> simp [hx, List.contains_cons]
        · intro p
          rw [c4, i5, r5]
          by_cases hi : i ∈ this.children
          · simp only [hi, if_true, Option.toList, List.mem_append, List.mem_singleton,
              List.mem_filter, List.mem_cons, List.not_mem_nil, or_false, bne_iff_ne, ne_eq,
              decide_not]
            constructor
            · rintro ((h1 | h1) | ⟨h1, h2, _⟩)
              · exact Or.inl h1
              · exact Or.inr ⟨Or.inl h1, h1 ▸ hi⟩
              · exact Or.inr ⟨Or.inr h1, h2⟩
            · rintro (h1 | ⟨h1 | h1, h2⟩)
              · exact Or.inl (Or.inl h1)
              · exact Or.inl (Or.inr h1)
              · by_cases hpi : p = i
                · exact Or.inl (Or.inr hpi)
                · exact Or.inr ⟨h1, h2, by simpa using hpi⟩
          · simp only [hi, if_false, Option.toList, List.append_nil, List.mem_filter,
              List.mem_cons, bne_iff_ne, ne_eq, decide_not]
            constructor
            · rintro (h1 | ⟨h1, h2, _⟩)
              · exact Or.inl h1
              · exact Or.inr ⟨Or.inr h1, h2⟩
            · rintro (h1 | ⟨h1 | h1, h2⟩)
              · exact Or.inl h1
              · exact absurd (h1 ▸ h2) hi
              · refine Or.inr ⟨h1, h2, ?_⟩
                have : p ≠ i := fun hpi => hi (hpi ▸ h2)
                simpa using this

theorem LookupPath_some {pr : Process} {c : Catalog} {path : String} {e : DirectoryEntry}
    (h : LookupPath pr c path = some e) :
    ∃ r ∈ c.rows, r.md5path = pr.PH path ∧ e = GetDirent pr r ∧
      c.rows.find? (fun x => x.md5path == pr.PH path) = some r := by
  unfold LookupPath at h
  cases hf : c.rows.find? (fun r => r.md5path == pr.PH path) with
  | none => rw [hf] at h; simp at h
  | some r =>
    rw [hf] at h
    simp only [Option.map_some', Option.some.injEq] at h
    have h1 := List.find?_some hf
    simp only [beq_iff_eq] at h1
    exact ⟨r, List.mem_of_find?_eq_some hf, h1, h.symm, rfl⟩

theorem MakeTransitionPoint_true {pr : Process} {c c' : Catalog} {M : String}
    (h : MakeTransitionPoint pr c M = .done true c') :
    ∃ r0 ∈ c.rows, r0.md5path = pr.PH M ∧
      c.rows.find? (fun x => x.md5path == pr.PH M) = some r0 ∧
      (GetDirent pr r0).IsDirectory = true ∧ (GetDirent pr r0).IsNestedCatalogRoot = false ∧
      c'.rows = sqlUpdate c.rows (pr.PH M)
        { GetDirent pr r0 with is_nested_catalog_mountpoint := true } ∧
      c'.chunks = c.chunks ∧ c'.nested_catalogs = c.nested_catalogs ∧
      c'.children = c.children ∧ c'.path = c.path := by
  unfold MakeTransitionPoint at h
  cases hl : LookupPath pr c M with
  | none => rw [hl] at h; simp at h
  | some e =>
    rw [hl] at h
    obtain ⟨r0, hr0, hk, he, hfind⟩ := LookupPath_some hl
    subst he
    simp only [UpdateEntry, SetDirty] at h
    split at h
    · rename_i hcond
      simp only [Bool.and_eq_true, Bool.not_eq_true'] at hcond
      simp only [Res.done.injEq, true_and] at h
      subst h
      exact ⟨r0, hr0, hk, hfind, hcond.1, hcond.2, rfl, rfl, rfl, rfl, rfl⟩
    · simp at h

theorem MakeNestedRoot_true {pr : Process} {c c' : Catalog}
    (h : MakeNestedRoot pr c = .done true c') :
    ∃ r0 ∈ c.rows, r0.md5path = pr.PH c.path ∧
      c.rows.find? (fun x => x.md5path == pr.PH c.path) = some r0 ∧
      (GetDirent pr r0).IsDirectory = true ∧
      (GetDirent pr r0).IsNestedCatalogMountpoint = false ∧
      c'.rows = sqlUpdate c.rows (pr.PH c.path)
        { GetDirent pr r0 with is_nested_catalog_root := true } ∧
      c'.chunks = c.chunks ∧ c'.nested_catalogs = c.nested_catalogs ∧
      c'.children = c.children ∧ c'.path = c.path := by
  unfold MakeNestedRoot at h
  cases hl : LookupPath pr c c.path with
  | none => rw [hl] at h; simp at h
  | some e =>
    rw [hl] at h
    obtain ⟨r0, hr0, hk, he, hfind⟩ := LookupPath_some hl
    subst he
    simp only [UpdateEntry, SetDirty] at h
    split at h
    · rename_i hcond
      simp only [Bool.and_eq_true, Bool.not_eq_true'] at hcond
      simp only [Res.done.injEq, true_and] at h
      subst h
      exact ⟨r0, hr0, hk, hfind, hcond.1, hcond.2, rfl, rfl, rfl, rfl, rfl⟩
    · simp at h

/-- A successful `Partition` is the sequence of its four successful steps. -/
theorem Partition_true {pr : Process} {depth : Nat} {P C P' C' : Catalog}
    (h : Partition pr depth P C = .done true (P', C')) :
    ∃ P1 C1 st, MakeTransitionPoint pr P C.path = .done true P1 ∧
      MakeNestedRoot pr C = .done true C1 ∧
      MoveToNestedRecursively pr depth C1.path ⟨P1, C1, []⟩ = .done true st ∧
      MoveCatalogsToNested st.grand_child_mountpoints st.parent st.nested = (true, P', C') := by
  unfold Partition at h
  cases h1 : MakeTransitionPoint pr P C.path with
  | abort => rw [h1] at h; simp at h
  | exhausted => rw [h1] at h; simp at h
  | done ok1 P1 =>
    rw [h1] at h
    cases ok1 with
    | false => simp at h
    | true =>
      simp only at h
      cases h2 : MakeNestedRoot pr C with
      | abort => rw [h2] at h; simp at h
      | exhausted => rw [h2] at h; simp at h
      | done ok2 C1 =>
        rw [h2] at h
        cases ok2 with
        | false => simp at h
        | true =>
          simp only at h
          cases h3 : MoveToNestedRecursively pr depth C1.path ⟨P1, C1, []⟩ with
          | abort => rw [h3] at h; simp at h
          | exhausted => rw [h3] at h; simp at h
          | done ok3 st =>
            rw [h3] at h
            cases ok3 with
            | false => simp at h
            | true =>
              simp only at h
              cases h4 : MoveCatalogsToNested st.grand_child_mountpoints st.parent st.nested with
              | mk ok4 pc =>
                obtain ⟨p4, c4⟩ := pc
                rw [h4] at h
                simp only [Res.done.injEq, Prod.mk.injEq] at h
                obtain ⟨rfl, rfl, rfl⟩ := h
                exact ⟨P1, C1, st, rfl, rfl, h3, h4⟩

theorem GetDirent_name_BindDirent (pr : Process) (k p : Nat) (r : Row) (e : DirectoryEntry)
    (he : e.name = (GetDirent pr r).name) :
    (GetDirent pr (BindDirent k p e)).name = (GetDirent pr r).name := by
  simp only [GetDirent, BindDirent] at he ⊢
  rw [he]
  simp [cstr_idem]

theorem PathConsistent.sqlUpdate {pr : Process} {rows : List Row} {k : Nat} {r0 : Row}
    {e : DirectoryEntry} (hK : KeysUnique rows) (hP : PathConsistent pr rows)
    (hr0 : r0 ∈ rows) (hk : r0.md5path = k) (he : e.name = (GetDirent pr r0).name) :
    PathConsistent pr (sqlUpdate rows k e) := by
  intro r hr d hp
  by_cases hrk : r.md5path = k
  · obtain ⟨x, hx, hxk, rfl⟩ := mem_sqlUpdate_key hr hrk
    have hx0 : x = r0 := hK.eq_of_key hx hr0 (hxk.trans hk.symm)
    subst hx0
    have h1 := hP x hx d hp
    simp only [fullPath] at h1 ⊢
    rw [GetDirent_name_BindDirent pr _ _ x e he]
    exact h1
  · exact hP r ((mem_sqlUpdate_of_ne hrk).mp hr) d hp

/-- Everything a successful `Partition` did, in terms of the invariant of the
subtree move. -/
theorem Partition_analysis {pr : Process} {depth : Nat} {P C P' C' : Catalog}
    (hK : KeysUnique P.rows) (hP : PathConsistent pr P.rows)
    (h : Partition pr depth P C = .done true (P', C')) :
    ∃ r0 P1 C1 st,
      (r0 ∈ P.rows ∧ r0.md5path = pr.PH C.path ∧
        (GetDirent pr r0).IsDirectory = true ∧
        (GetDirent pr r0).IsNestedCatalogRoot = false ∧
        P1.rows = sqlUpdate P.rows (pr.PH C.path)
          { GetDirent pr r0 with is_nested_catalog_mountpoint := true } ∧
        P1.nested_catalogs = P.nested_catalogs ∧ P1.children = P.children ∧
        P1.chunks = P.chunks) ∧
      MakeNestedRoot pr C = .done true C1 ∧
      KeysUnique P1.rows ∧ PathConsistent pr P1.rows ∧
      MoveInv pr P1.rows C.path st ∧ Grow ⟨P1, C1, []⟩ st ∧
      (∀ r ∈ P1.rows, r.parent = pr.PH C.path → r ∉ st.parent.rows) ∧
      MoveCatalogsToNested st.grand_child_mountpoints st.parent st.nested = (true, P', C') ∧
      P'.rows = st.parent.rows ∧ C'.rows = st.nested.rows := by
  obtain ⟨P1, C1, st, h1, h2, h3, h4⟩ := Partition_true h
  obtain ⟨r0, hr0, hk0, _, hdir, hroot, hrows, t1, t2, t3, _⟩ := MakeTransitionPoint_true h1
  obtain ⟨_, _, _, _, _, _, _, _, _, _, hpath⟩ := MakeNestedRoot_true h2
  have hK1 : KeysUnique P1.rows := by
    unfold KeysUnique
    rw [hrows, sqlUpdate_keys]
    exact hK
  have hP1 : PathConsistent pr P1.rows := by
    rw [hrows]
    exact hP.sqlUpdate hK hr0 hk0 (by simp [GetDirent])
  rw [hpath] at h3
  have hinv0 : MoveInv pr P1.rows C.path ⟨P1, C1, []⟩ :=
    ⟨fun r hr => hr, fun x _ hnx => absurd ‹x ∈ P1.rows› hnx,
      fun x _ hnx => absurd ‹x ∈ P1.rows› hnx, by simp⟩
  obtain ⟨hinv, hgrow, hgone⟩ :=
    MoveToNestedRecursively_spec hK1 hP1 depth _ _ _ (Or.inl rfl) hinv0 h3
  obtain ⟨⟨a1, _, _⟩, ⟨b1, _, _⟩, _⟩ := MoveCatalogsToNested_true _ _ _ _ _ h4
  exact ⟨r0, P1, C1, st, ⟨hr0, hk0, hdir, hroot, hrows, t2, t3, t1⟩, h2, hK1, hP1, hinv, hgrow,
    hgone, h4, a1, b1⟩

theorem moveListing_grow {pr : Process} {f : String → MoveState → Res MoveState}
    {d : String} (hrec : ∀ d st st', f d st = .done true st' → Grow st st') :
    ∀ (l : List DirectoryEntry) (st st' : MoveState),
      moveListing pr f d l st = .done true st' → Grow st st' := by
  intro l
  induction l with
  | nil =>
    intro st st' h
    simp only [moveListing, Res.done.injEq, true_and] at h
    subst h
    exact Grow.refl _
  | cons i rest ih =>
    intro st st' h
    simp only [moveListing] at h
    cases hadd : AddEntryAt pr st.nested i (d ++ "/" ++ i.name) with
    | mk ok nested =>
      rw [hadd] at h
      cases ok with
      | false => simp at h
      | true =>
        simp only at h
        obtain ⟨a1, a2, a3, a4, a5, a6⟩ := AddEntryAt_true hadd
        have hgrow1 : Grow st { st with nested := nested } :=
          ⟨List.Sublist.refl _, by rw [a1]; exact List.prefix_append _ _,
            List.prefix_refl _, rfl, rfl, rfl, rfl, a2, a3, a4, a5, a6⟩
        have key : ∀ st2 : MoveState, Grow { st with nested := nested } st2 →
            (match RemoveEntry pr st2.parent (d ++ "/" ++ i.name) with
              | (false, parent) => Res.done false { st2 with parent := parent }
              | (true, parent) => moveListing pr f d rest { st2 with parent := parent })
              = .done true st' → Grow st st' := by
          intro st2 hgrow2 hrem
          cases hre : RemoveEntry pr st2.parent (d ++ "/" ++ i.name) with
          | mk ok2 parent =>
            rw [hre] at hrem
            cases ok2 with
            | false => simp at hrem
            | true =>
              simp only at hrem
              obtain ⟨b1, b2, b3, b4, b5⟩ := RemoveEntry_true hre
              have hgrow3 : Grow st2 { st2 with parent := parent } :=
                ⟨by rw [b1]; exact List.filter_sublist _, List.prefix_refl _,
                  List.prefix_refl _, b2, b3, b4, b5, rfl, rfl, rfl, rfl, fun h => h⟩
              exact (hgrow1.trans hgrow2).trans (hgrow3.trans (ih _ _ hrem))
        by_cases hmnt : i.IsNestedCatalogMountpoint = true
        · simp only [hmnt, if_true] at h
          exact key { st with nested := nested, grand_child_mountpoints :=
            st.grand_child_mountpoints ++ [d ++ "/" ++ i.name] }
            ⟨List.Sublist.refl _, List.prefix_refl _, List.prefix_append _ _,
              rfl, rfl, rfl, rfl, rfl, rfl, rfl, rfl, fun h => h⟩ h
        · by_cases hdir : i.IsDirectory = true
          · simp only [hmnt, hdir, if_true] at h
            cases hsub : f (d ++ "/" ++ i.name) { st with nested := nested } with
            | abort => rw [hsub] at h; simp at h
            | exhausted => rw [hsub] at h; simp at h
            | done ok2 st2 =>
              rw [hsub] at h
              cases ok2 with
              | false => simp at h
              | true => exact key st2 (hrec _ _ _ hsub) h
          · simp only [hmnt, hdir] at h
            exact key { st with nested := nested } (Grow.refl _) h

theorem MoveToNestedRecursively_grow {pr : Process} :
    ∀ (depth : Nat) (d : String) (st st' : MoveState),
      MoveToNestedRecursively pr depth d st = .done true st' → Grow st st' := by
  intro depth
  induction depth with
  | zero =>
    intro d st st' h
    simp [MoveToNestedRecursively] at h
  | succ n ih =>
    intro d st st' h
    simp only [MoveToNestedRecursively] at h
    exact moveListing_grow ih _ _ _ h

/-- What a successful `Partition` leaves outside the `catalog` table of the
parent, whatever the tables hold. -/
theorem Partition_frame {pr : Process} {depth : Nat} {P C P' C' : Catalog}
    (h : Partition pr depth P C = .done true (P', C')) :
    ∃ (r0 : Row) (C1 : Catalog) (grand : List String),
      (r0 ∈ C.rows ∧ r0.md5path = pr.PH C.path ∧
        C.rows.find? (fun x => x.md5path == pr.PH C.path) = some r0 ∧
        (GetDirent pr r0).IsDirectory = true ∧
        C1.rows = sqlUpdate C.rows (pr.PH C.path)
          { GetDirent pr r0 with is_nested_catalog_root := true }) ∧
      C1.rows <+: C'.rows ∧ (KeysUnique C.rows → KeysUnique C'.rows) ∧
      P'.nested_catalogs = P.nested_catalogs.filter (fun x => !grand.contains x.1) ∧
      C'.nested_catalogs = C.nested_catalogs ++ grand.map (fun g => (g, "")) ∧
      P'.children = P.children.filter (fun p => !grand.contains p) ∧
      (∀ p, p ∈ C'.children ↔ p ∈ C.children ∨ (p ∈ grand ∧ p ∈ P.children)) ∧
      P'.chunks = P.chunks ∧ C'.chunks = C.chunks := by
  obtain ⟨P1, C1, st, h1, h2, h3, h4⟩ := Partition_true h
  obtain ⟨_, _, _, _, _, _, _, t1, t2, t3, _⟩ := MakeTransitionPoint_true h1
  obtain ⟨r0, hr0, hk0, hfind, hdir, _, hrows, u1, u2, u3, _⟩ := MakeNestedRoot_true h2
  have hgrow := MoveToNestedRecursively_grow _ _ _ _ h3
  obtain ⟨⟨_, a2, _⟩, ⟨b1, b2, _⟩, c1, c2, c3, c4⟩ := MoveCatalogsToNested_true _ _ _ _ _ h4
  refine ⟨r0, C1, st.grand_child_mountpoints, ⟨hr0, hk0, hfind, hdir, hrows⟩, ?_, ?_, ?_, ?_,
    ?_, ?_, ?_, ?_⟩
  · rw [b1]; exact hgrow.nested
  · intro hK
    rw [b1]
    apply hgrow.nkeys
    show KeysUnique C1.rows
    unfold KeysUnique
    rw [hrows, sqlUpdate_keys]
    exact hK
  · rw [c1, hgrow.pnested, t2]
  · rw [c2, hgrow.nnested, u2]
  · rw [c3, hgrow.pchildren, t3]
  · intro p
    rw [c4 p, hgrow.nchildren, hgrow.pchildren, u3, t3]
  · rw [a2, hgrow.pchunks, t1]
  · rw [b2, hgrow.nchunks, u1]

theorem sqlInsertAll_some :
    ∀ (new target rows : List Row), sqlInsertAll target new = some rows →
      rows = target ++ new ∧ (new.map Row.md5path).Nodup ∧
      ∀ c ∈ new, ∀ t ∈ target, t.md5path ≠ c.md5path := by
  intro new
  induction new with
  | nil =>
    intro target rows h
    simp only [sqlInsertAll, Option.some.injEq] at h
    subst h
    simp
  | cons r rest ih =>
    intro target rows h
    simp only [sqlInsertAll, sqlInsert] at h
    by_cases hk : hasKey target r.md5path = true
    · simp [hk] at h
    · simp only [hk, if_false] at h
      obtain ⟨h1, h2, h3⟩ := ih _ _ h
      have hfresh : ∀ t ∈ target, t.md5path ≠ r.md5path := by
        intro t ht heq
        apply hk
        unfold hasKey
        exact List.any_eq_true.mpr ⟨t, ht, by simpa using heq⟩
      refine ⟨by rw [h1]; simp, ?_, ?_⟩
      · simp only [List.map_cons, List.nodup_cons]
        refine ⟨?_, h2⟩
        intro hmem
        obtain ⟨c, hc, hck⟩ := List.mem_map.mp hmem
        exact h3 c hc r (List.mem_append_right _ (List.mem_singleton_self _)) hck.symm
      · intro c hc t ht
        rcases List.mem_cons.mp hc with rfl | hc
        · exact hfresh t ht
        · exact h3 c hc t (List.mem_append_left _ ht)

theorem sqlUpdateLinkIds_eq (rows : List Row) (offset : Int) :
    sqlUpdateLinkIds rows offset = rows.map (shiftRow offset) := rfl

theorem shiftRow_fields (offset : Int) (r : Row) :
    (shiftRow offset r).md5path = r.md5path ∧ (shiftRow offset r).parent = r.parent ∧
    (shiftRow offset r).hash = r.hash ∧ (shiftRow offset r).size = r.size ∧
    (shiftRow offset r).mode = r.mode ∧ (shiftRow offset r).mtime = r.mtime ∧
    (shiftRow offset r).flags = r.flags ∧ (shiftRow offset r).name = r.name ∧
    (shiftRow offset r).symlink = r.symlink ∧ (shiftRow offset r).uid = r.uid ∧
    (shiftRow offset r).gid = r.gid ∧
    (shiftRow offset r).hardlinks =
      if r.hardlinks > 2 ^ 32 then r.hardlinks + offset else r.hardlinks := by
  unfold shiftRow
  split <;> simp [*]

theorem CopyToParent_true {pr : Process} {C P P' C' : Catalog}
    (h : CopyToParent pr C P = .done true (P', C')) :
    ∃ rows r0,
      sqlInsertAll (P.rows.filter (fun r => r.md5path != pr.PH C.path))
        (sqlUpdateLinkIds C.rows (linkIdOffset P)) = some rows ∧
      rows.find? (fun x => x.md5path == pr.PH C.path) = some r0 ∧
      (GetDirent pr r0).IsDirectory = true ∧
      (GetDirent pr r0).IsNestedCatalogRoot = true ∧
      (GetDirent pr r0).IsNestedCatalogMountpoint = false ∧
      P'.rows = sqlUpdate rows (pr.PH C.path)
        { GetDirent pr r0 with is_nested_catalog_root := false } ∧
      P'.chunks = P.chunks ∧ P'.nested_catalogs = P.nested_catalogs ∧
      P'.children = P.children ∧ P'.path = P.path ∧
      C'.rows = sqlUpdateLinkIds C.rows (linkIdOffset P) ∧ C'.chunks = C.chunks ∧
      C'.nested_catalogs = C.nested_catalogs ∧ C'.children = C.children ∧
      C'.path = C.path := by
  unfold CopyToParent at h
  simp only at h
  cases hre : RemoveEntry pr P C.path with
  | mk ok P1 =>
    rw [hre] at h
    cases ok with
    | false => simp at h
    | true =>
      simp only at h
      obtain ⟨b1, b2, b3, b4, b5⟩ := RemoveEntry_true hre
      generalize hC2 : (if C.dirty = true then
        Commit { C with rows := sqlUpdateLinkIds C.rows (linkIdOffset P) }
        else { C with rows := sqlUpdateLinkIds C.rows (linkIdOffset P) }) = C2 at h
      generalize hP2 : (if P1.dirty = true then Commit P1 else P1) = P2 at h
      have c1 : C2.rows = sqlUpdateLinkIds C.rows (linkIdOffset P) := by
        rw [← hC2]; split <;> rfl
      have c2 : C2.chunks = C.chunks := by rw [← hC2]; split <;> rfl
      have c3 : C2.nested_catalogs = C.nested_catalogs := by rw [← hC2]; split <;> rfl
      have c4 : C2.children = C.children := by rw [← hC2]; split <;> rfl
      have c5 : C2.path = C.path := by rw [← hC2]; split <;> rfl
      have p1 : P2.rows = P.rows.filter (fun r => r.md5path != pr.PH C.path) := by
        rw [← hP2, ← b1]; split <;> rfl
      have p2 : P2.chunks = P.chunks := by rw [← hP2, ← b2]; split <;> rfl
      have p3 : P2.nested_catalogs = P.nested_catalogs := by rw [← hP2, ← b3]; split <;> rfl
      have p4 : P2.children = P.children := by rw [← hP2, ← b4]; split <;> rfl
      have p5 : P2.path = P.path := by rw [← hP2, ← b5]; split <;> rfl
      cases hins : sqlInsertAll P2.rows C2.rows with
      | none => rw [hins] at h; simp at h
      | some rows =>
        rw [hins] at h
        simp only at h
        cases hl : LookupPath pr (SetDirty { P2 with rows := rows }) C2.path with
        | none => rw [hl] at h; simp at h
        | some e =>
          rw [hl] at h
          obtain ⟨r0, _, _, he, hfind⟩ := LookupPath_some hl
          subst he
          simp only [UpdateEntry, SetDirty] at h hfind
          split at h
          · rename_i hcond
            simp only [Bool.and_eq_true, Bool.not_eq_true'] at hcond
            simp only [Res.done.injEq, Prod.mk.injEq, true_and] at h
            obtain ⟨rfl, rfl⟩ := h
            rw [p1, c1] at hins
            rw [c5] at hfind
            exact ⟨rows, r0, hins, hfind, hcond.1.1, hcond.1.2, hcond.2, by rw [c5], p2, p3,
              p4, p5, c1, c2, c3, c4, c5⟩
          · simp at h

theorem Below.path_unique {pr : Process} {R : List Row} {M f f' : String} {r : Row}
    (hinj : Function.Injective pr.PH) (h : Below pr R M f r) (h' : Below pr R M f' r) :
    f = f' := by
  have key : ∀ {g : String}, Below pr R M g r → ∃ d, r.parent = pr.PH d ∧ g = fullPath pr d r := by
    intro g hg
    cases hg with
    | child _ hp => exact ⟨M, hp, rfl⟩
    | step _ _ _ hp => exact ⟨_, hp, rfl⟩
  obtain ⟨d, hd, rfl⟩ := key h
  obtain ⟨d', hd', rfl⟩ := key h'
  rw [hinj (hd.symm.trans hd')]

theorem extend_ne_of_injective {pr : Process} (hinj : Function.Injective pr.PH) (M : String) :
    ∀ s : String, s ≠ "" → pr.PH (M ++ s) ≠ pr.PH M := by
  intro s hs heq
  have h1 := congrArg String.length (hinj heq)
  rw [String.length_append] at h1
  have h2 : s.data.length = 0 := by
    have : s.length = s.data.length := rfl
    omega
  exact hs (String.ext (List.length_eq_zero.mp h2))

theorem MoveInv.below_gone {pr : Process} {R : List Row} {M : String} {st : MoveState}
    (hP : PathConsistent pr R) (hinv : MoveInv pr R M st)
    (hgone : ∀ r ∈ R, r.parent = pr.PH M → r ∉ st.parent.rows) :
    ∀ full r, Below pr R M full r → r ∉ st.parent.rows := by
  intro full r hb
  induction hb with
  | child hr hp => exact hgone _ hr hp
  | step hx hd hr hp ih =>
    exact hinv.closed _ hx.mem ih hd _ hr (hp.trans (hx.key hP).symm)

/-- The rows a successful `Partition` leaves in the child for the entries below
the mountpoint: for an entry `r` of the parent at the path `full`, the row
`AddEntry` stores for the decoded entry, keyed `PH(full)` with the parent hash
`PH(parent(full))`. -/
theorem partition_child_rows {pr : Process} {depth : Nat} {P C P' C' : Catalog}
    (hK : KeysUnique P.rows) (hP : PathConsistent pr P.rows)
    (hinj : Function.Injective pr.PH)
    (h : Partition pr depth P C = .done true (P', C')) :
    ∀ full r, Below pr P.rows C.path full r → movedRow pr full r ∈ C'.rows := by
  have hM := extend_ne_of_injective hinj C.path
  obtain ⟨r0, P1, C1, st, ⟨_, _, _, _, hrows, _, _, _⟩, _, hK1, hP1, hinv, _, hgone,
    _, _, hC'⟩ := Partition_analysis hK hP h
  have hM0 : ∀ full r, Below pr P.rows C.path full r → r.md5path ≠ pr.PH C.path :=
    fun full r hb => hb.key_ne hP hM
  have to1 : ∀ {full r}, Below pr P.rows C.path full r → Below pr P1.rows C.path full r :=
    Below.transfer (fun r hr hne => by rw [hrows]; exact (mem_sqlUpdate_of_ne hne).mpr hr) hM0
  intro full r hb
  have hb1 := to1 hb
  obtain ⟨full', hb', hmem, _⟩ := hinv.moved r hb1.mem (hinv.below_gone hP1 hgone full r hb1)
  rw [hC', Below.path_unique hinj hb1 hb']
  exact hmem

theorem InsertNestedCatalog_frame (c : Catalog) (m : String) (ref : Option String)
    (sha : String) :
    (InsertNestedCatalog c m ref sha).2.rows = c.rows ∧
    (InsertNestedCatalog c m ref sha).2.chunks = c.chunks := by
  unfold InsertNestedCatalog
  simp only
  split
  · cases ref <;> simp [AddChild]
  · simp

theorem copyCatalogsLoop_frame (this : Catalog) :
    ∀ (l : List (String × String)) (parent : Catalog),
      (copyCatalogsLoop this l parent).rows = parent.rows ∧
      (copyCatalogsLoop this l parent).chunks = parent.chunks := by
  intro l
  induction l with
  | nil => intro parent; exact ⟨rfl, rfl⟩
  | cons i rest ih =>
    intro parent
    simp only [copyCatalogsLoop]
    obtain ⟨h1, h2⟩ := ih (InsertNestedCatalog parent i.1 (FindChild this i.1) i.2).2
    obtain ⟨h3, h4⟩ := InsertNestedCatalog_frame parent i.1 (FindChild this i.1) i.2
    exact ⟨h1.trans h3, h2.trans h4⟩

/-- A successful `MergeIntoParent` starts with a successful `CopyToParent`, and
the later steps leave the tables `catalog` and `chunks` alone. -/
theorem MergeIntoParent_true {pr : Process} {C P P' C' : Catalog}
    (h : MergeIntoParent pr C P = .done true (P', C')) :
    ∃ P1, CopyToParent pr C P = .done true (P1, C') ∧ P'.rows = P1.rows ∧
      P'.chunks = P1.chunks := by
  unfold MergeIntoParent at h
  cases hc : CopyToParent pr C P with
  | abort => rw [hc] at h; simp at h
  | exhausted => rw [hc] at h; simp at h
  | done ok s =>
    obtain ⟨P1, C1⟩ := s
    rw [hc] at h
    cases ok with
    | false => simp at h
    | true =>
      simp only [CopyCatalogsToParent] at h
      obtain ⟨P2, hrem, r1, r2, _⟩ :=
        RemoveNestedCatalog_eq (copyCatalogsLoop C1 (ListNestedCatalogs C1) P1) C1.path
      rw [hrem] at h
      simp only [Res.done.injEq, Prod.mk.injEq, true_and] at h
      obtain ⟨rfl, rfl⟩ := h
      obtain ⟨f1, f2⟩ := copyCatalogsLoop_frame C1 (ListNestedCatalogs C1) P1
      exact ⟨P1, rfl, r1.trans f1, r2.trans f2⟩

/-- The table `catalog` of the parent after a successful `MergeIntoParent`:
the rows of the parent other than the mountpoint row, the renumbered rows of
the nested catalog other than its root row, and the re-encoded root row. -/
theorem Merge_rows {pr : Process} {C P P' C' : Catalog}
    (h : MergeIntoParent pr C P = .done true (P', C')) :
    ∃ r0 ∈ C.rows, r0.md5path = pr.PH C.path ∧
      (GetDirent pr r0).IsDirectory = true ∧
      (GetDirent pr r0).IsNestedCatalogRoot = true ∧
      (GetDirent pr r0).IsNestedCatalogMountpoint = false ∧
      KeysUnique C.rows ∧
      (∀ c ∈ C.rows, ∀ p ∈ P.rows, p.md5path ≠ pr.PH C.path → p.md5path ≠ c.md5path) ∧
      (∀ p, p ∈ P'.rows ↔
        (p ∈ P.rows ∧ p.md5path ≠ pr.PH C.path) ∨
        (∃ c ∈ C.rows, c.md5path ≠ pr.PH C.path ∧ p = shiftRow (linkIdOffset P) c) ∨
        p = BindDirent (pr.PH C.path) r0.parent
          { GetDirent pr (shiftRow (linkIdOffset P) r0) with
            is_nested_catalog_root := false }) ∧
      C'.rows = C.rows.map (shiftRow (linkIdOffset P)) ∧
      P'.chunks = P.chunks ∧ C'.chunks = C.chunks := by
  obtain ⟨P1, hcopy, hrows', hchunks'⟩ := MergeIntoParent_true h
  obtain ⟨rows, x0, hins, hfind, hdir, hroot, hmp, hP1, q2, _, _, _, hC', d2, _⟩ :=
    CopyToParent_true hcopy
  obtain ⟨hrows, hnodup, hdisj⟩ := sqlInsertAll_some _ _ _ hins
  rw [sqlUpdateLinkIds_eq] at hrows hnodup hdisj hC'
  have hx0k : x0.md5path = pr.PH C.path := by
    have := List.find?_some hfind
    simpa using this
  have hx0mem : x0 ∈ rows := List.mem_of_find?_eq_some hfind
  have hkeys : (C.rows.map (shiftRow (linkIdOffset P))).map Row.md5path =
      C.rows.map Row.md5path := by
    rw [List.map_map]
    apply List.map_congr_left
    intro r _
    exact (shiftRow_fields _ r).1
  have hK : KeysUnique C.rows := by
    unfold KeysUnique
    rw [← hkeys]
    exact hnodup
  -- the looked-up row is the renumbered root row of the nested catalog
  have hx0C : x0 ∈ C.rows.map (shiftRow (linkIdOffset P)) := by
    rw [hrows] at hx0mem
    rcases List.mem_append.mp hx0mem with hm | hm
    · have := (List.mem_filter.mp hm).2
      simp [hx0k] at this
    · exact hm
  obtain ⟨r0, hr0, hx0⟩ := List.mem_map.mp hx0C
  have hr0k : r0.md5path = pr.PH C.path := by
    rw [← hx0k, ← hx0]; exact ((shiftRow_fields _ r0).1).symm
  have hdec : GetDirent pr x0 = { GetDirent pr r0 with hardlinks := x0.hardlinks } := by
    rw [← hx0]
    unfold shiftRow
    split <;> rfl
  refine ⟨r0, hr0, hr0k, ?_, ?_, ?_, hK, ?_, ?_, hC', hchunks'.trans q2, d2⟩
  · rw [hdec] at hdir; exact hdir
  · rw [hdec] at hroot; exact hroot
  · rw [hdec] at hmp; exact hmp
  · intro c hc p hp hpk heq
    exact hdisj (shiftRow (linkIdOffset P) c) (List.mem_map.mpr ⟨c, hc, rfl⟩) p
      (List.mem_filter.mpr ⟨hp, by simpa using hpk⟩)
      (heq.trans ((shiftRow_fields _ c).1).symm)
  · intro p
    rw [hrows', hP1, hrows]
    unfold sqlUpdate
    simp only [List.map_append, List.mem_append, List.mem_map, List.mem_filter]
    constructor
    · rintro (⟨x, ⟨hx, hxk⟩, rfl⟩ | ⟨x, ⟨c, hc, rfl⟩, rfl⟩)
      · have hne : x.md5path ≠ pr.PH C.path := by simpa using hxk
        rw [if_neg hne]
        exact Or.inl ⟨hx, hne⟩
      · by_cases hck : c.md5path = pr.PH C.path
        · have hcr : c = r0 := hK.eq_of_key hc hr0 (hck.trans hr0k.symm)
          subst hcr
          rw [if_pos (((shiftRow_fields _ c).1).trans hck)]
          refine Or.inr (Or.inr ?_)
          rw [(shiftRow_fields _ c).1, (shiftRow_fields _ c).2.1, hck, hx0]
        · rw [if_neg (by rw [(shiftRow_fields _ c).1]; exact hck)]
          exact Or.inr (Or.inl ⟨c, hc, hck, rfl⟩)
    · rintro (⟨hp, hpk⟩ | ⟨c, hc, hck, rfl⟩ | rfl)
      · exact Or.inl ⟨p, ⟨hp, by simpa using hpk⟩, by rw [if_neg hpk]⟩
      · exact Or.inr ⟨_, ⟨c, hc, rfl⟩, by
          rw [if_neg (by rw [(shiftRow_fields _ c).1]; exact hck)]⟩
      · refine Or.inr ⟨_, ⟨r0, hr0, rfl⟩, ?_⟩
        rw [if_pos (((shiftRow_fields _ r0).1).trans hr0k)]
        rw [(shiftRow_fields _ r0).1, (shiftRow_fields _ r0).2.1, hr0k, hx0]

theorem Row.ext_fields (a b : Row) (h1 : a.md5path = b.md5path) (h2 : a.parent = b.parent)
    (h3 : a.hardlinks = b.hardlinks) (h4 : a.hash = b.hash) (h5 : a.size = b.size)
    (h6 : a.mode = b.mode) (h7 : a.mtime = b.mtime) (h8 : a.flags = b.flags)
    (h9 : a.name = b.name) (h10 : a.symlink = b.symlink) (h11 : a.uid = b.uid)
    (h12 : a.gid = b.gid) : a = b := by
  cases a
  cases b
  simp_all

theorem GetDirent_shiftRow (pr : Process) (offset : Int) (r : Row) :
    GetDirent pr (shiftRow offset r) =
      { GetDirent pr r with hardlinks := (shiftRow offset r).hardlinks } := by
  unfold shiftRow
  split <;> rfl

theorem demoPH_append (a s : String) :
    demoPH (a ++ s) = s.data.foldl (fun acc ch => acc * 4294967296 + ch.toNat) (demoPH a) := by
  simp [demoPH, String.data_append, List.foldl_append]

theorem demoPH_fold_ge (l : List Char) (a : Nat) :
    a ≤ l.foldl (fun acc ch => acc * 4294967296 + ch.toNat) a := by
  induction l generalizing a with
  | nil => exact Nat.le_refl _
  | cons c t ih =>
    simp only [List.foldl_cons]
    exact Nat.le_trans (by omega) (ih _)

theorem demoPH_pos (s : String) : 1 ≤ demoPH s :=
  demoPH_fold_ge s.data 1

theorem demoPH_extend_ne (M s : String) (hs : s ≠ "") : demoPH (M ++ s) ≠ demoPH M := by
  rw [demoPH_append]
  have hpos := demoPH_pos M
  cases hd : s.data with
  | nil => exact absurd (String.ext hd) hs
  | cons c t =>
    simp only [List.foldl_cons]
    have := demoPH_fold_ge t (demoPH M * 4294967296 + c.toNat)
    omega

theorem demo_row_consistent (r : Row) (par : String) (h1 : r.parent = demoPH par)
    (h2 : r.md5path = demoPH (fullPath demoProcess par r)) :
    ∀ d : String, r.parent = demoProcess.PH d →
      r.md5path = demoProcess.PH (fullPath demoProcess d r) := by
  intro d hd
  have hd' : demoPH par = demoPH d := h1.symm.trans hd
  show r.md5path = demoPH (fullPath demoProcess d r)
  rw [h2]
  simp only [fullPath, String.append_assoc]
  rw [demoPH_append par, demoPH_append d, hd']

theorem demoRoot_consistent : ∀ d : String, demoRoot.parent = demoProcess.PH d →
    demoRoot.md5path = demoProcess.PH (fullPath demoProcess d demoRoot) := by
  intro d hd
  have := demoPH_pos d
  have h0 : demoRoot.parent = 0 := rfl
  rw [h0] at hd
  have : demoPH d = 0 := hd.symm
  omega

theorem s4Parent_keys : KeysUnique s4Parent.rows := by
  unfold KeysUnique
  decide

theorem s4Parent_consistent : PathConsistent demoProcess s4Parent.rows := by
  intro r hr
  simp only [s4Parent, List.mem_cons, List.mem_singleton, List.not_mem_nil, or_false] at hr
  rcases hr with rfl | rfl | rfl | rfl | rfl
  · exact demoRoot_consistent
  · exact demo_row_consistent _ "" (by decide) (by decide)
  · exact demo_row_consistent _ "/a" (by decide) (by decide)
  · exact demo_row_consistent _ "/a/b" (by decide) (by decide)
  · exact demo_row_consistent _ "/a/b" (by decide) (by decide)

theorem s4_partition :
    Partition demoProcess 3 s4Parent s4Child = .done true (s4ParentAfter, s4ChildAfter) := by
  decide

theorem demoPH_fold_injective :
    ∀ l l' : List Char,
      l.foldl (fun acc ch => acc * 4294967296 + ch.toNat) 1 =
        l'.foldl (fun acc ch => acc * 4294967296 + ch.toNat) 1 → l = l' := by
  intro l
  induction l using List.reverseRecOn with
  | nil =>
    intro l' h
    rcases List.eq_nil_or_concat l' with rfl | ⟨t, c, rfl⟩
    · rfl
    · simp only [List.concat_eq_append, List.foldl_nil, List.foldl_append, List.foldl_cons] at h
      have := demoPH_fold_ge t 1
      omega
  | append_singleton t c ih =>
    intro l' h
    rcases List.eq_nil_or_concat l' with rfl | ⟨t', c', rfl⟩
    · simp only [List.concat_eq_append, List.foldl_nil, List.foldl_append, List.foldl_cons] at h
      have := demoPH_fold_ge t 1
      omega
    · simp only [List.concat_eq_append, List.foldl_append, List.foldl_cons,
        List.foldl_nil] at h
      have hc : c.toNat < 4294967296 := UInt32.toNat_lt c.val
      have hc' : c'.toNat < 4294967296 := UInt32.toNat_lt c'.val
      have h1 : t.foldl (fun acc ch => acc * 4294967296 + ch.toNat) 1 =
          t'.foldl (fun acc ch => acc * 4294967296 + ch.toNat) 1 := by omega
      have h2 : c.toNat = c'.toNat := by omega
      rw [List.concat_eq_append, ih t' h1, Char.ext (UInt32.toNat.inj h2)]

theorem demoPH_injective : Function.Injective demoProcess.PH := by
  intro a b h
  exact String.ext (demoPH_fold_injective a.data b.data h)

theorem gParent_keys : KeysUnique gParent.rows := by
  unfold KeysUnique
  decide

theorem gParent_consistent : PathConsistent demoProcess gParent.rows := by
  intro r hr
  simp only [gParent, List.mem_cons, List.mem_singleton, List.not_mem_nil, or_false] at hr
  rcases hr with rfl | rfl | rfl | rfl | rfl | rfl | rfl
  · exact demoRoot_consistent
  · exact demo_row_consistent _ "" (by decide) (by decide)
  · exact demo_row_consistent _ "/a" (by decide) (by decide)
  · exact demo_row_consistent _ "/a/b" (by decide) (by decide)
  · exact demo_row_consistent _ "/a/b" (by decide) (by decide)
  · exact demo_row_consistent _ "/a/b" (by decide) (by decide)
  · exact demo_row_consistent _ "" (by decide) (by decide)

theorem g_partition :
    Partition demoProcess 3 gParent s4Child = .done true (gParentAfter, gChildAfter) := by
  decide

/-- C1 (Partition, parent side).  Let the table of the parent `P` have unique
path hashes and be path consistent, and let no path strictly below the
mountpoint `M = C.path` hash like `M`.  If `Partition` returns true, then
(1) no row that was an entry at a path strictly below `M` is left in `P`, and
no row of `P` is keyed by the hash of such a path; (2) `P` still has the one
row keyed `PH(M)`, with the flags IsDir and IsNestedMountpoint; (3) every
other row of `P` that was not below `M` is still there, and `P` has no row it
did not have before, the mountpoint row apart. -/
theorem partition_parent_side (pr : Process) (depth : Nat) (P C P' C' : Catalog)
    (hK : KeysUnique P.rows) (hP : PathConsistent pr P.rows)
    (hM : ∀ s : String, s ≠ "" → pr.PH (C.path ++ s) ≠ pr.PH C.path)
    (h : Partition pr depth P C = .done true (P', C')) :
    (∀ full r, Below pr P.rows C.path full r →
      r ∉ P'.rows ∧ ∀ r' ∈ P'.rows, r'.md5path ≠ pr.PH full) ∧
    (∃ r ∈ P'.rows, r.md5path = pr.PH C.path ∧
      r.flags = kFlagDir ||| kFlagDirNestedMountpoint ∧
      ∀ r' ∈ P'.rows, r'.md5path = pr.PH C.path → r' = r) ∧
    (∀ r ∈ P.rows, r.md5path ≠ pr.PH C.path →
      (∀ full, ¬ Below pr P.rows C.path full r) → r ∈ P'.rows) ∧
    (∀ r' ∈ P'.rows, r'.md5path ≠ pr.PH C.path → r' ∈ P.rows) := by
  obtain ⟨r0, P1, C1, st, ⟨hr0, hk0, hdir, hroot, hrows, _, _, _⟩, _, hK1, hP1, hinv, _, hgone,
    _, hP', _⟩ := Partition_analysis hK hP h
  have hM1 : ∀ full r, Below pr P1.rows C.path full r → r.md5path ≠ pr.PH C.path :=
    fun full r hb => hb.key_ne hP1 hM
  have hM0 : ∀ full r, Below pr P.rows C.path full r → r.md5path ≠ pr.PH C.path :=
    fun full r hb => hb.key_ne hP hM
  have to1 : ∀ {full r}, Below pr P.rows C.path full r → Below pr P1.rows C.path full r :=
    Below.transfer (fun r hr hne => by rw [hrows]; exact (mem_sqlUpdate_of_ne hne).mpr hr) hM0
  have to0 : ∀ {full r}, Below pr P1.rows C.path full r → Below pr P.rows C.path full r :=
    Below.transfer (fun r hr hne => by
      rw [hrows] at hr; exact (mem_sqlUpdate_of_ne hne).mp hr) hM1
  -- every row below the mountpoint has left the parent
  have hout : ∀ full r, Below pr P1.rows C.path full r → r ∉ st.parent.rows := by
    intro full r hb
    induction hb with
    | child hr hp => exact hgone _ hr hp
    | step hx hd hr hp ih =>
      exact hinv.closed _ hx.mem ih hd _ hr (hp.trans (hx.key hP1).symm)
  refine ⟨?_, ?_, ?_, ?_⟩
  · intro full r hb
    have hb1 := to1 hb
    rw [hP']
    refine ⟨hout full r hb1, ?_⟩
    intro r' hr' hkey
    have : r' = r := hK1.eq_of_key (hinv.sub r' hr') hb1.mem (hkey.trans (hb1.key hP1).symm)
    exact hout full r hb1 (this ▸ hr')
  · let e : DirectoryEntry := { GetDirent pr r0 with is_nested_catalog_mountpoint := true }
    have hmem1 : BindDirent r0.md5path r0.parent e ∈ P1.rows := by
      rw [hrows]
      unfold sqlUpdate
      exact List.mem_map.mpr ⟨r0, hr0, by rw [if_pos hk0]⟩
    have hkey : (BindDirent r0.md5path r0.parent e).md5path = pr.PH C.path := hk0
    refine ⟨BindDirent r0.md5path r0.parent e, ?_, hkey, ?_, ?_⟩
    · rw [hP']
      by_contra hnot
      obtain ⟨full, hb, _⟩ := hinv.moved _ hmem1 hnot
      exact hM1 full _ hb hkey
    · have h1 : e.IsNestedCatalogRoot = false := hroot
      have h2 : e.IsDirectory = true := hdir
      have h3 : e.IsNestedCatalogMountpoint = true := rfl
      exact CreateDatabaseFlags_mountpoint h1 h3 h2
    · intro r' hr' hk'
      rw [hP'] at hr'
      exact hK1.eq_of_key (hinv.sub r' hr') hmem1 (hk'.trans hkey.symm)
  · intro r hr hne hnb
    have hr1 : r ∈ P1.rows := by rw [hrows]; exact (mem_sqlUpdate_of_ne hne).mpr hr
    rw [hP']
    by_contra hnot
    obtain ⟨full, hb, _⟩ := hinv.moved r hr1 hnot
    exact hnb full (to0 hb)
  · intro r' hr' hne
    rw [hP'] at hr'
    have := hinv.sub r' hr'
    rw [hrows] at this
    exact (mem_sqlUpdate_of_ne hne).mp this

/-- Witness of C1 on scenario S4. -/
theorem partition_parent_side_witness :
    KeysUnique s4Parent.rows ∧ PathConsistent demoProcess s4Parent.rows ∧
    (∀ s : String, s ≠ "" → demoProcess.PH (s4Child.path ++ s) ≠ demoProcess.PH s4Child.path) ∧
    Partition demoProcess 3 s4Parent s4Child = .done true (s4ParentAfter, s4ChildAfter) ∧
    ((∀ full r, Below demoProcess s4Parent.rows s4Child.path full r →
      r ∉ s4ParentAfter.rows ∧ ∀ r' ∈ s4ParentAfter.rows, r'.md5path ≠ demoProcess.PH full) ∧
    (∃ r ∈ s4ParentAfter.rows, r.md5path = demoProcess.PH s4Child.path ∧
      r.flags = kFlagDir ||| kFlagDirNestedMountpoint ∧
      ∀ r' ∈ s4ParentAfter.rows, r'.md5path = demoProcess.PH s4Child.path → r' = r) ∧
    (∀ r ∈ s4Parent.rows, r.md5path ≠ demoProcess.PH s4Child.path →
      (∀ full, ¬ Below demoProcess s4Parent.rows s4Child.path full r) →
      r ∈ s4ParentAfter.rows) ∧
    (∀ r' ∈ s4ParentAfter.rows, r'.md5path ≠ demoProcess.PH s4Child.path →
      r' ∈ s4Parent.rows)) :=
  ⟨s4Parent_keys, s4Parent_consistent, fun s hs => demoPH_extend_ne _ s hs, s4_partition,
    partition_parent_side demoProcess 3 s4Parent s4Child s4ParentAfter s4ChildAfter
      s4Parent_keys s4Parent_consistent (fun s hs => demoPH_extend_ne _ s hs) s4_partition⟩

/-- C2 (Partition, child side), evaluated on a parent that holds the variant
symlink `/a/b/l` with the target `/pre/$(A)/post` below the mountpoint `/a/b`:
`Partition` returns true, and the row the child holds for `/a/b/l` has the
target `xpost` followed by a NUL, not the target of the entry of the parent.
The listing decodes each row with `GetDirent`, which expands the symlink, and
`AddEntry` stores the expanded text. -/
theorem partition_child_symlink_rewritten :
    Partition demoProcess 3 linkParent s4Child = .done true (s4ParentAfter, linkChildAfter) ∧
    demoLink "/a/b/l" "/a/b" "l" "/pre/$(A)/post" ∈ linkParent.rows ∧
    (∀ c ∈ linkChildAfter.rows, c.md5path = demoPH "/a/b/l" →
      c.symlink = expandedTarget ∧ c.symlink ≠ "/pre/$(A)/post") := by
  refine ⟨by decide, by decide, by decide⟩

/-- C3, counterexample: the child is created with a root entry whose mtime is
99, the row `/a/b` of the parent has mtime 10; `Partition` returns true and the
root row of the child still has mtime 99. -/
theorem partition_root_copy_counterexample :
    Partition demoProcess 3 s4Parent (Create demoProcess staleRootEntry "/a/b")
      = .done true (s4ParentAfter, staleChildAfter) ∧
    ∃ p ∈ s4Parent.rows, ∃ c ∈ staleChildAfter.rows,
      p.md5path = demoPH "/a/b" ∧ c.md5path = demoPH "/a/b" ∧ c.mtime ≠ p.mtime := by
  refine ⟨by decide, demoDir "/a/b" "/a" "b" kFlagDir, by decide,
    { demoDir "/a/b" "/a" "b" (kFlagDir ||| kFlagDirNestedRoot) with mtime := 99 },
    by decide, by decide, by decide, by decide⟩

/-- C3, amended.  After a successful `Partition` into a child created by
`Create pr root_entry M`, the child has exactly one row keyed `PH(M)`; its
size, mode, mtime, uid and gid are those of `root_entry`, its name is the name
of `root_entry` as a C string, and its flags are IsDir and IsNestedRoot.
`Partition` takes nothing from the mountpoint entry of the parent. -/
theorem partition_root_keeps_created_entry (pr : Process) (depth : Nat) (P : Catalog)
    (root_entry : DirectoryEntry) (M : String) (P' C' : Catalog)
    (h : Partition pr depth P (Create pr root_entry M) = .done true (P', C')) :
    ∃ c ∈ C'.rows, c.md5path = pr.PH M ∧
      (∀ c' ∈ C'.rows, c'.md5path = pr.PH M → c' = c) ∧
      c.size = root_entry.size ∧ c.mode = root_entry.mode ∧ c.mtime = root_entry.mtime ∧
      c.uid = root_entry.uid ∧ c.gid = root_entry.gid ∧
      c.name = String.mk (cstr root_entry.name.data) ∧
      c.flags = kFlagDir ||| kFlagDirNestedRoot := by
  obtain ⟨r0, C1, grand, ⟨hr0, hk0, _, hdir, hrows⟩, hpre, hkeys, _⟩ := Partition_frame h
  have hpath : (Create pr root_entry M).path = M := rfl
  rw [hpath] at hk0 hrows
  have hr0eq : r0 = BindDirent (pr.PH M)
      (if M = "" then 0 else pr.PH (GetParentPath M)) root_entry := by
    simpa [Create] using hr0
  let e : DirectoryEntry := { GetDirent pr r0 with is_nested_catalog_root := true }
  have hmem1 : BindDirent r0.md5path r0.parent e ∈ C1.rows := by
    rw [hrows]
    unfold sqlUpdate
    exact List.mem_map.mpr ⟨r0, hr0, by rw [if_pos hk0]⟩
  have hK' : KeysUnique C'.rows := hkeys (by simp [KeysUnique, Create])
  refine ⟨BindDirent r0.md5path r0.parent e, hpre.subset hmem1, hk0, ?_, ?_⟩
  · intro c' hc' hk'
    exact hK'.eq_of_key hc' (hpre.subset hmem1) (hk'.trans hk0.symm)
  · have hflags : CreateDatabaseFlags e = kFlagDir ||| kFlagDirNestedRoot :=
      CreateDatabaseFlags_root rfl hdir
    refine ⟨?_, ?_, ?_, ?_, ?_, ?_, hflags⟩ <;> simp [BindDirent, e, GetDirent, hr0eq]

/-- Witness of the amended C3 on scenario S4. -/
theorem partition_root_keeps_created_entry_witness :
    Partition demoProcess 3 s4Parent (Create demoProcess demoRootEntry "/a/b")
      = .done true (s4ParentAfter, s4ChildAfter) ∧
    ∃ c ∈ s4ChildAfter.rows, c.md5path = demoProcess.PH "/a/b" ∧
      (∀ c' ∈ s4ChildAfter.rows, c'.md5path = demoProcess.PH "/a/b" → c' = c) ∧
      c.size = demoRootEntry.size ∧ c.mode = demoRootEntry.mode ∧
      c.mtime = demoRootEntry.mtime ∧ c.uid = demoRootEntry.uid ∧
      c.gid = demoRootEntry.gid ∧ c.name = String.mk (cstr demoRootEntry.name.data) ∧
      c.flags = kFlagDir ||| kFlagDirNestedRoot :=
  ⟨s4_partition, partition_root_keeps_created_entry demoProcess 3 s4Parent demoRootEntry
    "/a/b" s4ParentAfter s4ChildAfter s4_partition⟩

/-- C4, counterexample: scenario S4.  `Partition` returns true and the table
`nested_catalogs` of the parent, empty before, is still empty: it has no row
for `/a/b`. -/
theorem partition_reference_counterexample :
    Partition demoProcess 3 s4Parent s4Child = .done true (s4ParentAfter, s4ChildAfter) ∧
    s4Child.path = "/a/b" ∧ s4Parent.nested_catalogs = [] ∧
    s4ParentAfter.nested_catalogs = [] ∧
    ("/a/b", "") ∉ s4ParentAfter.nested_catalogs := by
  refine ⟨s4_partition, by decide, by decide, by decide, by decide⟩

/-- C4, amended.  A successful `Partition` adds no row to `nested_catalogs` of
the parent: what is there afterwards was there before.  When the parent had no
row for the mountpoint `M`, it has none afterwards, and the call
`InsertNestedCatalog(M, NULL, null hash)` made on the parent after `Partition`
succeeds and appends the row `(M, "")`. -/
theorem partition_adds_no_reference (pr : Process) (depth : Nat) (P C P' C' : Catalog)
    (h : Partition pr depth P C = .done true (P', C')) :
    P'.nested_catalogs.Sublist P.nested_catalogs ∧
    ((∀ x ∈ P.nested_catalogs, x.1 ≠ C.path) →
      (∀ x ∈ P'.nested_catalogs, x.1 ≠ C.path) ∧
      (InsertNestedCatalog P' C.path none "").1 = true ∧
      (InsertNestedCatalog P' C.path none "").2.nested_catalogs =
        P'.nested_catalogs ++ [(C.path, "")]) := by
  obtain ⟨_, _, grand, _, _, _, hnested, _⟩ := Partition_frame h
  have hsub : P'.nested_catalogs.Sublist P.nested_catalogs := by
    rw [hnested]; exact List.filter_sublist _
  refine ⟨hsub, fun hno => ?_⟩
  have hno' : ∀ x ∈ P'.nested_catalogs, x.1 ≠ C.path := fun x hx => hno x (hsub.subset hx)
  have hany : (P'.nested_catalogs.any fun x => x.1 == C.path) = false := by
    rw [List.any_eq_false]
    intro x hx
    simpa using hno' x hx
  refine ⟨hno', ?_, ?_⟩ <;> simp [InsertNestedCatalog, hany]

/-- Witness of the amended C4 on scenario S4. -/
theorem partition_adds_no_reference_witness :
    Partition demoProcess 3 s4Parent s4Child = .done true (s4ParentAfter, s4ChildAfter) ∧
    (s4ParentAfter.nested_catalogs.Sublist s4Parent.nested_catalogs ∧
    ((∀ x ∈ s4Parent.nested_catalogs, x.1 ≠ s4Child.path) →
      (∀ x ∈ s4ParentAfter.nested_catalogs, x.1 ≠ s4Child.path) ∧
      (InsertNestedCatalog s4ParentAfter s4Child.path none "").1 = true ∧
      (InsertNestedCatalog s4ParentAfter s4Child.path none "").2.nested_catalogs =
        s4ParentAfter.nested_catalogs ++ [(s4Child.path, "")])) :=
  ⟨s4_partition, partition_adds_no_reference demoProcess 3 s4Parent s4Child s4ParentAfter
    s4ChildAfter s4_partition⟩

/-- C5 (Partition re-homes grand-children).  Let the table of the parent `P`
have unique path hashes and be path consistent, and let the path hash be
injective.  After a successful `Partition`, for every nested-catalog mountpoint
entry met at a path `G` below the mountpoint: `P.nested_catalogs` has no row
with path `G`, `C.nested_catalogs` has the row with path `G`, `G` is not the
mountpoint of an in-memory child of `P`, and a child that was attached to `P`
at `G` is attached to `C`.  The rows of `P.nested_catalogs` whose path was not
met as a mountpoint in the subtree are still there. -/
theorem partition_rehomes_grandchildren (pr : Process) (depth : Nat) (P C P' C' : Catalog)
    (hK : KeysUnique P.rows) (hP : PathConsistent pr P.rows)
    (hinj : Function.Injective pr.PH)
    (h : Partition pr depth P C = .done true (P', C')) :
    (∀ G r, Below pr P.rows C.path G r →
      (GetDirent pr r).IsNestedCatalogMountpoint = true →
      (∀ x ∈ P'.nested_catalogs, x.1 ≠ G) ∧ (G, "") ∈ C'.nested_catalogs ∧
      G ∉ P'.children ∧ (G ∈ P.children → G ∈ C'.children)) ∧
    (∀ x ∈ P.nested_catalogs,
      (∀ r, Below pr P.rows C.path x.1 r →
        (GetDirent pr r).IsNestedCatalogMountpoint = false) →
      x ∈ P'.nested_catalogs) ∧
    P'.nested_catalogs.Sublist P.nested_catalogs := by
  have hM := extend_ne_of_injective hinj C.path
  obtain ⟨r0, P1, C1, st, ⟨_, _, _, _, hrows, t2, t3, _⟩, hroot, hK1, hP1, hinv, hgrow, hgone,
    h4, _, _⟩ := Partition_analysis hK hP h
  obtain ⟨_, _, _, _, _, _, _, _, u2, u3, _⟩ := MakeNestedRoot_true hroot
  obtain ⟨_, _, c1, c2, c3, c4⟩ := MoveCatalogsToNested_true _ _ _ _ _ h4
  rw [hgrow.pnested] at c1
  rw [hgrow.nnested] at c2
  rw [hgrow.pchildren] at c3
  simp only at c1 c2 c3
  rw [t2] at c1
  rw [t3] at c3
  have hM1 : ∀ full r, Below pr P1.rows C.path full r → r.md5path ≠ pr.PH C.path :=
    fun full r hb => hb.key_ne hP1 hM
  have hM0 : ∀ full r, Below pr P.rows C.path full r → r.md5path ≠ pr.PH C.path :=
    fun full r hb => hb.key_ne hP hM
  have to1 : ∀ {full r}, Below pr P.rows C.path full r → Below pr P1.rows C.path full r :=
    Below.transfer (fun r hr hne => by rw [hrows]; exact (mem_sqlUpdate_of_ne hne).mpr hr) hM0
  have to0 : ∀ {full r}, Below pr P1.rows C.path full r → Below pr P.rows C.path full r :=
    Below.transfer (fun r hr hne => by
      rw [hrows] at hr; exact (mem_sqlUpdate_of_ne hne).mp hr) hM1
  refine ⟨?_, ?_, by rw [c1]; exact List.filter_sublist _⟩
  · intro G r hb hmp
    have hb1 := to1 hb
    have hout := hinv.below_gone hP1 hgone G r hb1
    obtain ⟨G', hb', _, hg⟩ := hinv.moved r hb1.mem hout
    have hG : G ∈ st.grand_child_mountpoints := by
      rw [Below.path_unique hinj hb1 hb']
      exact hg hmp
    refine ⟨?_, ?_, ?_, ?_⟩
    · intro x hx hxG
      rw [c1] at hx
      have := (List.mem_filter.mp hx).2
      simp [hxG, hG] at this
    · rw [c2]
      exact List.mem_append_right _ (List.mem_map.mpr ⟨G, hG, rfl⟩)
    · intro hmem
      rw [c3] at hmem
      have := (List.mem_filter.mp hmem).2
      simp [hG] at this
    · intro hch
      rw [c4 G]
      exact Or.inr ⟨hG, by rw [hgrow.pchildren]; simpa [t3] using hch⟩
  · intro x hx hnot
    rw [c1]
    refine List.mem_filter.mpr ⟨hx, ?_⟩
    have : x.1 ∉ st.grand_child_mountpoints := by
      intro hg
      obtain ⟨r, hb, hmp⟩ := hinv.grand _ hg
      have := hnot r (to0 hb)
      rw [hmp] at this
      exact Bool.noConfusion this
    simpa using this

/-- Witness of C5 on a parent with the grand-child `/a/b/g`. -/
theorem partition_rehomes_grandchildren_witness :
    KeysUnique gParent.rows ∧ PathConsistent demoProcess gParent.rows ∧
    Function.Injective demoProcess.PH ∧
    Partition demoProcess 3 gParent s4Child = .done true (gParentAfter, gChildAfter) ∧
    ((∀ G r, Below demoProcess gParent.rows s4Child.path G r →
      (GetDirent demoProcess r).IsNestedCatalogMountpoint = true →
      (∀ x ∈ gParentAfter.nested_catalogs, x.1 ≠ G) ∧ (G, "") ∈ gChildAfter.nested_catalogs ∧
      G ∉ gParentAfter.children ∧ (G ∈ gParent.children → G ∈ gChildAfter.children)) ∧
    (∀ x ∈ gParent.nested_catalogs,
      (∀ r, Below demoProcess gParent.rows s4Child.path x.1 r →
        (GetDirent demoProcess r).IsNestedCatalogMountpoint = false) →
      x ∈ gParentAfter.nested_catalogs) ∧
    gParentAfter.nested_catalogs.Sublist gParent.nested_catalogs) :=
  ⟨gParent_keys, gParent_consistent, demoPH_injective, g_partition,
    partition_rehomes_grandchildren demoProcess 3 gParent s4Child gParentAfter gChildAfter
      gParent_keys gParent_consistent demoPH_injective g_partition⟩

/-- C6 (content hash of a re-homed grand-child), evaluated on a parent whose
`nested_catalogs` holds `("/a/b/g", "a1b2")` for the mountpoint `/a/b/g` below
`/a/b`: after the successful `Partition` at `/a/b` the child holds the row
`("/a/b/g", "")`; the hash `a1b2` is in neither table. -/
theorem partition_grandchild_hash_dropped :
    Partition demoProcess 3 gParent s4Child = .done true (gParentAfter, gChildAfter) ∧
    ("/a/b/g", "a1b2") ∈ gParent.nested_catalogs ∧
    gChildAfter.nested_catalogs = [("/a/b/g", "")] ∧
    ("/a/b/g", "a1b2") ∉ gChildAfter.nested_catalogs ∧
    ("/a/b/g", "a1b2") ∉ gParentAfter.nested_catalogs := by
  refine ⟨g_partition, by decide, by decide, by decide, by decide⟩

theorem s5_merge :
    MergeIntoParent demoProcess s4ChildAfter s5Parent
      = .done true (s5ParentAfter, s5ChildAfter) := by
  decide

theorem linkIdOffset_eq (P : Catalog) (hm : (GetMaxLinkId P : Int) < 2 ^ 31) :
    linkIdOffset P = (GetMaxLinkId P : Int) * 2 ^ 32 := by
  unfold linkIdOffset toInt64
  omega

/-- Every row of the nested catalog has an image in the parent after a
successful merge: same path hash, the renumbered `hardlinks`. -/
theorem Merge_image {pr : Process} {C P P' C' : Catalog}
    (h : MergeIntoParent pr C P = .done true (P', C')) :
    ∀ c ∈ C.rows, ∃ p ∈ P'.rows, p.md5path = c.md5path ∧
      p.hardlinks = (shiftRow (linkIdOffset P) c).hardlinks := by
  obtain ⟨r0, hr0, hr0k, _, _, _, hK, _, hiff, _, _, _⟩ := Merge_rows h
  intro c hc
  by_cases hck : c.md5path = pr.PH C.path
  · have hcr : c = r0 := hK.eq_of_key hc hr0 (hck.trans hr0k.symm)
    subst hcr
    refine ⟨_, (hiff _).mpr (Or.inr (Or.inr rfl)), hck.symm, ?_⟩
    simp [BindDirent, GetDirent_shiftRow]
  · exact ⟨_, (hiff _).mpr (Or.inr (Or.inl ⟨c, hc, hck, rfl⟩)), (shiftRow_fields _ c).1, rfl⟩

/-- Every row of the parent after a successful merge is a row the parent held
before or the image of a row of the nested catalog. -/
theorem Merge_preimage {pr : Process} {C P P' C' : Catalog}
    (h : MergeIntoParent pr C P = .done true (P', C')) :
    ∀ p ∈ P'.rows, (p ∈ P.rows ∧ p.md5path ≠ pr.PH C.path) ∨
      ∃ c ∈ C.rows, p.md5path = c.md5path ∧
        p.hardlinks = (shiftRow (linkIdOffset P) c).hardlinks := by
  obtain ⟨r0, hr0, hr0k, _, _, _, _, _, hiff, _, _, _⟩ := Merge_rows h
  intro p hp
  rcases (hiff p).mp hp with h1 | ⟨c, hc, _, rfl⟩ | rfl
  · exact Or.inl h1
  · exact Or.inr ⟨c, hc, (shiftRow_fields _ c).1, rfl⟩
  · exact Or.inr ⟨r0, hr0, hr0k.symm, by simp [BindDirent, GetDirent_shiftRow]⟩

theorem shiftRow_group {P : Catalog} {c : Row} (hc : c.hardlinks > 2 ^ 32)
    (hm : c.groupId + (GetMaxLinkId P : Int) < 2 ^ 31) :
    (shiftRow (linkIdOffset P) c).hardlinks / 2 ^ 32 = c.groupId + (GetMaxLinkId P : Int) ∧
    (shiftRow (linkIdOffset P) c).hardlinks % 2 ^ 32 = c.linkCount := by
  unfold Row.groupId at hm ⊢
  unfold Row.linkCount
  have hoff : linkIdOffset P = (GetMaxLinkId P : Int) * 2 ^ 32 := by
    apply linkIdOffset_eq
    omega
  have hs : (shiftRow (linkIdOffset P) c).hardlinks = c.hardlinks + linkIdOffset P := by
    unfold shiftRow
    rw [if_pos hc]
  rw [hs, hoff]
  omega

theorem shiftRow_lone {offset : Int} {c : Row} (hc : c.groupId = 0) :
    (shiftRow offset c).hardlinks = c.hardlinks := by
  unfold Row.groupId at hc
  unfold shiftRow
  have : ¬ c.hardlinks > 2 ^ 32 := by omega
  rw [if_neg this]

/-- C8 (Merge hardlink renumbering).  Let `m = P.GetMaxLinkId()` before the
merge.  After a successful `MergeIntoParent`: (1) every row of `C` whose
`hardlinks` exceeds 2^32 and whose group id stays below 2^31 after the addition
has, in `C` and in `P`, its group id increased by exactly `m` and its link
count unchanged; (2) every row of `C` with group id 0 keeps its `hardlinks`;
(3) the rows `P` held before, the mountpoint row apart, are unchanged. -/
theorem merge_renumbers_hardlinks (pr : Process) (C P P' C' : Catalog)
    (h : MergeIntoParent pr C P = .done true (P', C')) :
    (∀ c ∈ C.rows, c.hardlinks > 2 ^ 32 → c.groupId + (GetMaxLinkId P : Int) < 2 ^ 31 →
      ∃ p ∈ P'.rows, ∃ c' ∈ C'.rows, p.md5path = c.md5path ∧ c'.md5path = c.md5path ∧
        p.groupId = c.groupId + (GetMaxLinkId P : Int) ∧ p.linkCount = c.linkCount ∧
        c'.groupId = c.groupId + (GetMaxLinkId P : Int) ∧ c'.linkCount = c.linkCount) ∧
    (∀ c ∈ C.rows, c.groupId = 0 →
      ∃ p ∈ P'.rows, ∃ c' ∈ C'.rows, p.md5path = c.md5path ∧ c'.md5path = c.md5path ∧
        p.hardlinks = c.hardlinks ∧ c'.hardlinks = c.hardlinks) ∧
    (∀ p ∈ P.rows, p.md5path ≠ pr.PH C.path → p ∈ P'.rows) := by
  obtain ⟨_, _, _, _, _, _, _, _, hiff, hC', _, _⟩ := Merge_rows h
  have himg := Merge_image h
  refine ⟨?_, ?_, fun p hp hne => (hiff p).mpr (Or.inl ⟨hp, hne⟩)⟩
  · intro c hc hgt hm
    obtain ⟨p, hp, hpk, hph⟩ := himg c hc
    obtain ⟨g1, g2⟩ := shiftRow_group hgt hm
    refine ⟨p, hp, shiftRow (linkIdOffset P) c, ?_, hpk, (shiftRow_fields _ c).1, ?_, ?_, g1, g2⟩
    · rw [hC']; exact List.mem_map.mpr ⟨c, hc, rfl⟩
    · show p.hardlinks / 2 ^ 32 = _
      rw [hph]; exact g1
    · show p.hardlinks % 2 ^ 32 = _
      rw [hph]; exact g2
  · intro c hc hg
    obtain ⟨p, hp, hpk, hph⟩ := himg c hc
    refine ⟨p, hp, shiftRow (linkIdOffset P) c, ?_, hpk, (shiftRow_fields _ c).1, ?_,
      shiftRow_lone hg⟩
    · rw [hC']; exact List.mem_map.mpr ⟨c, hc, rfl⟩
    · rw [hph]; exact shiftRow_lone hg

theorem s6_merge :
    MergeIntoParent demoProcess s6Child s6Parent = .done true (s6ParentAfter, s6ChildAfter) := by
  decide

/-- Witness of C8 on scenario S6: the parent has the group 3, the nested
catalog the group 1, which becomes the group 4. -/
theorem merge_renumbers_hardlinks_witness :
    MergeIntoParent demoProcess s6Child s6Parent = .done true (s6ParentAfter, s6ChildAfter) ∧
    GetMaxLinkId s6Parent = 3 ∧
    demoFile "/a/b/x" "/a/b" "x" (mkHardlinks 1 2) ∈ s6Child.rows ∧
    demoFile "/a/b/x" "/a/b" "x" (mkHardlinks 4 2) ∈ s6ParentAfter.rows ∧
    demoFile "/p" "" "p" (mkHardlinks 3 2) ∈ s6ParentAfter.rows ∧
    ((∀ c ∈ s6Child.rows, c.hardlinks > 2 ^ 32 →
      c.groupId + (GetMaxLinkId s6Parent : Int) < 2 ^ 31 →
      ∃ p ∈ s6ParentAfter.rows, ∃ c' ∈ s6ChildAfter.rows,
        p.md5path = c.md5path ∧ c'.md5path = c.md5path ∧
        p.groupId = c.groupId + (GetMaxLinkId s6Parent : Int) ∧ p.linkCount = c.linkCount ∧
        c'.groupId = c.groupId + (GetMaxLinkId s6Parent : Int) ∧
        c'.linkCount = c.linkCount) ∧
    (∀ c ∈ s6Child.rows, c.groupId = 0 →
      ∃ p ∈ s6ParentAfter.rows, ∃ c' ∈ s6ChildAfter.rows,
        p.md5path = c.md5path ∧ c'.md5path = c.md5path ∧
        p.hardlinks = c.hardlinks ∧ c'.hardlinks = c.hardlinks) ∧
    (∀ p ∈ s6Parent.rows, p.md5path ≠ demoProcess.PH s6Child.path → p ∈ s6ParentAfter.rows)) :=
  ⟨s6_merge, by decide, by decide, by decide, by decide,
    merge_renumbers_hardlinks demoProcess s6Child s6Parent s6ParentAfter s6ChildAfter s6_merge⟩

theorem foldl_max_hardlinks (l : List Row) (a : Int) :
    a ≤ l.foldl (fun acc x => max acc x.hardlinks) a ∧
    (∀ x ∈ l, x.hardlinks ≤ l.foldl (fun acc x => max acc x.hardlinks) a) ∧
    (l.foldl (fun acc x => max acc x.hardlinks) a = a ∨
      ∃ x ∈ l, l.foldl (fun acc x => max acc x.hardlinks) a = x.hardlinks) := by
  induction l generalizing a with
  | nil => simp
  | cons r t ih =>
    simp only [List.foldl_cons, List.mem_cons, forall_eq_or_imp, exists_eq_or_imp]
    obtain ⟨h1, h2, h3⟩ := ih (max a r.hardlinks)
    refine ⟨le_trans (le_max_left _ _) h1, ⟨le_trans (le_max_right _ _) h1, h2⟩, ?_⟩
    rcases h3 with h3 | ⟨x, hx, h3⟩
    · rcases max_choice a r.hardlinks with hm | hm
      · left; rw [h3, hm]
      · right; left; rw [h3, hm]
    · right; right; exact ⟨x, hx, h3⟩

theorem groupId_le_max {P : Catalog} (hP : ∀ p ∈ P.rows, 0 ≤ p.hardlinks ∧ p.hardlinks < 2 ^ 63) :
    ∀ p ∈ P.rows, p.groupId ≤ (GetMaxLinkId P : Int) := by
  intro p hp
  unfold GetMaxLinkId GetMaxGroupId Row.groupId
  cases hrows : P.rows with
  | nil => rw [hrows] at hp; cases hp
  | cons r t =>
    rw [hrows] at hp hP
    simp only [sqlMaxHardlinks]
    obtain ⟨h1, h2, h3⟩ := foldl_max_hardlinks t r.hardlinks
    have hle : p.hardlinks ≤ t.foldl (fun acc x => max acc x.hardlinks) r.hardlinks := by
      rcases List.mem_cons.mp hp with rfl | hpt
      · exact h1
      · exact h2 p hpt
    have hbound : t.foldl (fun acc x => max acc x.hardlinks) r.hardlinks < 2 ^ 63 := by
      rcases h3 with h3 | ⟨x, hx, h3⟩
      · rw [h3]; exact (hP r (List.mem_cons_self _ _)).2
      · rw [h3]; exact (hP x (List.mem_cons_of_mem _ hx)).2
    have hp0 := (hP p hp).1
    generalize t.foldl (fun acc x => max acc x.hardlinks) r.hardlinks = mx at hle hbound ⊢
    omega

/-- C9, counterexample: the parent has the hardlink group 1 (`/p`, `/q`), the
nested catalog has the row `/a/b/y` with `hardlinks = 1 << 32`, group 1 with
link count 0.  `MergeIntoParent` returns true; the statement renumbers only rows
with `hardlinks > 1 << 32`, so `/a/b/y` stays in group 1 and shares the group id
of `/p`, a row of another catalog before the merge. -/
theorem merge_group_ids_counterexample :
    MergeIntoParent demoProcess edgeChild edgeParent
      = .done true (edgeParentAfter, edgeChild) ∧
    ∃ p ∈ edgeParent.rows, ∃ c ∈ edgeChild.rows,
      p ∈ edgeParentAfter.rows ∧ c ∈ edgeParentAfter.rows ∧
      p.groupId = c.groupId ∧ p.groupId ≠ 0 := by
  refine ⟨by decide, demoFile "/p" "" "p" (mkHardlinks 1 2), by decide,
    demoFile "/a/b/y" "/a/b" "y" (mkHardlinks 1 0), by decide, by decide, by decide,
    by decide, by decide⟩

/-- C9, amended.  Let the `hardlinks` values of `P` and `C` be non-negative
64-bit integers, let every row of `C` in a hardlink group have a link count of
at least 1 (`hardlinks > 1 << 32`), and let the group ids of `C` stay below 2^31
after the addition.  After a successful `MergeIntoParent`: (1) two rows of `P`
that share a non-zero group id are two rows `P` held before, or the images of
two rows of `C` that shared a non-zero group id; (2) two rows of `C` that shared
a non-zero group id have images in `P` that share a non-zero group id; (3) the
image of a row of `C` in a hardlink group has a group id above every group id
`P` had before; (4) the rows `P` held before, the mountpoint row apart, are
unchanged. -/
theorem merge_keeps_groups_apart (pr : Process) (C P P' C' : Catalog)
    (hPr : ∀ p ∈ P.rows, 0 ≤ p.hardlinks ∧ p.hardlinks < 2 ^ 63)
    (hCr : ∀ c ∈ C.rows, 0 ≤ c.hardlinks ∧ (c.groupId ≠ 0 → c.hardlinks > 2 ^ 32) ∧
      c.groupId + (GetMaxLinkId P : Int) < 2 ^ 31)
    (h : MergeIntoParent pr C P = .done true (P', C')) :
    (∀ p' ∈ P'.rows, ∀ q' ∈ P'.rows, p'.groupId ≠ 0 → p'.groupId = q'.groupId →
      (p' ∈ P.rows ∧ q' ∈ P.rows) ∨
      ∃ c ∈ C.rows, ∃ d ∈ C.rows, c.md5path = p'.md5path ∧ d.md5path = q'.md5path ∧
        c.groupId = d.groupId ∧ c.groupId ≠ 0) ∧
    (∀ c ∈ C.rows, ∀ d ∈ C.rows, c.groupId ≠ 0 → c.groupId = d.groupId →
      ∃ c' ∈ P'.rows, ∃ d' ∈ P'.rows, c'.md5path = c.md5path ∧ d'.md5path = d.md5path ∧
        c'.groupId = d'.groupId ∧ c'.groupId ≠ 0) ∧
    (∀ c ∈ C.rows, c.groupId ≠ 0 →
      ∃ c' ∈ P'.rows, c'.md5path = c.md5path ∧
        c'.groupId = c.groupId + (GetMaxLinkId P : Int) ∧
        ∀ p ∈ P.rows, p.groupId < c'.groupId) ∧
    (∀ p ∈ P.rows, p.md5path ≠ pr.PH C.path → p ∈ P'.rows) := by
  obtain ⟨_, _, _, _, _, _, _, _, hiff, _, _, _⟩ := Merge_rows h
  have himg := Merge_image h
  have hpre := Merge_preimage h
  have hmax := groupId_le_max hPr
  -- group id of the image of a row of the nested catalog
  have hgrp : ∀ c ∈ C.rows, ∀ x : Row,
      x.hardlinks = (shiftRow (linkIdOffset P) c).hardlinks →
      (c.groupId = 0 → x.groupId = 0) ∧
      (c.groupId ≠ 0 → x.groupId = c.groupId + (GetMaxLinkId P : Int) ∧ 1 ≤ c.groupId) := by
    intro c hc x hx
    obtain ⟨c0, c1, c2⟩ := hCr c hc
    constructor
    · intro hg
      show x.hardlinks / 2 ^ 32 = 0
      rw [hx, shiftRow_lone hg]
      exact hg
    · intro hg
      have hgt := c1 hg
      refine ⟨?_, ?_⟩
      · show x.hardlinks / 2 ^ 32 = _
        rw [hx]
        exact (shiftRow_group hgt c2).1
      · unfold Row.groupId at hg ⊢
        omega
  have hm0 : (0 : Int) ≤ (GetMaxLinkId P : Int) := Int.ofNat_nonneg _
  refine ⟨?_, ?_, ?_, fun p hp hne => (hiff p).mpr (Or.inl ⟨hp, hne⟩)⟩
  · intro p' hp' q' hq' hne heq
    rcases hpre p' hp' with ⟨hpP, _⟩ | ⟨c, hc, hck, hch⟩
    · rcases hpre q' hq' with ⟨hqP, _⟩ | ⟨d, hd, _, hdh⟩
      · exact Or.inl ⟨hpP, hqP⟩
      · exfalso
        obtain ⟨g0, g1⟩ := hgrp d hd q' hdh
        have := hmax p' hpP
        by_cases hdg : d.groupId = 0
        · have := g0 hdg; omega
        · obtain ⟨e1, e2⟩ := g1 hdg; omega
    · obtain ⟨g0, g1⟩ := hgrp c hc p' hch
      have hcg : c.groupId ≠ 0 := fun hz => hne (g0 hz)
      obtain ⟨e1, e2⟩ := g1 hcg
      rcases hpre q' hq' with ⟨hqP, _⟩ | ⟨d, hd, hdk, hdh⟩
      · exfalso
        have := hmax q' hqP
        omega
      · obtain ⟨k0, k1⟩ := hgrp d hd q' hdh
        by_cases hdg : d.groupId = 0
        · exfalso
          have := k0 hdg; omega
        · obtain ⟨e3, _⟩ := k1 hdg
          exact Or.inr ⟨c, hc, d, hd, hck.symm, hdk.symm, by omega, hcg⟩
  · intro c hc d hd hcg heq
    obtain ⟨c', hc', hck, hch⟩ := himg c hc
    obtain ⟨d', hd', hdk, hdh⟩ := himg d hd
    obtain ⟨e1, e2⟩ := (hgrp c hc c' hch).2 hcg
    obtain ⟨e3, _⟩ := (hgrp d hd d' hdh).2 (by rw [← heq]; exact hcg)
    exact ⟨c', hc', d', hd', hck, hdk, by omega, by omega⟩
  · intro c hc hcg
    obtain ⟨c', hc', hck, hch⟩ := himg c hc
    obtain ⟨e1, e2⟩ := (hgrp c hc c' hch).2 hcg
    refine ⟨c', hc', hck, e1, ?_⟩
    intro p hp
    have := hmax p hp
    omega

/-- Witness of the amended C9 on scenario S6. -/
theorem merge_keeps_groups_apart_witness :
    (∀ p ∈ s6Parent.rows, 0 ≤ p.hardlinks ∧ p.hardlinks < 2 ^ 63) ∧
    (∀ c ∈ s6Child.rows, 0 ≤ c.hardlinks ∧ (c.groupId ≠ 0 → c.hardlinks > 2 ^ 32) ∧
      c.groupId + (GetMaxLinkId s6Parent : Int) < 2 ^ 31) ∧
    MergeIntoParent demoProcess s6Child s6Parent = .done true (s6ParentAfter, s6ChildAfter) ∧
    ((∀ p' ∈ s6ParentAfter.rows, ∀ q' ∈ s6ParentAfter.rows, p'.groupId ≠ 0 →
      p'.groupId = q'.groupId →
      (p' ∈ s6Parent.rows ∧ q' ∈ s6Parent.rows) ∨
      ∃ c ∈ s6Child.rows, ∃ d ∈ s6Child.rows, c.md5path = p'.md5path ∧
        d.md5path = q'.md5path ∧ c.groupId = d.groupId ∧ c.groupId ≠ 0) ∧
    (∀ c ∈ s6Child.rows, ∀ d ∈ s6Child.rows, c.groupId ≠ 0 → c.groupId = d.groupId →
      ∃ c' ∈ s6ParentAfter.rows, ∃ d' ∈ s6ParentAfter.rows, c'.md5path = c.md5path ∧
        d'.md5path = d.md5path ∧ c'.groupId = d'.groupId ∧ c'.groupId ≠ 0) ∧
    (∀ c ∈ s6Child.rows, c.groupId ≠ 0 →
      ∃ c' ∈ s6ParentAfter.rows, c'.md5path = c.md5path ∧
        c'.groupId = c.groupId + (GetMaxLinkId s6Parent : Int) ∧
        ∀ p ∈ s6Parent.rows, p.groupId < c'.groupId) ∧
    (∀ p ∈ s6Parent.rows, p.md5path ≠ demoProcess.PH s6Child.path →
      p ∈ s6ParentAfter.rows)) :=
  ⟨by decide, by decide, s6_merge,
    merge_keeps_groups_apart demoProcess s6Child s6Parent s6ParentAfter s6ChildAfter
      (by decide) (by decide) s6_merge⟩

/-- C10, counterexample: the nested catalog holds a chunk of its file `/a/b/d`.
`MergeIntoParent` returns true, the row of `/a/b/d` is in the parent, and the
table `chunks` of the parent is empty: the chunk is not there. -/
theorem merge_chunks_counterexample :
    MergeIntoParent demoProcess chunkChild s5Parent
      = .done true (s5ParentAfter, chunkChildAfter) ∧
    demoChunk ∈ chunkChild.chunks ∧
    demoFile "/a/b/d" "/a/b" "d" 0 ∈ s5ParentAfter.rows ∧
    demoChunk ∉ s5ParentAfter.chunks ∧ s5ParentAfter.chunks = [] := by
  refine ⟨by decide, by decide, by decide, by decide, by decide⟩

/-- C10, amended.  `MergeIntoParent` copies no chunk: after a successful merge
the table `chunks` of the parent is what it was before, and the table `chunks`
of the nested catalog is unchanged. -/
theorem merge_leaves_chunks (pr : Process) (C P P' C' : Catalog)
    (h : MergeIntoParent pr C P = .done true (P', C')) :
    P'.chunks = P.chunks ∧ C'.chunks = C.chunks := by
  obtain ⟨_, _, _, _, _, _, _, _, _, _, h1, h2⟩ := Merge_rows h
  exact ⟨h1, h2⟩

/-- Witness of the amended C10 on the nested catalog with a chunk. -/
theorem merge_leaves_chunks_witness :
    MergeIntoParent demoProcess chunkChild s5Parent
      = .done true (s5ParentAfter, chunkChildAfter) ∧
    s5ParentAfter.chunks = s5Parent.chunks ∧ chunkChildAfter.chunks = chunkChild.chunks :=
  ⟨by decide, merge_leaves_chunks demoProcess chunkChild s5Parent s5ParentAfter
    chunkChildAfter (by decide)⟩

/-- The table `nested_catalogs` of the parent after a successful
`MergeIntoParent`, in terms of the loop of `CopyCatalogsToParent`. -/
theorem MergeIntoParent_nested {pr : Process} {C P P' C' : Catalog}
    (h : MergeIntoParent pr C P = .done true (P', C')) :
    ∃ P1, CopyToParent pr C P = .done true (P1, C') ∧
      P1.nested_catalogs = P.nested_catalogs ∧ C'.nested_catalogs = C.nested_catalogs ∧
      P'.nested_catalogs =
        (copyCatalogsLoop C' C'.nested_catalogs P1).nested_catalogs.filter
          (fun x => x.1 != C.path) := by
  unfold MergeIntoParent at h
  cases hc : CopyToParent pr C P with
  | abort => rw [hc] at h; simp at h
  | exhausted => rw [hc] at h; simp at h
  | done ok s =>
    obtain ⟨P1, C1⟩ := s
    rw [hc] at h
    cases ok with
    | false => simp at h
    | true =>
      simp only [CopyCatalogsToParent] at h
      obtain ⟨P2, hrem, _, _, _, r4, _⟩ :=
        RemoveNestedCatalog_eq (copyCatalogsLoop C1 (ListNestedCatalogs C1) P1) C1.path
      rw [hrem] at h
      simp only [Res.done.injEq, Prod.mk.injEq, true_and] at h
      obtain ⟨rfl, rfl⟩ := h
      obtain ⟨_, _, _, _, _, _, _, _, _, q3, _, _, _, _, d3, _, d5⟩ := CopyToParent_true hc
      refine ⟨P1, rfl, q3, d3, ?_⟩
      rw [r4, d5]
      rfl

theorem dup_merge :
    MergeIntoParent demoProcess dupChild dupParent = .done true (dupParentAfter, dupChild) := by
  decide

theorem g_merge :
    MergeIntoParent demoProcess gChildHashed gMounted
      = .done true (gMerged, { gChildHashed with dirty := false }) := by
  decide

theorem AddEntryAt_chunks (pr : Process) (c : Catalog) (e : DirectoryEntry) (p : String) :
    (AddEntryAt pr c e p).2.chunks = c.chunks := by
  unfold AddEntryAt AddEntry
  simp only [SetDirty]
  split <;> rfl

theorem RemoveEntry_chunks (pr : Process) (c : Catalog) (p : String) :
    (RemoveEntry pr c p).2.chunks = c.chunks := by
  unfold RemoveEntry
  simp only [SetDirty]
  split <;> rfl

theorem moveListing_chunks {pr : Process} {f : String → MoveState → Res MoveState}
    {d : String}
    (hrec : ∀ d st ok st', f d st = .done ok st' →
      st'.parent.chunks = st.parent.chunks ∧ st'.nested.chunks = st.nested.chunks) :
    ∀ (l : List DirectoryEntry) (st : MoveState) (ok : Bool) (st' : MoveState),
      moveListing pr f d l st = .done ok st' →
      st'.parent.chunks = st.parent.chunks ∧ st'.nested.chunks = st.nested.chunks := by
  intro l
  induction l with
  | nil =>
    intro st ok st' h
    simp only [moveListing, Res.done.injEq] at h
    obtain ⟨_, rfl⟩ := h
    exact ⟨rfl, rfl⟩
  | cons i rest ih =>
    intro st ok st' h
    simp only [moveListing] at h
    have hadd := AddEntryAt_chunks pr st.nested i (d ++ "/" ++ i.name)
    cases hres : AddEntryAt pr st.nested i (d ++ "/" ++ i.name) with
    | mk ok1 nested =>
      rw [hres] at h hadd
      simp only at hadd
      cases ok1 with
      | false =>
        simp only [Res.done.injEq] at h
        obtain ⟨_, rfl⟩ := h
        exact ⟨rfl, hadd⟩
      | true =>
        simp only at h
        have key : ∀ st2 : MoveState,
            st2.parent.chunks = st.parent.chunks → st2.nested.chunks = st.nested.chunks →
            (match RemoveEntry pr st2.parent (d ++ "/" ++ i.name) with
              | (false, parent) => Res.done false { st2 with parent := parent }
              | (true, parent) => moveListing pr f d rest { st2 with parent := parent })
              = .done ok st' →
            st'.parent.chunks = st.parent.chunks ∧ st'.nested.chunks = st.nested.chunks := by
          intro st2 h1 h2 hrem
          have hre := RemoveEntry_chunks pr st2.parent (d ++ "/" ++ i.name)
          cases hrr : RemoveEntry pr st2.parent (d ++ "/" ++ i.name) with
          | mk ok2 parent =>
            rw [hrr] at hrem hre
            simp only at hre
            cases ok2 with
            | false =>
              simp only [Res.done.injEq] at hrem
              obtain ⟨_, rfl⟩ := hrem
              exact ⟨hre.trans h1, h2⟩
            | true =>
              simp only at hrem
              obtain ⟨g1, g2⟩ := ih _ _ _ hrem
              exact ⟨g1.trans (hre.trans h1), g2.trans h2⟩
        by_cases hmnt : i.IsNestedCatalogMountpoint = true
        · simp only [hmnt, if_true] at h
          exact key { st with nested := nested, grand_child_mountpoints :=
            st.grand_child_mountpoints ++ [d ++ "/" ++ i.name] } rfl hadd h
        · by_cases hdir : i.IsDirectory = true
          · simp only [hmnt, hdir, if_true] at h
            cases hsub : f (d ++ "/" ++ i.name) { st with nested := nested } with
            | abort => rw [hsub] at h; simp at h
            | exhausted => rw [hsub] at h; simp at h
            | done ok2 st2 =>
              rw [hsub] at h
              obtain ⟨g1, g2⟩ := hrec _ _ _ _ hsub
              cases ok2 with
              | false =>
                have h' : Res.done false st2 = Res.done ok st' := h
                simp only [Res.done.injEq] at h'
                obtain ⟨_, rfl⟩ := h'
                exact ⟨g1, g2.trans hadd⟩
              | true => exact key st2 g1 (g2.trans hadd) h
          · simp only [hmnt, hdir] at h
            exact key { st with nested := nested } rfl hadd h

theorem MoveToNestedRecursively_chunks {pr : Process} :
    ∀ (depth : Nat) (d : String) (st : MoveState) (ok : Bool) (st' : MoveState),
      MoveToNestedRecursively pr depth d st = .done ok st' →
      st'.parent.chunks = st.parent.chunks ∧ st'.nested.chunks = st.nested.chunks := by
  intro depth
  induction depth with
  | zero =>
    intro d st ok st' h
    simp [MoveToNestedRecursively] at h
  | succ n ih =>
    intro d st ok st' h
    simp only [MoveToNestedRecursively] at h
    exact moveListing_chunks ih _ _ _ _ h

theorem MoveCatalogsToNested_chunks :
    ∀ (l : List String) (this nested : Catalog),
      (MoveCatalogsToNested l this nested).2.1.chunks = this.chunks ∧
      (MoveCatalogsToNested l this nested).2.2.chunks = nested.chunks := by
  intro l
  induction l with
  | nil => intro this nested; exact ⟨rfl, rfl⟩
  | cons i rest ih =>
    intro this nested
    obtain ⟨this1, hrem, _, r2, _⟩ := RemoveNestedCatalog_eq this i
    simp only [MoveCatalogsToNested, hrem]
    have hins := (InsertNestedCatalog_frame nested i
      (if i ∈ this.children then some i else none) "").2
    cases hres : InsertNestedCatalog nested i (if i ∈ this.children then some i else none) ""
      with
    | mk ok nested1 =>
      rw [hres] at hins
      simp only at hins
      cases ok with
      | false => exact ⟨r2, hins⟩
      | true =>
        obtain ⟨g1, g2⟩ := ih this1 nested1
        exact ⟨g1.trans r2, g2.trans hins⟩

theorem MakeTransitionPoint_chunks {pr : Process} {c c' : Catalog} {M : String} {ok : Bool}
    (h : MakeTransitionPoint pr c M = .done ok c') : c'.chunks = c.chunks := by
  unfold MakeTransitionPoint at h
  cases hl : LookupPath pr c M with
  | none =>
    rw [hl] at h
    simp only [Res.done.injEq] at h
    rw [← h.2]
  | some e =>
    rw [hl] at h
    simp only [UpdateEntry, SetDirty] at h
    split at h
    · simp only [Res.done.injEq] at h
      rw [← h.2]
    · simp at h

theorem MakeNestedRoot_chunks {pr : Process} {c c' : Catalog} {ok : Bool}
    (h : MakeNestedRoot pr c = .done ok c') : c'.chunks = c.chunks := by
  unfold MakeNestedRoot at h
  cases hl : LookupPath pr c c.path with
  | none =>
    rw [hl] at h
    simp only [Res.done.injEq] at h
    rw [← h.2]
  | some e =>
    rw [hl] at h
    simp only [UpdateEntry, SetDirty] at h
    split at h
    · simp only [Res.done.injEq] at h
      rw [← h.2]
    · simp at h

/-- No outcome of `Partition` changes a table `chunks`. -/
theorem Partition_chunks {pr : Process} {depth : Nat} {P C P' C' : Catalog} {ok : Bool}
    (h : Partition pr depth P C = .done ok (P', C')) :
    P'.chunks = P.chunks ∧ C'.chunks = C.chunks := by
  unfold Partition at h
  cases h1 : MakeTransitionPoint pr P C.path with
  | abort => rw [h1] at h; simp at h
  | exhausted => rw [h1] at h; simp at h
  | done ok1 P1 =>
    rw [h1] at h
    have c1 := MakeTransitionPoint_chunks h1
    cases ok1 with
    | false =>
      simp only [Res.done.injEq, Prod.mk.injEq] at h
      obtain ⟨_, rfl, rfl⟩ := h
      exact ⟨c1, rfl⟩
    | true =>
      simp only at h
      cases h2 : MakeNestedRoot pr C with
      | abort => rw [h2] at h; simp at h
      | exhausted => rw [h2] at h; simp at h
      | done ok2 C1 =>
        rw [h2] at h
        have c2 := MakeNestedRoot_chunks h2
        cases ok2 with
        | false =>
          simp only [Res.done.injEq, Prod.mk.injEq] at h
          obtain ⟨_, rfl, rfl⟩ := h
          exact ⟨c1, c2⟩
        | true =>
          simp only at h
          cases h3 : MoveToNestedRecursively pr depth C1.path ⟨P1, C1, []⟩ with
          | abort => rw [h3] at h; simp at h
          | exhausted => rw [h3] at h; simp at h
          | done ok3 st =>
            rw [h3] at h
            obtain ⟨m1, m2⟩ := MoveToNestedRecursively_chunks _ _ _ _ _ h3
            cases ok3 with
            | false =>
              simp only [Res.done.injEq, Prod.mk.injEq] at h
              obtain ⟨_, rfl, rfl⟩ := h
              exact ⟨m1.trans c1, m2.trans c2⟩
            | true =>
              simp only at h
              obtain ⟨n1, n2⟩ :=
                MoveCatalogsToNested_chunks st.grand_child_mountpoints st.parent st.nested
              cases h4 : MoveCatalogsToNested st.grand_child_mountpoints st.parent st.nested with
              | mk ok4 pc =>
                obtain ⟨p4, c4⟩ := pc
                rw [h4] at h n1 n2
                simp only [Res.done.injEq, Prod.mk.injEq] at h
                obtain ⟨_, rfl, rfl⟩ := h
                exact ⟨n1.trans (m1.trans c1), n2.trans (m2.trans c2)⟩

theorem CopyToParent_chunks {pr : Process} {C P P' C' : Catalog} {ok : Bool}
    (h : CopyToParent pr C P = .done ok (P', C')) :
    P'.chunks = P.chunks ∧ C'.chunks = C.chunks := by
  unfold CopyToParent at h
  simp only at h
  have hre := RemoveEntry_chunks pr P C.path
  cases hrr : RemoveEntry pr P C.path with
  | mk ok1 P1 =>
    rw [hrr] at h hre
    simp only at hre
    cases ok1 with
    | false =>
      simp only [Res.done.injEq, Prod.mk.injEq] at h
      obtain ⟨_, rfl, rfl⟩ := h
      exact ⟨hre, rfl⟩
    | true =>
      simp only at h
      generalize hC2 : (if C.dirty = true then
        Commit { C with rows := sqlUpdateLinkIds C.rows (linkIdOffset P) }
        else { C with rows := sqlUpdateLinkIds C.rows (linkIdOffset P) }) = C2 at h
      generalize hP2 : (if P1.dirty = true then Commit P1 else P1) = P2 at h
      have c2 : C2.chunks = C.chunks := by rw [← hC2]; split <;> rfl
      have p2 : P2.chunks = P.chunks := by rw [← hP2, ← hre]; split <;> rfl
      cases hins : sqlInsertAll P2.rows C2.rows with
      | none =>
        rw [hins] at h
        simp only [Res.done.injEq, Prod.mk.injEq] at h
        obtain ⟨_, rfl, rfl⟩ := h
        exact ⟨p2, c2⟩
      | some rows =>
        rw [hins] at h
        simp only at h
        cases hl : LookupPath pr (SetDirty { P2 with rows := rows }) C2.path with
        | none =>
          rw [hl] at h
          simp only [Res.done.injEq, Prod.mk.injEq] at h
          obtain ⟨_, rfl, rfl⟩ := h
          exact ⟨p2, c2⟩
        | some e =>
          rw [hl] at h
          simp only [UpdateEntry, SetDirty] at h
          split at h
          · simp only [Res.done.injEq, Prod.mk.injEq] at h
            obtain ⟨_, rfl, rfl⟩ := h
            exact ⟨p2, c2⟩
          · simp at h

/-- No outcome of `MergeIntoParent` changes a table `chunks`. -/
theorem MergeIntoParent_chunks {pr : Process} {C P P' C' : Catalog} {ok : Bool}
    (h : MergeIntoParent pr C P = .done ok (P', C')) :
    P'.chunks = P.chunks ∧ C'.chunks = C.chunks := by
  unfold MergeIntoParent at h
  cases hc : CopyToParent pr C P with
  | abort => rw [hc] at h; simp at h
  | exhausted => rw [hc] at h; simp at h
  | done ok1 s =>
    obtain ⟨P1, C1⟩ := s
    rw [hc] at h
    obtain ⟨k1, k2⟩ := CopyToParent_chunks hc
    cases ok1 with
    | false =>
      simp only [Res.done.injEq, Prod.mk.injEq] at h
      obtain ⟨_, rfl, rfl⟩ := h
      exact ⟨k1, k2⟩
    | true =>
      simp only [CopyCatalogsToParent] at h
      obtain ⟨P2, hrem, _, r2, _⟩ :=
        RemoveNestedCatalog_eq (copyCatalogsLoop C1 (ListNestedCatalogs C1) P1) C1.path
      rw [hrem] at h
      simp only [Res.done.injEq, Prod.mk.injEq] at h
      obtain ⟨_, rfl, rfl⟩ := h
      exact ⟨r2.trans ((copyCatalogsLoop_frame C1 (ListNestedCatalogs C1) P1).2.trans k1), k2⟩

/-- C13, counterexample.  `Partition` of scenario S4 with a chunk of the file
`/a/b/d` in the parent returns false, the foreign key of `chunks` refusing the
removal of `/a/b/d`; the parent then has the mountpoint marked and `/a/b/c`
removed, and the child holds `/a/b/c` and `/a/b/d`.  `MergeIntoParent` into a
parent that still holds `/a/b/c` returns false, the primary key refusing the
copy; the mountpoint row of the parent is removed all the same. -/
theorem structural_atomicity_counterexample :
    Partition demoProcess 3 chunkParent s4Child
      = .done false (chunkParentFailed, s4ChildAfter) ∧
    chunkParentFailed.rows ≠ chunkParent.rows ∧ s4ChildAfter.rows ≠ s4Child.rows ∧
    MergeIntoParent demoProcess s4ChildAfter clashParent
      = .done false (clashParentFailed, s5ChildAfter) ∧
    clashParentFailed.rows ≠ clashParent.rows := by
  refine ⟨by decide, by decide, by decide, by decide, by decide⟩

/-- C13, amended.  There is no rollback.  Whatever `Partition` or
`MergeIntoParent` returns, the tables `chunks` of both catalogs are as before
the call.  When the parent has no row keyed `PH(M)`, `Partition` returns false
and leaves both catalogs as they were.  (After any other false result the
tables `catalog` and `nested_catalogs` hold the work of the steps performed.) -/
theorem structural_no_rollback (pr : Process) (depth : Nat) (P C : Catalog) :
    (∀ ok P' C', Partition pr depth P C = .done ok (P', C') →
      P'.chunks = P.chunks ∧ C'.chunks = C.chunks) ∧
    (∀ ok P' C', MergeIntoParent pr C P = .done ok (P', C') →
      P'.chunks = P.chunks ∧ C'.chunks = C.chunks) ∧
    (hasKey P.rows (pr.PH C.path) = false → Partition pr depth P C = .done false (P, C)) := by
  refine ⟨fun ok P' C' h => Partition_chunks h, fun ok P' C' h => MergeIntoParent_chunks h, ?_⟩
  intro hk
  have hl : LookupPath pr P C.path = none := by
    unfold LookupPath
    have : P.rows.find? (fun r => r.md5path == pr.PH C.path) = none := by
      rw [List.find?_eq_none]
      intro x hx hxk
      have : hasKey P.rows (pr.PH C.path) = true := by
        unfold hasKey
        exact List.any_eq_true.mpr ⟨x, hx, hxk⟩
      rw [hk] at this
      exact Bool.noConfusion this
    rw [this]
    rfl
  simp [Partition, MakeTransitionPoint, hl]

/-- Witness of the amended C13: the failed `Partition` with a chunk in the
parent, the failed merge, and `Partition` at a path the parent does not hold. -/
theorem structural_no_rollback_witness :
    Partition demoProcess 3 chunkParent s4Child
      = .done false (chunkParentFailed, s4ChildAfter) ∧
    hasKey bareParent.rows (demoProcess.PH s4Child.path) = false ∧
    Partition demoProcess 3 bareParent s4Child = .done false (bareParent, s4Child) ∧
    (chunkParentFailed.chunks = chunkParent.chunks ∧ s4ChildAfter.chunks = s4Child.chunks) :=
  ⟨by decide, by decide,
    (structural_no_rollback demoProcess 3 bareParent s4Child).2.2 (by decide),
    (structural_no_rollback demoProcess 3 chunkParent s4Child).1 false chunkParentFailed
      s4ChildAfter (by decide)⟩

/-- C14 (success only if every step succeeded), evaluated on a parent that
holds the reference `("/a/b/g", "1111")` and a nested catalog at `/a/b` that
holds the reference `("/a/b/g", "2222")`: after `CopyToParent` the insert of
the reference of the nested catalog into the parent fails, the parent having a
row with that path; `CopyCatalogsToParent` does not look at the result and
returns true, and so does `MergeIntoParent`; the reference `("/a/b/g", "2222")`
is not in the parent. -/
theorem merge_true_despite_failed_insert :
    CopyToParent demoProcess dupChild dupParent = .done true (dupParentCopied, dupChild) ∧
    (InsertNestedCatalog dupParentCopied "/a/b/g" (FindChild dupChild "/a/b/g") "2222").1
      = false ∧
    (CopyCatalogsToParent dupChild dupParentCopied).1 = true ∧
    MergeIntoParent demoProcess dupChild dupParent = .done true (dupParentAfter, dupChild) ∧
    ("/a/b/g", "2222") ∈ dupChild.nested_catalogs ∧
    dupParentAfter.nested_catalogs = [("/a/b/g", "1111")] := by
  refine ⟨by decide, by decide, by decide, dup_merge, by decide, by decide⟩

/-- C16 (AddEntry).  When the catalog has no row keyed `PH(path)`, `AddEntry`
returns true and the table is the previous one followed by one row, keyed
`PH(path)`, with the parent hash `PH(parent_path)` and the attributes of the
entry; when there is such a row, it returns false and the table is unchanged.
In both cases the dirty flag is set and nothing else changes. -/
theorem AddEntry_contract (pr : Process) (c : Catalog) (e : DirectoryEntry)
    (path parent_path : String) :
    (hasKey c.rows (pr.PH path) = false →
      AddEntry pr c e path parent_path =
        (true, { c with
          rows := c.rows ++ [BindDirent (pr.PH path) (pr.PH parent_path) e],
          dirty := true })) ∧
    (hasKey c.rows (pr.PH path) = true →
      AddEntry pr c e path parent_path = (false, { c with dirty := true })) ∧
    (BindDirent (pr.PH path) (pr.PH parent_path) e).md5path = pr.PH path ∧
    (BindDirent (pr.PH path) (pr.PH parent_path) e).parent = pr.PH parent_path ∧
    (BindDirent (pr.PH path) (pr.PH parent_path) e).hash = e.checksum ∧
    (BindDirent (pr.PH path) (pr.PH parent_path) e).hardlinks = e.hardlinks ∧
    (BindDirent (pr.PH path) (pr.PH parent_path) e).size = e.size ∧
    (BindDirent (pr.PH path) (pr.PH parent_path) e).mode = e.mode ∧
    (BindDirent (pr.PH path) (pr.PH parent_path) e).mtime = e.mtime ∧
    (BindDirent (pr.PH path) (pr.PH parent_path) e).uid = e.uid ∧
    (BindDirent (pr.PH path) (pr.PH parent_path) e).gid = e.gid ∧
    (BindDirent (pr.PH path) (pr.PH parent_path) e).name = e.name ∧
    (BindDirent (pr.PH path) (pr.PH parent_path) e).symlink = e.symlink ∧
    (BindDirent (pr.PH path) (pr.PH parent_path) e).flags = CreateDatabaseFlags e := by
  refine ⟨?_, ?_, rfl, rfl, rfl, rfl, rfl, rfl, rfl, rfl, rfl, rfl, rfl, rfl⟩
  · intro h
    have hk : hasKey c.rows (BindDirent (pr.PH path) (pr.PH parent_path) e).md5path = false := h
    simp [AddEntry, SetDirty, sqlInsert, hk]
  · intro h
    have hk : hasKey c.rows (BindDirent (pr.PH path) (pr.PH parent_path) e).md5path = true := h
    simp [AddEntry, SetDirty, sqlInsert, hk]

/-- Witness of C16 on scenario S2: `/a` is added to the catalog of scenario S1,
and a second `AddEntry` of `/a` is refused. -/
theorem AddEntry_contract_witness :
    hasKey s1Catalog.rows (demoProcess.PH "/a") = false ∧
    hasKey s2Catalog.rows (demoProcess.PH "/a") = true ∧
    AddEntry demoProcess s1Catalog s2Entry "/a" "" =
      (true, { s1Catalog with
        rows := s1Catalog.rows ++ [BindDirent (demoProcess.PH "/a") (demoProcess.PH "") s2Entry],
        dirty := true }) ∧
    AddEntry demoProcess s2Catalog s2Entry "/a" "" = (false, { s2Catalog with dirty := true }) :=
  ⟨by decide, by decide,
    (AddEntry_contract demoProcess s1Catalog s2Entry "/a" "").1 (by decide),
    (AddEntry_contract demoProcess s2Catalog s2Entry "/a" "").2.1 (by decide)⟩

/-- C17 (TouchEntry updates mtime only).  `TouchEntry` returns true; in the
table it leaves, every row that was keyed `PH(path)` has the mtime of the
entry and all its other columns as before, every other row is unchanged, in
the same order, and no table but `catalog` changes. -/
theorem TouchEntry_contract (pr : Process) (c : Catalog) (e : DirectoryEntry)
    (path : String) :
    TouchEntry pr c e path =
      (true, { c with
        rows := c.rows.map (fun r =>
          if r.md5path = pr.PH path then { r with mtime := e.mtime } else r),
        dirty := true }) ∧
    (∀ r ∈ c.rows, r.md5path = pr.PH path →
      { r with mtime := e.mtime } ∈ (TouchEntry pr c e path).2.rows) ∧
    (∀ r ∈ c.rows, r.md5path ≠ pr.PH path → r ∈ (TouchEntry pr c e path).2.rows) ∧
    (∀ r' ∈ (TouchEntry pr c e path).2.rows,
      ∃ r ∈ c.rows, r' = r ∨ (r.md5path = pr.PH path ∧ r' = { r with mtime := e.mtime })) := by
  have hrun : TouchEntry pr c e path =
      (true, { c with
        rows := c.rows.map (fun r =>
          if r.md5path = pr.PH path then { r with mtime := e.mtime } else r),
        dirty := true }) := rfl
  refine ⟨hrun, ?_, ?_, ?_⟩
  · intro r hr hk
    rw [hrun]
    exact List.mem_map.mpr ⟨r, hr, by rw [if_pos hk]⟩
  · intro r hr hk
    rw [hrun]
    exact List.mem_map.mpr ⟨r, hr, by rw [if_neg hk]⟩
  · intro r' hr'
    rw [hrun] at hr'
    obtain ⟨r, hr, hrr⟩ := List.mem_map.mp hr'
    refine ⟨r, hr, ?_⟩
    by_cases hk : r.md5path = pr.PH path
    · rw [if_pos hk] at hrr
      exact Or.inr ⟨hk, hrr.symm⟩
    · rw [if_neg hk] at hrr
      exact Or.inl hrr.symm

/-- Witness of C17 on scenario S2: after `TouchEntry` of `/a` with mtime 42 the
row of `/a` has mtime 42 and the root row is as before. -/
theorem TouchEntry_contract_witness :
    BindDirent (demoProcess.PH "/a") (demoProcess.PH "") s2Entry ∈ s2Catalog.rows ∧
    (TouchEntry demoProcess s2Catalog { s2Entry with mtime := 42 } "/a").2.rows =
      [demoRoot,
        { BindDirent (demoProcess.PH "/a") (demoProcess.PH "") s2Entry with mtime := 42 }] ∧
    (∀ r ∈ s2Catalog.rows, r.md5path = demoProcess.PH "/a" →
      { r with mtime := ({ s2Entry with mtime := 42 } : DirectoryEntry).mtime } ∈
        (TouchEntry demoProcess s2Catalog { s2Entry with mtime := 42 } "/a").2.rows) :=
  ⟨by decide, by decide,
    (TouchEntry_contract demoProcess s2Catalog { s2Entry with mtime := 42 } "/a").2.1⟩

/-- C18 (mutations addressed to a missing row), evaluated on scenario S2 with
the path `/nope`, which has no row: `TouchEntry` and `RemoveEntry` both return
true, and the table is unchanged.  The statements `UPDATE` and `DELETE` succeed
when their `WHERE` clause selects no row. -/
theorem missing_row_reports_success :
    hasKey s2Catalog.rows (demoProcess.PH "/nope") = false ∧
    (TouchEntry demoProcess s2Catalog s2Entry "/nope").1 = true ∧
    (RemoveEntry demoProcess s2Catalog "/nope").1 = true ∧
    (TouchEntry demoProcess s2Catalog s2Entry "/nope").2.rows = s2Catalog.rows ∧
    (RemoveEntry demoProcess s2Catalog "/nope").2.rows = s2Catalog.rows := by
  refine ⟨by decide, by decide, by decide, by decide, by decide⟩

/-- C19 (IncLinkcount), evaluated on scenario S3: two rows with
`hardlinks = (7 << 32) | 2` and `IncLinkcount("/x", -1)`.  The statement of
`SqlIncLinkcount` assigns the column `inode`, which the table `catalog` does not
have, so it is not prepared: the call returns false and both rows keep
`hardlinks = (7 << 32) | 2`. -/
theorem inclinkcount_leaves_group :
    sqlIncLinkcountPrepared = false ∧
    (IncLinkcount demoProcess s3Catalog "/x" (-1)).1 = false ∧
    (IncLinkcount demoProcess s3Catalog "/x" (-1)).2.rows = s3Catalog.rows ∧
    (∀ r ∈ (IncLinkcount demoProcess s3Catalog "/x" (-1)).2.rows,
      r.md5path = demoPH "/x" ∨ r.md5path = demoPH "/y" → r.hardlinks = 7 * 2 ^ 32 + 2) := by
  refine ⟨by decide, by decide, by decide, by decide⟩

/-- C20 (GetMaxLinkId).  For a catalog whose `hardlinks` values are
non-negative 64-bit integers, the result is the high 32 bits of
`max(hardlinks)`; no row has a larger group id, some row has this group id
unless the table is empty, and the result is 0 when the table is empty or when
no row belongs to a hardlink group. -/
theorem GetMaxLinkId_is_max_group (c : Catalog)
    (hc : ∀ r ∈ c.rows, 0 ≤ r.hardlinks ∧ r.hardlinks < 2 ^ 63) :
    (GetMaxLinkId c : Int) = sqlMaxHardlinks c.rows / 2 ^ 32 ∧
    (∀ r ∈ c.rows, r.groupId ≤ (GetMaxLinkId c : Int)) ∧
    (c.rows ≠ [] → ∃ r ∈ c.rows, r.groupId = (GetMaxLinkId c : Int)) ∧
    (c.rows = [] → GetMaxLinkId c = 0) ∧
    ((∀ r ∈ c.rows, r.groupId = 0) → GetMaxLinkId c = 0) := by
  have hmax : ∀ r ∈ c.rows, r.groupId ≤ (GetMaxLinkId c : Int) := groupId_le_max hc
  -- the maximum is the value of a row
  have hatt : c.rows ≠ [] → ∃ r ∈ c.rows, sqlMaxHardlinks c.rows = r.hardlinks := by
    intro hne
    cases hrows : c.rows with
    | nil => exact absurd hrows hne
    | cons r t =>
      simp only [sqlMaxHardlinks]
      obtain ⟨_, _, h3⟩ := foldl_max_hardlinks t r.hardlinks
      rcases h3 with h3 | ⟨x, hx, h3⟩
      · exact ⟨r, List.mem_cons_self _ _, h3⟩
      · exact ⟨x, List.mem_cons_of_mem _ hx, h3⟩
  have hval : (GetMaxLinkId c : Int) = sqlMaxHardlinks c.rows / 2 ^ 32 := by
    unfold GetMaxLinkId GetMaxGroupId
    by_cases hne : c.rows = []
    · rw [hne]; simp [sqlMaxHardlinks]
    · obtain ⟨r, hr, hrv⟩ := hatt hne
      obtain ⟨h0, h1⟩ := hc r hr
      rw [hrv]
      omega
  have hex : c.rows ≠ [] → ∃ r ∈ c.rows, r.groupId = (GetMaxLinkId c : Int) := by
    intro hne
    obtain ⟨r, hr, hrv⟩ := hatt hne
    exact ⟨r, hr, by rw [hval, hrv]; rfl⟩
  refine ⟨hval, hmax, hex, ?_, ?_⟩
  · intro he
    have : (GetMaxLinkId c : Int) = 0 := by rw [hval, he]; simp [sqlMaxHardlinks]
    exact_mod_cast this
  · intro hz
    by_cases hne : c.rows = []
    · have : (GetMaxLinkId c : Int) = 0 := by rw [hval, hne]; simp [sqlMaxHardlinks]
      exact_mod_cast this
    · obtain ⟨r, hr, hrg⟩ := hex hne
      have : (GetMaxLinkId c : Int) = 0 := by rw [← hrg]; exact hz r hr
      exact_mod_cast this

/-- Witness of C20 on the parent of scenario S6, whose largest group id is 3. -/
theorem GetMaxLinkId_is_max_group_witness :
    (∀ r ∈ s6Parent.rows, 0 ≤ r.hardlinks ∧ r.hardlinks < 2 ^ 63) ∧
    GetMaxLinkId s6Parent = 3 ∧ GetMaxLinkId s1Catalog = 0 ∧
    ((GetMaxLinkId s6Parent : Int) = sqlMaxHardlinks s6Parent.rows / 2 ^ 32 ∧
    (∀ r ∈ s6Parent.rows, r.groupId ≤ (GetMaxLinkId s6Parent : Int)) ∧
    (s6Parent.rows ≠ [] → ∃ r ∈ s6Parent.rows, r.groupId = (GetMaxLinkId s6Parent : Int)) ∧
    (s6Parent.rows = [] → GetMaxLinkId s6Parent = 0) ∧
    ((∀ r ∈ s6Parent.rows, r.groupId = 0) → GetMaxLinkId s6Parent = 0)) :=
  ⟨by decide, by decide, by decide, GetMaxLinkId_is_max_group s6Parent (by decide)⟩

/-- C15, counterexample: `Partition` at `/a/b` when the entry `/a/b` of the
parent is already a nested root, `Partition` at the file `/a/b/d`, and
`MergeIntoParent` of a nested catalog whose root entry lacks IsNestedRoot all
end in a failed assertion, not in the result false. -/
theorem invariant_violation_counterexample :
    Partition demoProcess 3 rootedParent s4Child = .abort ∧
    Partition demoProcess 3 s4Parent fileChild = .abort ∧
    MergeIntoParent demoProcess s4Child s5Parent = .abort := by
  refine ⟨by decide, by decide, by decide⟩

theorem LookupPath_eq (pr : Process) (c : Catalog) (path : String) :
    LookupPath pr c path =
      (c.rows.find? (fun x => x.md5path == pr.PH path)).map (GetDirent pr) := rfl

/-- C15, amended.  The invariants of a transition point are checked by
assertions.  (1) When the entry of the parent at `PH(M)` is not a directory or
is already a nested root, `Partition` ends in a failed assertion.  (2) When the
parent has no entry at `PH(M)`, `Partition` returns false and changes nothing.
(3) When the transition point was made and the root entry of the child is not a
directory or is a mountpoint, `Partition` ends in a failed assertion.  (4) When
the mountpoint was removed and the rows were copied, `MergeIntoParent` returns
false if the copied root is missing, and ends in a failed assertion if the
copied root is not a directory, lacks IsNestedRoot or is a mountpoint. -/
theorem invariant_violations_abort (pr : Process) (depth : Nat) (P C : Catalog) :
    (∀ r0, P.rows.find? (fun x => x.md5path == pr.PH C.path) = some r0 →
      ((GetDirent pr r0).IsDirectory = false ∨
        (GetDirent pr r0).IsNestedCatalogRoot = true) →
      Partition pr depth P C = .abort) ∧
    (P.rows.find? (fun x => x.md5path == pr.PH C.path) = none →
      Partition pr depth P C = .done false (P, C)) ∧
    (∀ P1 c0, MakeTransitionPoint pr P C.path = .done true P1 →
      C.rows.find? (fun x => x.md5path == pr.PH C.path) = some c0 →
      ((GetDirent pr c0).IsDirectory = false ∨
        (GetDirent pr c0).IsNestedCatalogMountpoint = true) →
      Partition pr depth P C = .abort) ∧
    (∀ prows rows, sqlUnlink P.rows P.chunks (pr.PH C.path) = some prows →
      sqlInsertAll prows (sqlUpdateLinkIds C.rows (linkIdOffset P)) = some rows →
      (rows.find? (fun x => x.md5path == pr.PH C.path) = none →
        ∃ s, MergeIntoParent pr C P = .done false s) ∧
      (∀ r0, rows.find? (fun x => x.md5path == pr.PH C.path) = some r0 →
        ((GetDirent pr r0).IsDirectory = false ∨
          (GetDirent pr r0).IsNestedCatalogRoot = false ∨
          (GetDirent pr r0).IsNestedCatalogMountpoint = true) →
        MergeIntoParent pr C P = .abort)) := by
  refine ⟨?_, ?_, ?_, ?_⟩
  · intro r0 hfind hbad
    have hl : LookupPath pr P C.path = some (GetDirent pr r0) := by
      rw [LookupPath_eq, hfind]; rfl
    have hcond : ((GetDirent pr r0).IsDirectory &&
        !(GetDirent pr r0).IsNestedCatalogRoot) = false := by
      rcases hbad with h | h <;> simp [h]
    simp [Partition, MakeTransitionPoint, hl, hcond]
  · intro hfind
    have hl : LookupPath pr P C.path = none := by
      rw [LookupPath_eq, hfind]; rfl
    simp [Partition, MakeTransitionPoint, hl]
  · intro P1 c0 h1 hfind hbad
    have hl : LookupPath pr C C.path = some (GetDirent pr c0) := by
      rw [LookupPath_eq, hfind]; rfl
    have hcond : ((GetDirent pr c0).IsDirectory &&
        !(GetDirent pr c0).IsNestedCatalogMountpoint) = false := by
      rcases hbad with h | h <;> simp [h]
    simp [Partition, h1, MakeNestedRoot, hl, hcond]
  · intro prows rows hun hins
    constructor
    · intro hfind
      cases hd : C.dirty <;>
        simp [MergeIntoParent, CopyToParent, RemoveEntry, SetDirty, Commit, hun, hd, hins,
          LookupPath_eq, hfind]
    · intro r0 hfind hbad
      have hneg : ¬ (((GetDirent pr r0).IsDirectory = true ∧
          (GetDirent pr r0).IsNestedCatalogRoot = true) ∧
          (GetDirent pr r0).IsNestedCatalogMountpoint = false) := by
        rintro ⟨⟨h1, h2⟩, h3⟩
        rcases hbad with h | h | h
        · rw [h] at h1; exact Bool.noConfusion h1
        · rw [h] at h2; exact Bool.noConfusion h2
        · rw [h] at h3; exact Bool.noConfusion h3
      cases hd : C.dirty <;>
        simp [MergeIntoParent, CopyToParent, RemoveEntry, SetDirty, Commit, hun, hd, hins,
          LookupPath_eq, hfind, UpdateEntry, hneg]

/-- Witness of the amended C15: the entry `/a/b` of `rootedParent` is a nested
root, and `bareParent` has no entry `/a/b`. -/
theorem invariant_violations_abort_witness :
    rootedParent.rows.find? (fun x => x.md5path == demoProcess.PH s4Child.path) =
      some (demoDir "/a/b" "/a" "b" (kFlagDir ||| kFlagDirNestedRoot)) ∧
    bareParent.rows.find? (fun x => x.md5path == demoProcess.PH s4Child.path) = none ∧
    Partition demoProcess 3 rootedParent s4Child = .abort ∧
    Partition demoProcess 3 bareParent s4Child = .done false (bareParent, s4Child) :=
  ⟨by decide, by decide,
    (invariant_violations_abort demoProcess 3 rootedParent s4Child).1
      (demoDir "/a/b" "/a" "b" (kFlagDir ||| kFlagDirNestedRoot)) (by decide)
      (Or.inr (by decide)),
    (invariant_violations_abort demoProcess 3 bareParent s4Child).2.1 (by decide)⟩

/-- C12 (Partition followed by Merge), evaluated on two parents, each with a
child created from the entry `/a/b` of the parent.  (1) The parent holds the
variant symlink `/a/b/l` with the target `/pre/$(A)/post`: both operations
return true, and afterwards the row of `/a/b/l` has the expanded target, not
the one it had.  (2) The parent holds the reference `("/a/b/g", "a1b2")` of a
grand-child below `/a/b`: both operations return true, and afterwards the
reference is `("/a/b/g", "")`. -/
theorem partition_merge_not_round_trip :
    Partition demoProcess 3 linkParent s4Child = .done true (s4ParentAfter, linkChildAfter) ∧
    MergeIntoParent demoProcess linkChildAfter s4ParentAfter
      = .done true (linkRoundTrip, { linkChildAfter with dirty := false }) ∧
    demoLink "/a/b/l" "/a/b" "l" "/pre/$(A)/post" ∈ linkParent.rows ∧
    demoLink "/a/b/l" "/a/b" "l" "/pre/$(A)/post" ∉ linkRoundTrip.rows ∧
    (∀ r ∈ linkRoundTrip.rows, r.md5path = demoPH "/a/b/l" → r.symlink = expandedTarget) ∧
    Partition demoProcess 3 gParent s4Child = .done true (gParentAfter, gChildAfter) ∧
    MergeIntoParent demoProcess gChildAfter gParentAfter
      = .done true (gRoundTrip, { gChildAfter with dirty := false }) ∧
    ("/a/b/g", "a1b2") ∈ gParent.nested_catalogs ∧
    ("/a/b/g", "a1b2") ∉ gRoundTrip.nested_catalogs ∧
    ("/a/b/g", "") ∈ gRoundTrip.nested_catalogs := by
  refine ⟨by decide, by decide, by decide, by decide, by decide, g_partition, by decide,
    by decide, by decide, by decide⟩

/-! ## Relations every write respects -/

theorem DirtyKept_frame : Frame DirtyKept :=
  ⟨fun _ h => h, fun h1 h2 h => h2 (h1 h), fun _ _ h => h, fun _ _ => rfl, fun _ _ h => h,
    fun _ _ h => h⟩

theorem SameStatistics_frame : Frame SameStatistics :=
  ⟨fun _ => rfl, fun h1 h2 => Eq.trans h2 h1, fun _ _ => rfl, fun _ => rfl, fun _ _ => rfl,
    fun _ _ => rfl⟩

theorem frame_AddEntry {Q : Catalog → Catalog → Prop} (hQ : Frame Q) (pr : Process)
    (c : Catalog) (e : DirectoryEntry) (p q : String) : Q c (AddEntry pr c e p q).2 := by
  unfold AddEntry
  simp only
  split
  · exact hQ.trans (hQ.dirty c) (hQ.rows _ _)
  · exact hQ.dirty c

theorem frame_AddEntryAt {Q : Catalog → Catalog → Prop} (hQ : Frame Q) (pr : Process)
    (c : Catalog) (e : DirectoryEntry) (p : String) : Q c (AddEntryAt pr c e p).2 :=
  frame_AddEntry hQ pr c e p _

theorem frame_TouchEntry {Q : Catalog → Catalog → Prop} (hQ : Frame Q) (pr : Process)
    (c : Catalog) (e : DirectoryEntry) (p : String) : Q c (TouchEntry pr c e p).2 :=
  hQ.trans (hQ.dirty c) (hQ.rows _ _)

theorem frame_UpdateEntry {Q : Catalog → Catalog → Prop} (hQ : Frame Q)
    (c : Catalog) (e : DirectoryEntry) (k : Nat) : Q c (UpdateEntry c e k).2 :=
  hQ.trans (hQ.dirty c) (hQ.rows _ _)

theorem frame_RemoveEntry {Q : Catalog → Catalog → Prop} (hQ : Frame Q) (pr : Process)
    (c : Catalog) (p : String) : Q c (RemoveEntry pr c p).2 := by
  unfold RemoveEntry
  simp only
  split
  · exact hQ.trans (hQ.dirty c) (hQ.rows _ _)
  · exact hQ.dirty c

theorem frame_IncLinkcount {Q : Catalog → Catalog → Prop} (hQ : Frame Q) (pr : Process)
    (c : Catalog) (p : String) (delta : Int) : Q c (IncLinkcount pr c p delta).2 := by
  unfold IncLinkcount
  simp only
  split <;> exact hQ.dirty c

theorem frame_InsertNestedCatalog {Q : Catalog → Catalog → Prop} (hQ : Frame Q)
    (c : Catalog) (m : String) (ref : Option String) (sha : String) :
    Q c (InsertNestedCatalog c m ref sha).2 := by
  unfold InsertNestedCatalog
  simp only
  split
  · cases ref with
    | none => exact hQ.nested c _
    | some child => exact hQ.trans (hQ.nested c _) (hQ.children _ _)
  · exact hQ.refl c

theorem frame_RemoveNestedCatalog {Q : Catalog → Catalog → Prop} (hQ : Frame Q)
    (c : Catalog) (m : String) : Q c (RemoveNestedCatalog c m).2.1 := by
  unfold RemoveNestedCatalog
  simp only
  split
  · exact hQ.trans (hQ.nested c _) (hQ.children _ _)
  · exact hQ.nested c _

theorem frame_moveListing {Q : Catalog → Catalog → Prop} (hQ : Frame Q) {pr : Process}
    {f : String → MoveState → Res MoveState} {d : String}
    (hrec : ∀ d st ok st', f d st = .done ok st' →
      Q st.parent st'.parent ∧ Q st.nested st'.nested) :
    ∀ (l : List DirectoryEntry) (st : MoveState) (ok : Bool) (st' : MoveState),
      moveListing pr f d l st = .done ok st' →
      Q st.parent st'.parent ∧ Q st.nested st'.nested := by
  intro l
  induction l with
  | nil =>
    intro st ok st' h
    simp only [moveListing, Res.done.injEq] at h
    obtain ⟨_, rfl⟩ := h
    exact ⟨hQ.refl _, hQ.refl _⟩
  | cons i rest ih =>
    intro st ok st' h
    simp only [moveListing] at h
    have hadd := frame_AddEntryAt hQ pr st.nested i (d ++ "/" ++ i.name)
    cases hres : AddEntryAt pr st.nested i (d ++ "/" ++ i.name) with
    | mk ok1 nested =>
      rw [hres] at h hadd
      simp only at hadd
      cases ok1 with
      | false =>
        simp only [Res.done.injEq] at h
        obtain ⟨_, rfl⟩ := h
        exact ⟨hQ.refl _, hadd⟩
      | true =>
        simp only at h
        have key : ∀ st2 : MoveState,
            Q st.parent st2.parent → Q st.nested st2.nested →
            (match RemoveEntry pr st2.parent (d ++ "/" ++ i.name) with
              | (false, parent) => Res.done false { st2 with parent := parent }
              | (true, parent) => moveListing pr f d rest { st2 with parent := parent })
              = .done ok st' →
            Q st.parent st'.parent ∧ Q st.nested st'.nested := by
          intro st2 h1 h2 hrem
          have hre := frame_RemoveEntry hQ pr st2.parent (d ++ "/" ++ i.name)
          cases hrr : RemoveEntry pr st2.parent (d ++ "/" ++ i.name) with
          | mk ok2 parent =>
            rw [hrr] at hrem hre
            simp only at hre
            cases ok2 with
            | false =>
              simp only [Res.done.injEq] at hrem
              obtain ⟨_, rfl⟩ := hrem
              exact ⟨hQ.trans h1 hre, h2⟩
            | true =>
              simp only at hrem
              obtain ⟨g1, g2⟩ := ih _ _ _ hrem
              exact ⟨hQ.trans (hQ.trans h1 hre) g1, hQ.trans h2 g2⟩
        by_cases hmnt : i.IsNestedCatalogMountpoint = true
        · simp only [hmnt, if_true] at h
          exact key { st with nested := nested, grand_child_mountpoints :=
            st.grand_child_mountpoints ++ [d ++ "/" ++ i.name] } (hQ.refl _) hadd h
        · by_cases hdir : i.IsDirectory = true
          · simp only [hmnt, hdir, if_true] at h
            cases hsub : f (d ++ "/" ++ i.name) { st with nested := nested } with
            | abort => rw [hsub] at h; simp at h
            | exhausted => rw [hsub] at h; simp at h
            | done ok2 st2 =>
              rw [hsub] at h
              obtain ⟨g1, g2⟩ := hrec _ _ _ _ hsub
              cases ok2 with
              | false =>
                have h' : Res.done false st2 = Res.done ok st' := h
                simp only [Res.done.injEq] at h'
                obtain ⟨_, rfl⟩ := h'
                exact ⟨g1, hQ.trans hadd g2⟩
              | true => exact key st2 g1 (hQ.trans hadd g2) h
          · simp only [hmnt, hdir] at h
            exact key { st with nested := nested } (hQ.refl _) hadd h

theorem frame_MoveToNestedRecursively {Q : Catalog → Catalog → Prop} (hQ : Frame Q)
    {pr : Process} :
    ∀ (depth : Nat) (d : String) (st : MoveState) (ok : Bool) (st' : MoveState),
      MoveToNestedRecursively pr depth d st = .done ok st' →
      Q st.parent st'.parent ∧ Q st.nested st'.nested := by
  intro depth
  induction depth with
  | zero =>
    intro d st ok st' h
    simp [MoveToNestedRecursively] at h
  | succ n ih =>
    intro d st ok st' h
    simp only [MoveToNestedRecursively] at h
    exact frame_moveListing hQ ih _ _ _ _ h

theorem frame_MoveCatalogsToNested {Q : Catalog → Catalog → Prop} (hQ : Frame Q) :
    ∀ (l : List String) (this nested : Catalog),
      Q this (MoveCatalogsToNested l this nested).2.1 ∧
      Q nested (MoveCatalogsToNested l this nested).2.2 := by
  intro l
  induction l with
  | nil => intro this nested; exact ⟨hQ.refl _, hQ.refl _⟩
  | cons i rest ih =>
    intro this nested
    have hr := frame_RemoveNestedCatalog hQ this i
    obtain ⟨this1, hrem, _⟩ := RemoveNestedCatalog_eq this i
    rw [hrem] at hr
    simp only at hr
    simp only [MoveCatalogsToNested, hrem]
    have hins := frame_InsertNestedCatalog hQ nested i
      (if i ∈ this.children then some i else none) ""
    cases hres : InsertNestedCatalog nested i (if i ∈ this.children then some i else none) ""
      with
    | mk ok nested1 =>
      rw [hres] at hins
      simp only at hins
      cases ok with
      | false => exact ⟨hr, hins⟩
      | true =>
        obtain ⟨g1, g2⟩ := ih this1 nested1
        exact ⟨hQ.trans hr g1, hQ.trans hins g2⟩

theorem frame_MakeTransitionPoint {Q : Catalog → Catalog → Prop} (hQ : Frame Q)
    {pr : Process} {c c' : Catalog} {M : String} {ok : Bool}
    (h : MakeTransitionPoint pr c M = .done ok c') : Q c c' := by
  unfold MakeTransitionPoint at h
  cases hl : LookupPath pr c M with
  | none =>
    rw [hl] at h
    simp only [Res.done.injEq] at h
    rw [← h.2]
    exact hQ.refl c
  | some e =>
    rw [hl] at h
    simp only at h
    split at h
    · have hu := frame_UpdateEntry hQ c { e with is_nested_catalog_mountpoint := true } (pr.PH M)
      cases hup : UpdateEntry c { e with is_nested_catalog_mountpoint := true } (pr.PH M) with
      | mk ok1 c1 =>
        rw [hup] at h hu
        cases ok1 <;>
        · simp only [Res.done.injEq] at h
          rw [← h.2]
          exact hu
    · simp at h

theorem frame_MakeNestedRoot {Q : Catalog → Catalog → Prop} (hQ : Frame Q)
    {pr : Process} {c c' : Catalog} {ok : Bool}
    (h : MakeNestedRoot pr c = .done ok c') : Q c c' := by
  unfold MakeNestedRoot at h
  cases hl : LookupPath pr c c.path with
  | none =>
    rw [hl] at h
    simp only [Res.done.injEq] at h
    rw [← h.2]
    exact hQ.refl c
  | some e =>
    rw [hl] at h
    simp only at h
    split at h
    · have hu := frame_UpdateEntry hQ c { e with is_nested_catalog_root := true } (pr.PH c.path)
      cases hup : UpdateEntry c { e with is_nested_catalog_root := true } (pr.PH c.path) with
      | mk ok1 c1 =>
        rw [hup] at h hu
        cases ok1 <;>
        · simp only [Res.done.injEq] at h
          rw [← h.2]
          exact hu
    · simp at h

/-- Whatever `Partition` returns, a relation every write respects holds between
the states of each catalog before and after. -/
theorem frame_Partition {Q : Catalog → Catalog → Prop} (hQ : Frame Q) {pr : Process}
    {depth : Nat} {P C P' C' : Catalog} {ok : Bool}
    (h : Partition pr depth P C = .done ok (P', C')) : Q P P' ∧ Q C C' := by
  unfold Partition at h
  cases h1 : MakeTransitionPoint pr P C.path with
  | abort => rw [h1] at h; simp at h
  | exhausted => rw [h1] at h; simp at h
  | done ok1 P1 =>
    rw [h1] at h
    have c1 := frame_MakeTransitionPoint hQ h1
    cases ok1 with
    | false =>
      simp only [Res.done.injEq, Prod.mk.injEq] at h
      obtain ⟨_, rfl, rfl⟩ := h
      exact ⟨c1, hQ.refl _⟩
    | true =>
      simp only at h
      cases h2 : MakeNestedRoot pr C with
      | abort => rw [h2] at h; simp at h
      | exhausted => rw [h2] at h; simp at h
      | done ok2 C1 =>
        rw [h2] at h
        have c2 := frame_MakeNestedRoot hQ h2
        cases ok2 with
        | false =>
          simp only [Res.done.injEq, Prod.mk.injEq] at h
          obtain ⟨_, rfl, rfl⟩ := h
          exact ⟨c1, c2⟩
        | true =>
          simp only at h
          cases h3 : MoveToNestedRecursively pr depth C1.path ⟨P1, C1, []⟩ with
          | abort => rw [h3] at h; simp at h
          | exhausted => rw [h3] at h; simp at h
          | done ok3 st =>
            rw [h3] at h
            obtain ⟨m1, m2⟩ := frame_MoveToNestedRecursively hQ _ _ _ _ _ h3
            cases ok3 with
            | false =>
              simp only [Res.done.injEq, Prod.mk.injEq] at h
              obtain ⟨_, rfl, rfl⟩ := h
              exact ⟨hQ.trans c1 m1, hQ.trans c2 m2⟩
            | true =>
              simp only at h
              obtain ⟨n1, n2⟩ :=
                frame_MoveCatalogsToNested hQ st.grand_child_mountpoints st.parent st.nested
              cases h4 : MoveCatalogsToNested st.grand_child_mountpoints st.parent st.nested with
              | mk ok4 pc =>
                obtain ⟨p4, c4⟩ := pc
                rw [h4] at h n1 n2
                simp only [Res.done.injEq, Prod.mk.injEq] at h
                obtain ⟨_, rfl, rfl⟩ := h
                exact ⟨hQ.trans (hQ.trans c1 m1) n1, hQ.trans (hQ.trans c2 m2) n2⟩

theorem frame_copyCatalogsLoop {Q : Catalog → Catalog → Prop} (hQ : Frame Q)
    (this : Catalog) :
    ∀ (l : List (String × String)) (parent : Catalog),
      Q parent (copyCatalogsLoop this l parent) := by
  intro l
  induction l with
  | nil => intro parent; exact hQ.refl _
  | cons i rest ih =>
    intro parent
    simp only [copyCatalogsLoop]
    exact hQ.trans (frame_InsertNestedCatalog hQ parent i.1 (FindChild this i.1) i.2) (ih _)

theorem frame_CopyToParent {Q : Catalog → Catalog → Prop} (hQ : Frame Q)
    (hcommit : ∀ c, Q c (Commit c)) {pr : Process} {C P P' C' : Catalog} {ok : Bool}
    (h : CopyToParent pr C P = .done ok (P', C')) : Q P P' ∧ Q C C' := by
  unfold CopyToParent at h
  simp only at h
  have hre := frame_RemoveEntry hQ pr P C.path
  cases hrr : RemoveEntry pr P C.path with
  | mk ok1 P1 =>
    rw [hrr] at h hre
    simp only at hre
    have hupd : Q C { C with rows := sqlUpdateLinkIds C.rows (linkIdOffset P) } := hQ.rows _ _
    cases ok1 with
    | false =>
      simp only [Res.done.injEq, Prod.mk.injEq] at h
      obtain ⟨_, rfl, rfl⟩ := h
      exact ⟨hre, hupd⟩
    | true =>
      simp only at h
      generalize hC2 : (if C.dirty = true then
        Commit { C with rows := sqlUpdateLinkIds C.rows (linkIdOffset P) }
        else { C with rows := sqlUpdateLinkIds C.rows (linkIdOffset P) }) = C2 at h
      generalize hP2 : (if P1.dirty = true then Commit P1 else P1) = P2 at h
      have c2 : Q C C2 := by
        rw [← hC2]
        split
        · exact hQ.trans hupd (hcommit _)
        · exact hupd
      have p2 : Q P P2 := by
        rw [← hP2]
        split
        · exact hQ.trans hre (hcommit _)
        · exact hre
      cases hins : sqlInsertAll P2.rows C2.rows with
      | none =>
        rw [hins] at h
        simp only [Res.done.injEq, Prod.mk.injEq] at h
        obtain ⟨_, rfl, rfl⟩ := h
        exact ⟨p2, c2⟩
      | some rows =>
        rw [hins] at h
        simp only at h
        have p3 : Q P (SetDirty { P2 with rows := rows }) :=
          hQ.trans p2 (hQ.trans (hQ.rows _ _) (hQ.dirty _))
        cases hl : LookupPath pr (SetDirty { P2 with rows := rows }) C2.path with
        | none =>
          rw [hl] at h
          simp only [Res.done.injEq, Prod.mk.injEq] at h
          obtain ⟨_, rfl, rfl⟩ := h
          exact ⟨p3, c2⟩
        | some e =>
          rw [hl] at h
          simp only at h
          split at h
          · have hu := frame_UpdateEntry hQ (SetDirty { P2 with rows := rows })
              { e with is_nested_catalog_root := false } (pr.PH C2.path)
            simp only [Res.done.injEq, Prod.mk.injEq] at h
            obtain ⟨_, rfl, rfl⟩ := h
            exact ⟨hQ.trans p3 hu, c2⟩
          · simp at h

/-- Whatever `MergeIntoParent` returns, a relation every write and `Commit`
respect holds between the states of each catalog before and after. -/
theorem frame_MergeIntoParent {Q : Catalog → Catalog → Prop} (hQ : Frame Q)
    (hcommit : ∀ c, Q c (Commit c)) {pr : Process} {C P P' C' : Catalog} {ok : Bool}
    (h : MergeIntoParent pr C P = .done ok (P', C')) : Q P P' ∧ Q C C' := by
  unfold MergeIntoParent at h
  cases hc : CopyToParent pr C P with
  | abort => rw [hc] at h; simp at h
  | exhausted => rw [hc] at h; simp at h
  | done ok1 s =>
    obtain ⟨P1, C1⟩ := s
    rw [hc] at h
    obtain ⟨k1, k2⟩ := frame_CopyToParent hQ hcommit hc
    cases ok1 with
    | false =>
      simp only [Res.done.injEq, Prod.mk.injEq] at h
      obtain ⟨_, rfl, rfl⟩ := h
      exact ⟨k1, k2⟩
    | true =>
      simp only [CopyCatalogsToParent] at h
      have hl := frame_copyCatalogsLoop hQ C1 (ListNestedCatalogs C1) P1
      have hr := frame_RemoveNestedCatalog hQ
        (copyCatalogsLoop C1 (ListNestedCatalogs C1) P1) C1.path
      cases hrem : RemoveNestedCatalog (copyCatalogsLoop C1 (ListNestedCatalogs C1) P1) C1.path
        with
      | mk ok2 rest =>
        obtain ⟨P2, ref⟩ := rest
        rw [hrem] at h hr
        simp only [Res.done.injEq, Prod.mk.injEq] at h
        obtain ⟨_, rfl, rfl⟩ := h
        exact ⟨hQ.trans k1 (hQ.trans hl hr), k2⟩

/-! ## Dirty tracking -/

theorem RemoveEntry_dirty (pr : Process) (c : Catalog) (p : String) :
    (RemoveEntry pr c p).2.dirty = true := by
  unfold RemoveEntry
  simp only [SetDirty]
  split <;> rfl

/-- The flags `CopyToParent` leaves: a clear flag is the work of the call of
`Commit` at the flush, and after a success the parent is dirty. -/
theorem CopyToParent_flags {pr : Process} {C P P' C' : Catalog} {ok : Bool}
    (h : CopyToParent pr C P = .done ok (P', C')) :
    (P'.dirty = false → P' = Commit (RemoveEntry pr P C.path).2) ∧
    (ok = true → P'.dirty = true) ∧
    (C'.dirty = false → C.dirty = true →
      C' = Commit { C with rows := sqlUpdateLinkIds C.rows (linkIdOffset P) }) := by
  unfold CopyToParent at h
  simp only at h
  have hre := RemoveEntry_dirty pr P C.path
  cases hrr : RemoveEntry pr P C.path with
  | mk ok1 P1 =>
    rw [hrr] at h hre
    simp only at hre
    cases ok1 with
    | false =>
      simp only [Res.done.injEq, Prod.mk.injEq] at h
      obtain ⟨rfl, rfl, rfl⟩ := h
      refine ⟨fun hf => ?_, fun hf => by simp at hf, fun hf hd => ?_⟩
      · rw [hre] at hf
        simp at hf
      · simp only at hf
        rw [hd] at hf
        simp at hf
    | true =>
      simp only [hre, if_true] at h
      generalize hC2 : (if C.dirty = true then
        Commit { C with rows := sqlUpdateLinkIds C.rows (linkIdOffset P) }
        else { C with rows := sqlUpdateLinkIds C.rows (linkIdOffset P) }) = C2 at h
      have c2 : C.dirty = true →
          C2 = Commit { C with rows := sqlUpdateLinkIds C.rows (linkIdOffset P) } := by
        intro hd
        rw [← hC2, if_pos hd]
      cases hins : sqlInsertAll (Commit P1).rows C2.rows with
      | none =>
        rw [hins] at h
        simp only [Res.done.injEq, Prod.mk.injEq] at h
        obtain ⟨rfl, rfl, rfl⟩ := h
        exact ⟨fun _ => rfl, fun hf => by simp at hf, fun _ hd => c2 hd⟩
      | some rows =>
        rw [hins] at h
        simp only at h
        cases hl : LookupPath pr (SetDirty { Commit P1 with rows := rows }) C2.path with
        | none =>
          rw [hl] at h
          simp only [Res.done.injEq, Prod.mk.injEq] at h
          obtain ⟨rfl, rfl, rfl⟩ := h
          exact ⟨fun hf => by simp [SetDirty] at hf, fun hf => by simp at hf,
            fun _ hd => c2 hd⟩
        | some e =>
          rw [hl] at h
          simp only at h
          split at h
          · simp only [UpdateEntry, Res.done.injEq, Prod.mk.injEq] at h
            obtain ⟨_, rfl, rfl⟩ := h
            exact ⟨fun hf => by simp [SetDirty] at hf, fun _ => rfl, fun _ hd => c2 hd⟩
          · simp at h

/-- The flags `MergeIntoParent` leaves: a flag that is clear after having been
set is the work of the call of `Commit` at the flush. -/
theorem MergeIntoParent_flags {pr : Process} {C P P' C' : Catalog} {ok : Bool}
    (h : MergeIntoParent pr C P = .done ok (P', C')) :
    (P'.dirty = false → P' = Commit (RemoveEntry pr P C.path).2) ∧
    (ok = true → P'.dirty = true) ∧
    (C'.dirty = false → C.dirty = true →
      C' = Commit { C with rows := sqlUpdateLinkIds C.rows (linkIdOffset P) }) := by
  unfold MergeIntoParent at h
  cases hc : CopyToParent pr C P with
  | abort => rw [hc] at h; simp at h
  | exhausted => rw [hc] at h; simp at h
  | done ok1 s =>
    obtain ⟨P1, C1⟩ := s
    rw [hc] at h
    obtain ⟨k1, k2, k3⟩ := CopyToParent_flags hc
    cases ok1 with
    | false =>
      simp only [Res.done.injEq, Prod.mk.injEq] at h
      obtain ⟨rfl, rfl, rfl⟩ := h
      exact ⟨k1, fun hf => by simp at hf, k3⟩
    | true =>
      simp only [CopyCatalogsToParent] at h
      have hl := frame_copyCatalogsLoop DirtyKept_frame C1 (ListNestedCatalogs C1) P1
      have hr := frame_RemoveNestedCatalog DirtyKept_frame
        (copyCatalogsLoop C1 (ListNestedCatalogs C1) P1) C1.path
      cases hrem : RemoveNestedCatalog (copyCatalogsLoop C1 (ListNestedCatalogs C1) P1) C1.path
        with
      | mk ok2 rest =>
        obtain ⟨P2, ref⟩ := rest
        rw [hrem] at h hr
        simp only [Res.done.injEq, Prod.mk.injEq] at h
        obtain ⟨_, rfl, rfl⟩ := h
        have hd := hr (hl (k2 rfl))
        exact ⟨fun hf => by rw [hd] at hf; simp at hf, fun _ => hd, k3⟩

/-- C21 (dirty tracking).  After each of `AddEntry`, `TouchEntry`, `UpdateEntry`,
`RemoveEntry` and `IncLinkcount` the dirty flag is set, whatever the operation
returns; after `Commit` it is clear.  No other operation clears a set flag:
the reference operations and every outcome of `Partition` keep a set flag set,
and when `MergeIntoParent` leaves clear a flag, the catalog is the one its own
call of `Commit` at the flush returned (for the nested catalog: whenever the
flag was set before). -/
theorem dirty_tracking (pr : Process) :
    (∀ c e p q, (AddEntry pr c e p q).2.dirty = true) ∧
    (∀ c e p, (TouchEntry pr c e p).2.dirty = true) ∧
    (∀ c e k, (UpdateEntry c e k).2.dirty = true) ∧
    (∀ c p, (RemoveEntry pr c p).2.dirty = true) ∧
    (∀ c p delta, (IncLinkcount pr c p delta).2.dirty = true) ∧
    (∀ c, (Commit c).dirty = false) ∧
    (∀ c m ref sha, c.dirty = true → (InsertNestedCatalog c m ref sha).2.dirty = true) ∧
    (∀ c m, c.dirty = true → (RemoveNestedCatalog c m).2.1.dirty = true) ∧
    (∀ depth P C ok P' C', Partition pr depth P C = .done ok (P', C') →
      (P.dirty = true → P'.dirty = true) ∧ (C.dirty = true → C'.dirty = true)) ∧
    (∀ C P ok P' C', MergeIntoParent pr C P = .done ok (P', C') →
      (P'.dirty = false → P' = Commit (RemoveEntry pr P C.path).2) ∧
      (C'.dirty = false → C.dirty = true →
        C' = Commit { C with rows := sqlUpdateLinkIds C.rows (linkIdOffset P) })) := by
  refine ⟨?_, ?_, ?_, RemoveEntry_dirty pr, ?_, fun _ => rfl, ?_, ?_, ?_, ?_⟩
  · intro c e p q
    unfold AddEntry
    simp only [SetDirty]
    split <;> rfl
  · intro c e p
    rfl
  · intro c e k
    rfl
  · intro c p delta
    unfold IncLinkcount
    simp only [SetDirty]
    split <;> rfl
  · intro c m ref sha
    exact frame_InsertNestedCatalog DirtyKept_frame c m ref sha
  · intro c m
    exact frame_RemoveNestedCatalog DirtyKept_frame c m
  · intro depth P C ok P' C' h
    exact frame_Partition DirtyKept_frame h
  · intro C P ok P' C' h
    obtain ⟨h1, _, h3⟩ := MergeIntoParent_flags h
    exact ⟨h1, h3⟩

/-- Witness of C21: a `RemoveEntry` that finds no row sets the flag of the clean
catalog of scenario S4, and the merge of scenario S5 leaves the nested catalog
as its call of `Commit` returned it. -/
theorem dirty_tracking_witness :
    s4Parent.dirty = false ∧
    (RemoveEntry demoProcess s4Parent "/nowhere").2.dirty = true ∧
    s4ChildAfter.dirty = true ∧ s5ChildAfter.dirty = false ∧
    s5ChildAfter = Commit { s4ChildAfter with
      rows := sqlUpdateLinkIds s4ChildAfter.rows (linkIdOffset s5Parent) } :=
  ⟨by decide, (dirty_tracking demoProcess).2.2.2.1 s4Parent "/nowhere", by decide, by decide,
    ((dirty_tracking demoProcess).2.2.2.2.2.2.2.2.2 s4ChildAfter s5Parent true s5ParentAfter
      s5ChildAfter s5_merge).2 (by decide) (by decide)⟩

/-! ## Flag encoding -/

theorem CreateDatabaseFlags_cases (e : DirectoryEntry) :
    CreateDatabaseFlags e =
      (if e.IsNestedCatalogRoot then 2 else if e.IsNestedCatalogMountpoint then 4 else 0) +
      (if e.IsDirectory then 1 else if e.IsLink then 24 else 8) := by
  unfold CreateDatabaseFlags
  cases e.IsNestedCatalogRoot <;> cases e.IsNestedCatalogMountpoint <;>
    cases e.IsDirectory <;> cases e.IsLink <;> decide

/-- C22, counterexample.  For the entry of a regular file that carries the
nested-root mark, `CreateDatabaseFlags` yields IsNestedRoot with IsFile: the bit
IsNestedRoot is set and the bit IsDir is not. -/
theorem flag_encoding_counterexample :
    CreateDatabaseFlags rootedFileEntry = kFlagDirNestedRoot ||| kFlagFile ∧
    CreateDatabaseFlags rootedFileEntry &&& kFlagDirNestedRoot ≠ 0 ∧
    CreateDatabaseFlags rootedFileEntry &&& kFlagDir = 0 := by
  decide

/-- C22, amended.  For every entry, `CreateDatabaseFlags` yields IsDir, IsFile or
IsFile with IsLink, alone or with one of IsNestedRoot and IsNestedMountpoint
(bit values 1, 2, 4, 8, 16), and never IsNestedRoot together with
IsNestedMountpoint.  The bit IsDir is set exactly for a directory,
IsNestedRoot exactly for the root mark, IsNestedMountpoint exactly for the
mountpoint mark without the root mark, IsFile exactly for a non-directory and
IsLink exactly for a symlink.  For an entry that is a directory whenever it
carries the nested-root or the nested-mountpoint mark, the result is one of
IsDir, IsDir with IsNestedRoot, IsDir with IsNestedMountpoint, IsFile, IsFile
with IsLink, and IsNestedRoot or IsNestedMountpoint comes with IsDir. -/
theorem flag_encoding (e : DirectoryEntry) :
    CreateDatabaseFlags e ∈ [kFlagDir, kFlagDir ||| kFlagDirNestedRoot,
      kFlagDir ||| kFlagDirNestedMountpoint, kFlagFile, kFlagFile ||| kFlagDirNestedRoot,
      kFlagFile ||| kFlagDirNestedMountpoint, kFlagFile ||| kFlagLink,
      kFlagFile ||| kFlagLink ||| kFlagDirNestedRoot,
      kFlagFile ||| kFlagLink ||| kFlagDirNestedMountpoint] ∧
    ¬ (CreateDatabaseFlags e &&& kFlagDirNestedRoot ≠ 0 ∧
      CreateDatabaseFlags e &&& kFlagDirNestedMountpoint ≠ 0) ∧
    (CreateDatabaseFlags e &&& kFlagDir ≠ 0 ↔ e.IsDirectory = true) ∧
    (CreateDatabaseFlags e &&& kFlagDirNestedRoot ≠ 0 ↔ e.IsNestedCatalogRoot = true) ∧
    (CreateDatabaseFlags e &&& kFlagDirNestedMountpoint ≠ 0 ↔
      (e.IsNestedCatalogRoot = false ∧ e.IsNestedCatalogMountpoint = true)) ∧
    (CreateDatabaseFlags e &&& kFlagFile ≠ 0 ↔ e.IsDirectory = false) ∧
    (CreateDatabaseFlags e &&& kFlagLink ≠ 0 ↔ (e.IsDirectory = false ∧ e.IsLink = true)) ∧
    (((e.IsNestedCatalogRoot || e.IsNestedCatalogMountpoint) = true → e.IsDirectory = true) →
      CreateDatabaseFlags e ∈ [kFlagDir, kFlagDir ||| kFlagDirNestedRoot,
        kFlagDir ||| kFlagDirNestedMountpoint, kFlagFile, kFlagFile ||| kFlagLink] ∧
      ((CreateDatabaseFlags e &&& kFlagDirNestedRoot ≠ 0 ∨
        CreateDatabaseFlags e &&& kFlagDirNestedMountpoint ≠ 0) →
        CreateDatabaseFlags e &&& kFlagDir ≠ 0)) := by
  rw [CreateDatabaseFlags_cases]
  cases e.IsNestedCatalogRoot <;> cases e.IsNestedCatalogMountpoint <;>
    cases e.IsDirectory <;> cases e.IsLink <;> decide

/-- Witness of C22: the directory entry that carries both marks is encoded as
IsDir with IsNestedRoot, and its mark comes with IsDir. -/
theorem flag_encoding_witness :
    CreateDatabaseFlags doublyMarkedEntry = kFlagDir ||| kFlagDirNestedRoot ∧
    CreateDatabaseFlags doublyMarkedEntry ∈ [kFlagDir, kFlagDir ||| kFlagDirNestedRoot,
      kFlagDir ||| kFlagDirNestedMountpoint, kFlagFile, kFlagFile ||| kFlagLink] ∧
    ((CreateDatabaseFlags doublyMarkedEntry &&& kFlagDirNestedRoot ≠ 0 ∨
      CreateDatabaseFlags doublyMarkedEntry &&& kFlagDirNestedMountpoint ≠ 0) →
      CreateDatabaseFlags doublyMarkedEntry &&& kFlagDir ≠ 0) :=
  ⟨by decide, (flag_encoding doublyMarkedEntry).2.2.2.2.2.2.2 (by decide)⟩

/-! ## Codec round trip -/

theorem reencode_flags (pr : Process) (r : Row) (h : LegalRow r) :
    CreateDatabaseFlags (GetDirent pr r) = r.flags := by
  rw [CreateDatabaseFlags_cases]
  obtain ⟨h0, h1, h2, h3, h4⟩ := h
  obtain ⟨k, p, hl, hash, size, mode, mtime, f, name, symlink, uid, gid⟩ := r
  simp only [DirectoryEntry.IsNestedCatalogRoot, DirectoryEntry.IsNestedCatalogMountpoint,
    DirectoryEntry.IsDirectory, DirectoryEntry.IsLink, GetDirent, kFlagDir, kFlagFile,
    kFlagLink, kFlagDirNestedRoot, kFlagDirNestedMountpoint] at *
  by_cases hd : mode &&& 61440 = 16384
  · interval_cases f <;> simp_all +decide
  · by_cases hl : mode &&& 61440 = 40960
    · interval_cases f <;> simp_all +decide
    · interval_cases f <;> simp_all +decide

theorem cstr_of_no_nul (s : List Char) (h : Char.ofNat 0 ∉ s) : cstr s = s := by
  unfold cstr
  rw [List.takeWhile_eq_self_iff]
  intro ch hch
  simp only [bne_iff_ne, ne_eq]
  intro heq
  exact h (heq ▸ hch)

theorem ExpandSymlink_no_dollar (pr : Process) (s : String) (h1 : '$' ∉ s.data)
    (h2 : pr.sentinel ≠ '$') : ExpandSymlink pr s = s := by
  unfold ExpandSymlink
  have : ¬ ('$' ∈ s.data ++ [pr.sentinel]) := by
    simp only [List.mem_append, List.mem_singleton, not_or]
    exact ⟨h1, fun h => h2 h.symm⟩
  simp only [this, if_false]

/-- C23, counterexample.  The symlink row with the target `$(A)` is legal, and
in the process where `A` is `x` it is re-encoded with the target `x`. -/
theorem codec_round_trip_counterexample :
    LegalRow (demoLink "/l" "" "l" "$(A)") ∧
    (reencode demoProcess (demoLink "/l" "" "l" "$(A)")).symlink = "x" ∧
    reencode demoProcess (demoLink "/l" "" "l" "$(A)") ≠ demoLink "/l" "" "l" "$(A)" := by
  decide

/-- C23, amended.  For every legal row and every process, decoding the row with
`GetDirent` and encoding the entry again yields the same hash, hardlinks, size,
mode, mtime, flags, uid and gid; the name comes back cut at its first NUL and
the symlink comes back cut at its first NUL and expanded by `ExpandSymlink`.
The whole row comes back when name and symlink hold no NUL, the symlink holds
no `$` and the byte after its characters is not `$`. -/
theorem codec_round_trip (pr : Process) (r : Row) (h : LegalRow r) :
    (reencode pr r).md5path = r.md5path ∧ (reencode pr r).parent = r.parent ∧
    (reencode pr r).hash = r.hash ∧ (reencode pr r).hardlinks = r.hardlinks ∧
    (reencode pr r).size = r.size ∧ (reencode pr r).mode = r.mode ∧
    (reencode pr r).mtime = r.mtime ∧ (reencode pr r).flags = r.flags ∧
    (reencode pr r).uid = r.uid ∧ (reencode pr r).gid = r.gid ∧
    (reencode pr r).name = String.mk (cstr r.name.data) ∧
    (reencode pr r).symlink = ExpandSymlink pr (String.mk (cstr r.symlink.data)) ∧
    (Char.ofNat 0 ∉ r.name.data → Char.ofNat 0 ∉ r.symlink.data → '$' ∉ r.symlink.data →
      pr.sentinel ≠ '$' → reencode pr r = r) := by
  have hf : (reencode pr r).flags = r.flags := reencode_flags pr r h
  refine ⟨rfl, rfl, rfl, rfl, rfl, rfl, rfl, hf, rfl, rfl, rfl, rfl, ?_⟩
  intro n1 n2 n3 n4
  have e1 : (reencode pr r).name = r.name := by
    show String.mk (cstr r.name.data) = r.name
    rw [cstr_of_no_nul _ n1]
  have e2 : (reencode pr r).symlink = r.symlink := by
    show ExpandSymlink pr (String.mk (cstr r.symlink.data)) = r.symlink
    rw [cstr_of_no_nul _ n2]
    exact ExpandSymlink_no_dollar pr r.symlink n3 n4
  exact Row.ext_fields _ _ rfl rfl rfl rfl rfl rfl rfl hf e1 e2 rfl rfl

/-- Witness of C23: the file row `/a/b/d` of scenario S4 comes back as it is. -/
theorem codec_round_trip_witness :
    LegalRow (demoFile "/a/b/d" "/a/b" "d" 0) ∧
    reencode demoProcess (demoFile "/a/b/d" "/a/b" "d" 0) = demoFile "/a/b/d" "/a/b" "d" 0 :=
  ⟨by decide,
    (codec_round_trip demoProcess (demoFile "/a/b/d" "/a/b" "d" 0) (by decide)).2.2.2.2.2.2.2.2.2.2.2.2
      (by decide) (by decide) (by decide) (by decide)⟩

/-! ## Symlink expansion -/

/-- C24 (symlink expansion substitutes in place), evaluated on the example of
the claim.  With `A` set to `x`, whatever the path hash and whatever the byte
after the characters, `ExpandSymlink` turns `/pre/$(A)/post` into `xpost`
followed by that byte: the text before the first `$` is dropped, the character
after `)` is skipped, and the byte after the characters is appended.  The
claim says the result is `/pre/x/post`. -/
theorem expand_symlink_drops_text (PH : String → Nat) (b : Char) :
    ExpandSymlink ⟨PH, demoProcess.getenv, b⟩ "/pre/$(A)/post" =
      String.mk (['x', 'p', 'o', 's', 't'] ++ [b]) ∧
    ExpandSymlink ⟨PH, demoProcess.getenv, b⟩ "/pre/$(A)/post" ≠ "/pre/x/post" := by
  have h : ExpandSymlink ⟨PH, demoProcess.getenv, b⟩ "/pre/$(A)/post" =
      String.mk (['x', 'p', 'o', 's', 't'] ++ [b]) := by
    simp [ExpandSymlink, expandLoop, findRpar, cstr, demoProcess]
  refine ⟨h, ?_⟩
  rw [h]
  intro hc
  have hl := congrArg String.length hc
  have e : ("/pre/x/post" : String).length = 11 := by decide
  rw [e] at hl
  simp [String.length] at hl

/-- C25 (unresolvable placeholders stay literal), evaluated.  The variable `B`
is not set: whatever the path hash and the byte after the characters,
`ExpandSymlink` turns `$(B)/c` into `c` followed by that byte, so the
placeholder and the character after it are gone.  And in the process of the
scenarios, where the byte after the characters is NUL, `$(abc` becomes `$(bc`
followed by NUL: the character after the unmatched `$(` is skipped.  The claim
says both targets come back unchanged. -/
theorem expand_symlink_drops_placeholder (PH : String → Nat) (b : Char) :
    demoProcess.getenv "B" = none ∧
    ExpandSymlink ⟨PH, demoProcess.getenv, b⟩ "$(B)/c" = String.mk (['c'] ++ [b]) ∧
    ExpandSymlink ⟨PH, demoProcess.getenv, b⟩ "$(B)/c" ≠ "$(B)/c" ∧
    ExpandSymlink demoProcess "$(abc" = String.mk ['$', '(', 'b', 'c', Char.ofNat 0] ∧
    ExpandSymlink demoProcess "$(abc" ≠ "$(abc" := by
  have h : ExpandSymlink ⟨PH, demoProcess.getenv, b⟩ "$(B)/c" = String.mk (['c'] ++ [b]) := by
    simp [ExpandSymlink, expandLoop, findRpar, cstr, demoProcess]
  refine ⟨by decide, h, ?_, by decide, by decide⟩
  rw [h]
  intro hc
  have hl := congrArg String.length hc
  have e : ("$(B)/c" : String).length = 6 := by decide
  rw [e] at hl
  simp [String.length] at hl

/-- C26 (symlink expansion is idempotent), evaluated on the target `$`.  In
every process the first pass yields `$` followed by the byte after the
characters, and the second pass appends that byte once more: a pass over a
target with a `$` copies the byte at `cEnd`, so no second pass gives the result
of the first. -/
theorem expand_symlink_not_idempotent (pr : Process) :
    ExpandSymlink pr "$" = String.mk ['$', pr.sentinel] ∧
    ExpandSymlink pr (ExpandSymlink pr "$") = String.mk ['$', pr.sentinel, pr.sentinel] ∧
    ExpandSymlink pr (ExpandSymlink pr "$") ≠ ExpandSymlink pr "$" := by
  have h1 : ExpandSymlink pr "$" = String.mk ['$', pr.sentinel] := by
    simp [ExpandSymlink, expandLoop]
  have h2 : ExpandSymlink pr (String.mk ['$', pr.sentinel]) =
      String.mk ['$', pr.sentinel, pr.sentinel] := by
    simp [ExpandSymlink, expandLoop]
  refine ⟨h1, by rw [h1, h2], ?_⟩
  rw [h1, h2]
  intro h
  injection h with h
  simp at h

/-! ## Opening a database file -/

/-- C27 (schema acceptance on open).  For every file that `sqlite3_open_v2` opens
and that is read ahead, the schema version of the `Database` is the value of
the property `schema`, or 1.0 when the property is absent, and the `Database`
is ready exactly when this version is below `2.0 - kSchemaEpsilon` or at least
`kLatestSupportedSchema - kSchemaEpsilon`.  When the property is absent and the
tolerance `kSchemaEpsilon` is below 1, the version is 1.0 and the `Database` is
ready. -/
theorem schema_acceptance (k : SchemaConstants) (f : DatabaseFile)
    (h1 : f.sqlite_open = true) (h2 : f.readahead_open = true) (h3 : f.readahead = true) :
    (Database.Database k f).schema_version = f.schema.getD 1 ∧
    ((Database.Database k f).ready = true ↔
      (f.schema.getD 1 < 2 - k.kSchemaEpsilon ∨
        f.schema.getD 1 ≥ k.kLatestSupportedSchema - k.kSchemaEpsilon)) ∧
    (f.schema = none → k.kSchemaEpsilon < 1 →
      (Database.Database k f).ready = true ∧ (Database.Database k f).schema_version = 1) := by
  have hv : (match f.schema with | some v => v | none => (1 : ℚ)) = f.schema.getD 1 := by
    cases f.schema <;> rfl
  unfold Database.Database
  simp only [h1, h2, h3, Bool.not_true, Bool.false_eq_true, if_false, hv]
  refine ⟨?_, ?_, ?_⟩
  · split <;> rfl
  · split
    · rename_i hb
      simp only [Bool.false_eq_true, false_iff, not_or, not_lt, not_le]
      exact ⟨hb.1, hb.2⟩
    · rename_i hb
      simp only [true_iff]
      by_contra hc
      simp only [not_or, not_lt, not_le] at hc
      exact hb ⟨hc.1, hc.2⟩
  · intro hn he
    rw [hn]
    simp only [Option.getD_none]
    have : ¬ ((1 : ℚ) ≥ 2 - k.kSchemaEpsilon ∧
        (1 : ℚ) < k.kLatestSupportedSchema - k.kSchemaEpsilon) := by
      intro hb
      linarith [hb.1]
    simp only [this, if_false, and_self]

/-- Witness of C27: a readable file without the property `schema` is opened
with version 1.0. -/
theorem schema_acceptance_witness :
    (Database.Database demoConstants legacyFile).ready = true ∧
    (Database.Database demoConstants legacyFile).schema_version = 1 :=
  (schema_acceptance demoConstants legacyFile rfl rfl rfl).2.2 rfl
    (by norm_num [demoConstants])

/-! ## Statistics -/

theorem Reachable.statistics {pr : Process} {c : Catalog} (h : Reachable pr c) :
    c.statistics = seedStatistics := by
  induction h with
  | create e p => rfl
  | add e p q _ ih => exact (frame_AddEntry SameStatistics_frame pr _ e p q).trans ih
  | remove p _ ih => exact (frame_RemoveEntry SameStatistics_frame pr _ p).trans ih
  | update e k _ ih => exact (frame_UpdateEntry SameStatistics_frame _ e k).trans ih
  | partition_parent _ _ h ih1 _ => exact (frame_Partition SameStatistics_frame h).1.trans ih1
  | partition_nested _ _ h _ ih2 => exact (frame_Partition SameStatistics_frame h).2.trans ih2
  | merge_parent _ _ h ih1 _ =>
    exact (frame_MergeIntoParent SameStatistics_frame (fun _ => rfl) h).1.trans ih1
  | merge_nested _ _ h _ ih2 =>
    exact (frame_MergeIntoParent SameStatistics_frame (fun _ => rfl) h).2.trans ih2

/-- C28, counterexample.  The catalog of scenario S2, made by `Create` and one
`AddEntry` of a regular file, holds one regular-file row while its counter
`self_regular` is 0. -/
theorem statistics_counterexample :
    Reachable demoProcess s2Catalog ∧
    countRegular s2Catalog.rows = 1 ∧
    sqlGetCounter s2Catalog "self_regular" = some 0 ∧
    ¬ StatisticsInvariant s2Catalog :=
  ⟨Reachable.add _ _ _ (Reachable.create _ _), by decide, by decide, by decide⟩

/-- C28, amended.  No operation among `AddEntry`, `RemoveEntry`, `UpdateEntry`,
`Partition` and `MergeIntoParent` writes the table `statistics`: in every
catalog reachable from `Database::Create` the table is the one `Create` seeded,
so `self_dir` is 1 and `self_regular`, `self_symlink` and `self_nested` are 0,
and the counters are the row counts exactly when the table `catalog` holds one
row with IsDir and without IsNestedRoot, no regular file, no symlink and no
nested-catalog mountpoint. -/
theorem statistics_stay_seeded (pr : Process) (c : Catalog) (h : Reachable pr c) :
    c.statistics = seedStatistics ∧
    sqlGetCounter c "self_dir" = some 1 ∧
    sqlGetCounter c "self_regular" = some 0 ∧
    sqlGetCounter c "self_symlink" = some 0 ∧
    sqlGetCounter c "self_nested" = some 0 ∧
    (StatisticsInvariant c ↔
      (countDirs c.rows = 1 ∧ countRegular c.rows = 0 ∧ countSymlinks c.rows = 0 ∧
        countNested c.rows = 0)) := by
  have hs := h.statistics
  have h1 : sqlGetCounter c "self_dir" = some 1 := by
    unfold sqlGetCounter; rw [hs]; decide
  have h2 : sqlGetCounter c "self_regular" = some 0 := by
    unfold sqlGetCounter; rw [hs]; decide
  have h3 : sqlGetCounter c "self_symlink" = some 0 := by
    unfold sqlGetCounter; rw [hs]; decide
  have h4 : sqlGetCounter c "self_nested" = some 0 := by
    unfold sqlGetCounter; rw [hs]; decide
  refine ⟨hs, h1, h2, h3, h4, ?_⟩
  unfold StatisticsInvariant
  rw [h1, h2, h3, h4]
  simp only [Option.some.injEq]
  constructor
  · rintro ⟨a, b, c, d⟩
    refine ⟨?_, ?_, ?_, ?_⟩ <;> omega
  · rintro ⟨a, b, c, d⟩
    rw [a, b, c, d]
    simp

/-- Witness of C28 on the catalog of scenario S2. -/
theorem statistics_stay_seeded_witness :
    Reachable demoProcess s2Catalog ∧ s2Catalog.statistics = seedStatistics ∧
    sqlGetCounter s2Catalog "self_dir" = some 1 :=
  ⟨Reachable.add _ _ _ (Reachable.create _ _),
    (statistics_stay_seeded demoProcess s2Catalog
      (Reachable.add _ _ _ (Reachable.create _ _))).1,
    (statistics_stay_seeded demoProcess s2Catalog
      (Reachable.add _ _ _ (Reachable.create _ _))).2.1⟩

/-! ## The reference/mountpoint invariant under the structural operations -/

theorem CreateDatabaseFlags_mountpoint_bit {e : DirectoryEntry}
    (h1 : e.IsNestedCatalogRoot = false) (h2 : e.IsNestedCatalogMountpoint = true) :
    (CreateDatabaseFlags e &&& kFlagDirNestedMountpoint != 0) = true := by
  rw [CreateDatabaseFlags_cases, h1, h2]
  cases e.IsDirectory <;> cases e.IsLink <;> decide

theorem mem_sqlUpdate_bind {rows : List Row} {k : Nat} {e : DirectoryEntry} {r : Row}
    (hr : r ∈ rows) (hk : r.md5path = k) :
    BindDirent r.md5path r.parent e ∈ sqlUpdate rows k e := by
  unfold sqlUpdate
  exact List.mem_map.mpr ⟨r, hr, by simp [hk]⟩

theorem copyCatalogsLoop_mem (this : Catalog) :
    ∀ (l : List (String × String)) (parent : Catalog),
      ∀ x ∈ (copyCatalogsLoop this l parent).nested_catalogs,
        x ∈ parent.nested_catalogs ∨ x ∈ l := by
  intro l
  induction l with
  | nil => intro parent x hx; exact Or.inl hx
  | cons i rest ih =>
    intro parent x hx
    simp only [copyCatalogsLoop] at hx
    rcases ih _ x hx with h | h
    · have hsub : x ∈ parent.nested_catalogs ∨ x = i := by
        unfold InsertNestedCatalog at h
        simp only at h
        split at h
        · cases hc : FindChild this i.1 with
          | none =>
            rw [hc] at h
            simpa using h
          | some child =>
            rw [hc] at h
            simpa [AddChild] using h
        · exact Or.inl h
      rcases hsub with h' | h'
      · exact Or.inl h'
      · exact Or.inr (h' ▸ List.mem_cons_self _ _)
    · exact Or.inr (List.mem_cons_of_mem _ h)

/-- A successful `Partition` keeps the reference/mountpoint invariant in both
catalogs. -/
theorem Partition_RefInv {pr : Process} {depth : Nat} {P C P' C' : Catalog}
    (hinj : Function.Injective pr.PH) (hKP : KeysUnique P.rows)
    (hPP : PathConsistent pr P.rows) (hKC : KeysUnique C.rows) (hX : FlagsExclusive P.rows)
    (hRP : RefInv pr P) (hRC : RefInv pr C)
    (h : Partition pr depth P C = .done true (P', C')) :
    RefInv pr P' ∧ RefInv pr C' := by
  have hM := extend_ne_of_injective hinj C.path
  obtain ⟨r0, P1, C1, st, ⟨hr0, hk0, _, hroot0, hrows, t2, _, _⟩, hmk, hK1, hP1, hinv, hgrow,
    hgone, h4, hP'rows, hC'rows⟩ := Partition_analysis hKP hPP h
  obtain ⟨rc, hrc, hkc, _, _, hmpc, hC1rows, _, hC1nested, _, _⟩ := MakeNestedRoot_true hmk
  obtain ⟨_, _, c1, c2, _, _⟩ := MoveCatalogsToNested_true _ _ _ _ _ h4
  rw [hgrow.pnested] at c1
  rw [hgrow.nnested] at c2
  simp only at c1 c2
  rw [t2] at c1
  rw [hC1nested] at c2
  have hbelow_ne : ∀ full r, Below pr P1.rows C.path full r → r.md5path ≠ pr.PH C.path :=
    fun full r hb => hb.key_ne hP1 hM
  have hstay : ∀ r ∈ P1.rows, r.md5path = pr.PH C.path → r ∈ st.parent.rows := by
    intro r hr hk
    by_contra hnot
    obtain ⟨full, hb, _, _⟩ := hinv.moved r hr hnot
    exact hbelow_ne full r hb hk
  constructor
  · intro x hx
    rw [c1, List.mem_filter] at hx
    obtain ⟨hxP, hxl⟩ := hx
    obtain ⟨r, hr, hk, hmp⟩ := hRP x hxP
    by_cases hkM : r.md5path = pr.PH C.path
    · have hr1 : BindDirent r.md5path r.parent
          { GetDirent pr r0 with is_nested_catalog_mountpoint := true } ∈ P1.rows := by
        rw [hrows]
        exact mem_sqlUpdate_bind hr hkM
      refine ⟨BindDirent r.md5path r.parent
        { GetDirent pr r0 with is_nested_catalog_mountpoint := true }, ?_, hk, ?_⟩
      · rw [hP'rows]
        exact hstay _ hr1 hkM
      · show (CreateDatabaseFlags _ &&& kFlagDirNestedMountpoint != 0) = true
        exact CreateDatabaseFlags_mountpoint_bit hroot0 rfl
    · have hr1 : r ∈ P1.rows := by
        rw [hrows]
        exact (mem_sqlUpdate_of_ne hkM).mpr hr
      by_cases hin : r ∈ st.parent.rows
      · exact ⟨r, by rw [hP'rows]; exact hin, hk, hmp⟩
      · exfalso
        obtain ⟨full, hb, _, hg⟩ := hinv.moved r hr1 hin
        have hfull : x.1 = full := hinj (hk.symm.trans (hb.key hP1))
        have := hg hmp
        rw [← hfull] at this
        simp only [Bool.not_eq_true', List.contains_eq_any_beq, List.any_eq_false, beq_iff_eq]
          at hxl
        exact hxl _ this rfl
  · intro x hx
    rw [c2, List.mem_append] at hx
    rcases hx with hx | hx
    · obtain ⟨r, hr, hk, hmp⟩ := hRC x hx
      have hne : r.md5path ≠ pr.PH C.path := by
        intro hkM
        have : r = rc := hKC.eq_of_key hr hrc (hkM.trans hkc.symm)
        rw [this, hmpc] at hmp
        exact Bool.false_ne_true hmp
      have hr1 : r ∈ C1.rows := by
        rw [hC1rows]
        exact (mem_sqlUpdate_of_ne hne).mpr hr
      refine ⟨r, ?_, hk, hmp⟩
      rw [hC'rows]
      exact hgrow.nested.subset hr1
    · obtain ⟨g, hg, rfl⟩ := List.mem_map.mp hx
      obtain ⟨y, hby, hmpy⟩ := hinv.grand g hg
      have hgoney := hinv.below_gone hP1 hgone g y hby
      obtain ⟨full, hb, hmem, _⟩ := hinv.moved y hby.mem hgoney
      have hfull : g = full := Below.path_unique hinj hby hb
      subst hfull
      have hyP : y ∈ P.rows := by
        have := hby.mem
        rw [hrows] at this
        exact (mem_sqlUpdate_of_ne (hbelow_ne g y hby)).mp this
      have hrooty : (GetDirent pr y).IsNestedCatalogRoot = false := by
        have hx := hX y hyP
        have hm : y.flags &&& kFlagDirNestedMountpoint ≠ 0 := by
          simpa [GetDirent, DirectoryEntry.IsNestedCatalogMountpoint] using hmpy
        have hr : ¬ (y.flags &&& kFlagDirNestedRoot ≠ 0) := fun hr => hx ⟨hr, hm⟩
        simpa [GetDirent, DirectoryEntry.IsNestedCatalogRoot] using hr
      refine ⟨movedRow pr g y, ?_, rfl, ?_⟩
      · rw [hC'rows]
        exact hmem
      · show (CreateDatabaseFlags _ &&& kFlagDirNestedMountpoint != 0) = true
        exact CreateDatabaseFlags_mountpoint_bit hrooty hmpy

/-- A successful `MergeIntoParent` keeps the reference/mountpoint invariant in
the parent. -/
theorem Merge_RefInv {pr : Process} {C P P' C' : Catalog}
    (hinj : Function.Injective pr.PH) (hRP : RefInv pr P) (hRC : RefInv pr C)
    (h : MergeIntoParent pr C P = .done true (P', C')) : RefInv pr P' := by
  obtain ⟨P1, _, h1, h2, h3⟩ := MergeIntoParent_nested h
  obtain ⟨_, _, _, _, _, _, _, _, hmem, _⟩ := Merge_rows h
  intro x hx
  rw [h3, List.mem_filter] at hx
  obtain ⟨hx, hne⟩ := hx
  have hne' : x.1 ≠ C.path := by simpa using hne
  have hkne : pr.PH x.1 ≠ pr.PH C.path := fun hc => hne' (hinj hc)
  rcases copyCatalogsLoop_mem C' _ P1 x hx with hxP | hxC
  · rw [h1] at hxP
    obtain ⟨r, hr, hk, hmp⟩ := hRP x hxP
    exact ⟨r, (hmem r).mpr (Or.inl ⟨hr, hk ▸ hkne⟩), hk, hmp⟩
  · rw [h2] at hxC
    obtain ⟨r, hr, hk, hmp⟩ := hRC x hxC
    refine ⟨shiftRow (linkIdOffset P) r,
      (hmem _).mpr (Or.inr (Or.inl ⟨r, hr, hk ▸ hkne, rfl⟩)), ?_, ?_⟩
    · rw [(shiftRow_fields _ r).1]
      exact hk
    · rw [GetDirent_shiftRow]
      exact hmp

/-- C29 (structural operations preserve the reference/mountpoint invariant).
Let the path hash be injective and let every row of `nested_catalogs` in `P`
and in `C` have an entry with IsNestedMountpoint in the same catalog.  When the
tables `catalog` of `P` and `C` have unique path hashes and the table of `P` is
path consistent and carries no row with both IsNestedRoot and
IsNestedMountpoint, then after a successful `Partition` every row of
`nested_catalogs` in the parent and in the nested catalog has such an entry.
After a successful `MergeIntoParent` every row of `nested_catalogs` in the
parent has one. -/
theorem structural_ops_keep_references (pr : Process) (depth : Nat) (P C P' C' : Catalog)
    (hinj : Function.Injective pr.PH) (hRP : RefInv pr P) (hRC : RefInv pr C) :
    (KeysUnique P.rows → PathConsistent pr P.rows → KeysUnique C.rows →
      FlagsExclusive P.rows → Partition pr depth P C = .done true (P', C') →
      RefInv pr P' ∧ RefInv pr C') ∧
    (MergeIntoParent pr C P = .done true (P', C') → RefInv pr P') :=
  ⟨fun hKP hPP hKC hX h => Partition_RefInv hinj hKP hPP hKC hX hRP hRC h,
    fun h => Merge_RefInv hinj hRP hRC h⟩

/-- Witness of C29: the partition of the parent with the grand-child at
`/a/b/g`, whose reference moves to the nested catalog with its mountpoint
entry, and the merge of that nested catalog. -/
theorem structural_ops_keep_references_witness :
    Partition demoProcess 3 gParent s4Child = .done true (gParentAfter, gChildAfter) ∧
    RefInv demoProcess gParent ∧ RefInv demoProcess s4Child ∧
    gChildAfter.nested_catalogs = [("/a/b/g", "")] ∧
    (RefInv demoProcess gParentAfter ∧ RefInv demoProcess gChildAfter) ∧
    MergeIntoParent demoProcess gChildHashed gMounted
      = .done true (gMerged, { gChildHashed with dirty := false }) ∧
    RefInv demoProcess gMounted ∧ RefInv demoProcess gChildHashed ∧
    gMerged.nested_catalogs = [("/z", "ffff"), ("/a/b/g", "a1b2")] ∧
    RefInv demoProcess gMerged :=
  ⟨g_partition, by decide, by decide, by decide,
    (structural_ops_keep_references demoProcess 3 gParent s4Child gParentAfter gChildAfter
      demoPH_injective (by decide) (by decide)).1 gParent_keys gParent_consistent
      (by unfold KeysUnique; decide) (by decide) g_partition,
    g_merge, by decide, by decide, by decide,
    (structural_ops_keep_references demoProcess 0 gMounted gChildHashed gMerged
      { gChildHashed with dirty := false } demoPH_injective (by decide) (by decide)).2 g_merge⟩

/-! ## Termination of the subtree move -/

theorem moveListingTrace_fst {pr : Process} {g : String → MoveState → Res MoveState}
    {g' : String → MoveState → Res MoveState × List String}
    (hg : ∀ d st, (g' d st).1 = g d st) (d : String) :
    ∀ (l : List DirectoryEntry) (st : MoveState),
      (moveListingTrace pr g' d l st).1 = moveListing pr g d l st := by
  intro l
  induction l with
  | nil => intro st; rfl
  | cons i rest ih =>
    intro st
    simp only [moveListingTrace, moveListing]
    cases hadd : AddEntryAt pr st.nested i (d ++ "/" ++ i.name) with
    | mk ok nested =>
      cases ok with
      | false => rfl
      | true =>
        simp only
        have key : ∀ st2 : MoveState, ∀ t : List String,
            (match RemoveEntry pr st2.parent (d ++ "/" ++ i.name) with
              | (false, parent) => (Res.done false { st2 with parent := parent }, t)
              | (true, parent) =>
                ((moveListingTrace pr g' d rest { st2 with parent := parent }).1,
                  t ++ (moveListingTrace pr g' d rest { st2 with parent := parent }).2)).1 =
            (match RemoveEntry pr st2.parent (d ++ "/" ++ i.name) with
              | (false, parent) => Res.done false { st2 with parent := parent }
              | (true, parent) => moveListing pr g d rest { st2 with parent := parent }) := by
          intro st2 t
          cases hre : RemoveEntry pr st2.parent (d ++ "/" ++ i.name) with
          | mk ok2 parent =>
            cases ok2 with
            | false => rfl
            | true => exact ih _
        by_cases hmnt : i.IsNestedCatalogMountpoint = true
        · simp only [hmnt, if_true]
          exact key { st with nested := nested, grand_child_mountpoints :=
            st.grand_child_mountpoints ++ [d ++ "/" ++ i.name] } []
        · by_cases hdir : i.IsDirectory = true
          · simp only [hmnt, hdir, if_true, if_false]
            rw [← hg]
            cases hsub : g' (d ++ "/" ++ i.name) { st with nested := nested } with
            | mk r t =>
              cases r with
              | abort => rfl
              | exhausted => rfl
              | done ok2 st2 =>
                cases ok2 with
                | false => rfl
                | true => exact key st2 t
          · simp only [hmnt, hdir, if_false]
            exact key { st with nested := nested } []

/-- The outcome of the move with the list of visited directories is the
outcome of `MoveToNestedRecursively`. -/
theorem MoveToNestedRecursivelyTrace_fst (pr : Process) :
    ∀ (depth : Nat) (d : String) (st : MoveState),
      (MoveToNestedRecursivelyTrace pr depth d st).1 = MoveToNestedRecursively pr depth d st := by
  intro depth
  induction depth with
  | zero => intro d st; rfl
  | succ n ih =>
    intro d st
    simp only [MoveToNestedRecursivelyTrace, MoveToNestedRecursively]
    exact moveListingTrace_fst ih d _ _

theorem hasKey_append (rows : List Row) (r : Row) (k : Nat) :
    hasKey (rows ++ [r]) k = (hasKey rows k || r.md5path == k) := by
  simp [hasKey]

theorem AddEntryAt_fresh {pr : Process} {c c' : Catalog} {e : DirectoryEntry} {p : String}
    (h : AddEntryAt pr c e p = (true, c')) : hasKey c.rows (pr.PH p) = false := by
  unfold AddEntryAt AddEntry at h
  simp only [SetDirty] at h
  split at h
  · rename_i rows hins
    unfold sqlInsert at hins
    split at hins
    · simp at hins
    · rename_i hfresh
      simpa [BindDirent] using hfresh
  · simp at h

theorem countP_lt_of_imp {α : Type} {p q : α → Bool} :
    ∀ (l : List α), (∀ x ∈ l, p x = true → q x = true) →
      (∃ x ∈ l, q x = true ∧ p x = false) → l.countP p < l.countP q := by
  intro l
  induction l with
  | nil => intro _ h; obtain ⟨x, hx, _⟩ := h; cases hx
  | cons a rest ih =>
    intro himp hex
    have hle : rest.countP p ≤ rest.countP q :=
      List.countP_mono_left (fun x hx => himp x (List.mem_cons_of_mem _ hx))
    obtain ⟨x, hx, hq, hp⟩ := hex
    rcases List.mem_cons.mp hx with rfl | hx'
    · rw [List.countP_cons_of_pos _ _ hq, List.countP_cons_of_neg _ _ (by simp [hp])]
      omega
    · have hlt := ih (fun y hy => himp y (List.mem_cons_of_mem _ hy)) ⟨x, hx', hq, hp⟩
      by_cases hpa : p a = true
      · rw [List.countP_cons_of_pos _ _ hpa,
          List.countP_cons_of_pos _ _ (himp a (List.mem_cons_self _ _) hpa)]
        omega
      · rw [List.countP_cons_of_neg _ _ hpa]
        by_cases hqa : q a = true
        · rw [List.countP_cons_of_pos _ _ hqa]
          omega
        · rw [List.countP_cons_of_neg _ _ hqa]
          exact hlt

theorem moveBudget_le {st st' : MoveState}
    (hrows : st'.parent.rows.Sublist st.parent.rows)
    (hkeys : ∀ k, hasKey st.nested.rows k = true → hasKey st'.nested.rows k = true) :
    moveBudget st' ≤ moveBudget st := by
  unfold moveBudget
  refine le_trans (hrows.countP_le _) (List.countP_mono_left ?_)
  intro r _ hr
  simp only [Bool.not_eq_true', Bool.not_eq_true] at hr ⊢
  cases hk : hasKey st.nested.rows r.parent with
  | false => rfl
  | true => rw [hkeys _ hk] at hr; exact absurd hr (by simp)

theorem hasKey_mono {rows rows' : List Row} (h : rows <+: rows') (k : Nat)
    (hk : hasKey rows k = true) : hasKey rows' k = true := by
  unfold hasKey at hk ⊢
  obtain ⟨x, hx, hxk⟩ := List.any_eq_true.mp hk
  exact List.any_eq_true.mpr ⟨x, h.subset hx, hxk⟩

theorem Grow_moveBudget_le {st st' : MoveState} (h : Grow st st') :
    moveBudget st' ≤ moveBudget st :=
  moveBudget_le h.rows (hasKey_mono h.nested)

theorem moveBudget_lt_of_add {pr : Process} {st : MoveState} {nested : Catalog}
    {e : DirectoryEntry} {full : String}
    (hadd : AddEntryAt pr st.nested e full = (true, nested))
    (hlist : ListingPath pr st.parent full ≠ []) :
    moveBudget { st with nested := nested } < moveBudget st := by
  have hfresh := AddEntryAt_fresh hadd
  obtain ⟨hrows, _⟩ := AddEntryAt_true hadd
  unfold moveBudget
  simp only [hrows]
  apply countP_lt_of_imp
  · intro r _ hr
    simp only [Bool.not_eq_true', hasKey_append, Bool.or_eq_false_iff] at hr ⊢
    exact hr.1
  · unfold ListingPath at hlist
    simp only [ne_eq, List.map_eq_nil_iff] at hlist
    obtain ⟨r, hr⟩ := List.exists_mem_of_ne_nil _ hlist
    rw [List.mem_filter] at hr
    obtain ⟨hr, hp⟩ := hr
    simp only [beq_iff_eq] at hp
    refine ⟨r, hr, ?_, ?_⟩
    · rw [hp, hfresh]
      rfl
    · simp [hasKey_append, hp, BindDirent]

theorem moveListing_not_exhausted {pr : Process} {g : String → MoveState → Res MoveState}
    {d : String} {B : Nat}
    (hgrow : ∀ d st st', g d st = .done true st' → Grow st st')
    (hg : ∀ full st1, (ListingPath pr st1.parent full = [] ∨ moveBudget st1 < B) →
      g full st1 ≠ .exhausted) :
    ∀ (l : List DirectoryEntry) (st : MoveState), moveBudget st ≤ B →
      moveListing pr g d l st ≠ .exhausted := by
  intro l
  induction l with
  | nil => intro st _; simp [moveListing]
  | cons i rest ih =>
    intro st hB
    simp only [moveListing]
    cases hadd : AddEntryAt pr st.nested i (d ++ "/" ++ i.name) with
    | mk ok nested =>
      cases ok with
      | false => simp
      | true =>
        simp only
        obtain ⟨a1, _⟩ := AddEntryAt_true hadd
        have hkeys1 : ∀ k, hasKey st.nested.rows k = true → hasKey nested.rows k = true :=
          hasKey_mono (by rw [a1]; exact List.prefix_append _ _)
        have key : ∀ st2 : MoveState, moveBudget st2 ≤ B →
            (match RemoveEntry pr st2.parent (d ++ "/" ++ i.name) with
              | (false, parent) => Res.done false { st2 with parent := parent }
              | (true, parent) => moveListing pr g d rest { st2 with parent := parent })
              ≠ .exhausted := by
          intro st2 hB2
          cases hre : RemoveEntry pr st2.parent (d ++ "/" ++ i.name) with
          | mk ok2 parent =>
            cases ok2 with
            | false => simp
            | true =>
              simp only
              obtain ⟨b1, _⟩ := RemoveEntry_true hre
              apply ih
              have hle : moveBudget { st2 with parent := parent } ≤ moveBudget st2 := by
                apply moveBudget_le
                · simp only [b1]
                  exact List.filter_sublist _
                · exact fun k hk => hk
              exact le_trans hle hB2
        have hle1 : moveBudget { st with nested := nested } ≤ moveBudget st :=
          moveBudget_le (List.Sublist.refl _) hkeys1
        have hB1 : moveBudget { st with nested := nested } ≤ B := le_trans hle1 hB
        by_cases hmnt : i.IsNestedCatalogMountpoint = true
        · simp only [hmnt, if_true]
          exact key { st with nested := nested, grand_child_mountpoints :=
            st.grand_child_mountpoints ++ [d ++ "/" ++ i.name] } hB1
        · by_cases hdir : i.IsDirectory = true
          · simp only [hmnt, hdir, if_true, if_false]
            have hne : g (d ++ "/" ++ i.name) { st with nested := nested } ≠ .exhausted := by
              apply hg
              by_cases hl : ListingPath pr st.parent (d ++ "/" ++ i.name) = []
              · exact Or.inl hl
              · exact Or.inr (lt_of_lt_of_le (moveBudget_lt_of_add hadd hl) hB)
            cases hsub : g (d ++ "/" ++ i.name) { st with nested := nested } with
            | abort => simp
            | exhausted => exact absurd hsub hne
            | done ok2 st2 =>
              cases ok2 with
              | false => simp
              | true => exact key st2 (le_trans (Grow_moveBudget_le (hgrow _ _ _ hsub)) hB1)
          · simp only [hmnt, hdir, if_false]
            exact key { st with nested := nested } hB1

/-- With a recursion bound above the budget of the state, or with at least one
level when the directory lists nothing, `MoveToNestedRecursively` returns. -/
theorem MoveToNestedRecursively_not_exhausted (pr : Process) :
    ∀ (f : Nat) (d : String) (st : MoveState),
      (ListingPath pr st.parent d = [] ∧ 1 ≤ f) ∨ moveBudget st + 2 ≤ f →
      MoveToNestedRecursively pr f d st ≠ .exhausted := by
  intro f
  induction f with
  | zero =>
    intro d st h
    rcases h with h | h <;> omega
  | succ n ih =>
    intro d st h
    simp only [MoveToNestedRecursively]
    rcases h with h | h
    · rw [h.1]
      simp [moveListing]
    · refine moveListing_not_exhausted (MoveToNestedRecursively_grow n) ?_ _ st (le_refl _)
      intro full st1 h1
      apply ih
      rcases h1 with h1 | h1
      · exact Or.inl ⟨h1, by omega⟩
      · exact Or.inr (by omega)

theorem moveListingTrace_congr {pr : Process}
    {g g' : String → MoveState → Res MoveState × List String} {d : String}
    (h : ∀ d st, (g d st).1 ≠ .exhausted → g' d st = g d st) :
    ∀ (l : List DirectoryEntry) (st : MoveState),
      (moveListingTrace pr g d l st).1 ≠ .exhausted →
      moveListingTrace pr g' d l st = moveListingTrace pr g d l st := by
  intro l
  induction l with
  | nil => intro st _; rfl
  | cons i rest ih =>
    intro st hne
    simp only [moveListingTrace] at hne ⊢
    cases hadd : AddEntryAt pr st.nested i (d ++ "/" ++ i.name) with
    | mk ok nested =>
      rw [hadd] at hne
      cases ok with
      | false => rfl
      | true =>
        simp only at hne ⊢
        have key : ∀ st2 : MoveState, ∀ t : List String,
            (match RemoveEntry pr st2.parent (d ++ "/" ++ i.name) with
              | (false, parent) => (Res.done false { st2 with parent := parent }, t)
              | (true, parent) =>
                ((moveListingTrace pr g d rest { st2 with parent := parent }).1,
                  t ++ (moveListingTrace pr g d rest { st2 with parent := parent }).2)).1
              ≠ .exhausted →
            (match RemoveEntry pr st2.parent (d ++ "/" ++ i.name) with
              | (false, parent) => (Res.done false { st2 with parent := parent }, t)
              | (true, parent) =>
                ((moveListingTrace pr g' d rest { st2 with parent := parent }).1,
                  t ++ (moveListingTrace pr g' d rest { st2 with parent := parent }).2)) =
            (match RemoveEntry pr st2.parent (d ++ "/" ++ i.name) with
              | (false, parent) => (Res.done false { st2 with parent := parent }, t)
              | (true, parent) =>
                ((moveListingTrace pr g d rest { st2 with parent := parent }).1,
                  t ++ (moveListingTrace pr g d rest { st2 with parent := parent }).2)) := by
          intro st2 t hne2
          cases hre : RemoveEntry pr st2.parent (d ++ "/" ++ i.name) with
          | mk ok2 parent =>
            rw [hre] at hne2
            cases ok2 with
            | false => rfl
            | true =>
              simp only at hne2 ⊢
              rw [ih _ hne2]
        by_cases hmnt : i.IsNestedCatalogMountpoint = true
        · simp only [hmnt, if_true] at hne ⊢
          exact key { st with nested := nested, grand_child_mountpoints :=
            st.grand_child_mountpoints ++ [d ++ "/" ++ i.name] } [] hne
        · by_cases hdir : i.IsDirectory = true
          · simp only [hmnt, hdir, if_true, if_false] at hne ⊢
            have hsame : g' (d ++ "/" ++ i.name) { st with nested := nested } =
                g (d ++ "/" ++ i.name) { st with nested := nested } := by
              apply h
              intro hex
              cases hsub : g (d ++ "/" ++ i.name) { st with nested := nested } with
              | mk r t =>
                rw [hsub] at hne hex
                simp only at hex
                subst hex
                exact hne rfl
            rw [hsame]
            cases hsub : g (d ++ "/" ++ i.name) { st with nested := nested } with
            | mk r t =>
              rw [hsub] at hne
              cases r with
              | abort => rfl
              | exhausted => rfl
              | done ok2 st2 =>
                cases ok2 with
                | false => rfl
                | true => exact key st2 t hne
          · simp only [hmnt, hdir, if_false] at hne ⊢
            exact key { st with nested := nested } [] hne

/-- A larger recursion bound changes nothing once the move returns. -/
theorem MoveToNestedRecursivelyTrace_succ (pr : Process) :
    ∀ (f : Nat) (d : String) (st : MoveState),
      (MoveToNestedRecursivelyTrace pr f d st).1 ≠ .exhausted →
      MoveToNestedRecursivelyTrace pr (f + 1) d st = MoveToNestedRecursivelyTrace pr f d st := by
  intro f
  induction f with
  | zero => intro d st h; exact absurd rfl h
  | succ n ih =>
    intro d st h
    simp only [MoveToNestedRecursivelyTrace] at h
    show ((moveListingTrace pr (MoveToNestedRecursivelyTrace pr (n + 1)) d
        (ListingPath pr st.parent d) st).1,
      d :: (moveListingTrace pr (MoveToNestedRecursivelyTrace pr (n + 1)) d
        (ListingPath pr st.parent d) st).2) =
      ((moveListingTrace pr (MoveToNestedRecursivelyTrace pr n) d
        (ListingPath pr st.parent d) st).1,
      d :: (moveListingTrace pr (MoveToNestedRecursivelyTrace pr n) d
        (ListingPath pr st.parent d) st).2)
    rw [moveListingTrace_congr ih _ _ h]

theorem MoveToNestedRecursivelyTrace_add (pr : Process) (f : Nat) (d : String)
    (st : MoveState) (h : (MoveToNestedRecursivelyTrace pr f d st).1 ≠ .exhausted) :
    ∀ k, MoveToNestedRecursivelyTrace pr (f + k) d st = MoveToNestedRecursivelyTrace pr f d st := by
  intro k
  induction k with
  | zero => rfl
  | succ k ih =>
    rw [← Nat.add_assoc, MoveToNestedRecursivelyTrace_succ pr (f + k) d st (by rw [ih]; exact h),
      ih]

theorem visits_nil (pr : Process) (R0 : List Row) (d : String) (st : MoveState) :
    Visits pr R0 d st (.done true st) [] :=
  ⟨fun _ h => absurd h (List.not_mem_nil _), List.nodup_nil,
    fun _ h => absurd h (List.not_mem_nil _), fun _ h => absurd h (List.not_mem_nil _),
    fun st' h => by
      simp only [Res.done.injEq, true_and] at h
      subst h
      exact ⟨fun _ h => absurd h (List.not_mem_nil _), fun _ h => h, fun _ h => h⟩⟩

theorem visits_fail {pr : Process} {R0 : List Row} {d : String} {st : MoveState}
    {r r' : Res MoveState} {t : List String} (h : Visits pr R0 d st r t)
    (hr : ∀ st', r' ≠ .done true st') : Visits pr R0 d st r' t :=
  ⟨h.longer, h.nodup, h.fresh, h.via, fun st' he => absurd he (hr st')⟩

/-- The state may change outside the rows of the nested catalog and lose rows
of the parent before the later visits. -/
theorem visits_append {pr : Process} {R0 : List Row} {d : String} {st st2 st3 : MoveState}
    {r : Res MoveState} {t1 t2 : List String}
    (h1 : Visits pr R0 d st (.done true st2) t1)
    (hn : st3.nested.rows = st2.nested.rows)
    (hp : ∀ x ∈ st3.parent.rows, x ∈ st2.parent.rows)
    (h2 : Visits pr R0 d st3 r t2) : Visits pr R0 d st r (t1 ++ t2) := by
  obtain ⟨k1, k2, k3⟩ := h1.kept st2 rfl
  refine ⟨?_, ?_, ?_, ?_, ?_⟩
  · intro x hx
    rcases List.mem_append.mp hx with hx | hx
    · exact h1.longer x hx
    · exact h2.longer x hx
  · rw [List.map_append]
    refine List.Nodup.append h1.nodup h2.nodup ?_
    intro k hk1 hk2
    obtain ⟨x, hx, rfl⟩ := List.mem_map.mp hk1
    obtain ⟨y, hy, hxy⟩ := List.mem_map.mp hk2
    have e1 := k1 x hx
    have e2 := h2.fresh y hy
    rw [hn, hxy, e1] at e2
    exact Bool.noConfusion e2
  · intro x hx
    rcases List.mem_append.mp hx with hx | hx
    · exact h1.fresh x hx
    · have e2 := h2.fresh x hx
      rw [hn] at e2
      cases hk : hasKey st.nested.rows (pr.PH x) with
      | false => rfl
      | true => rw [k2 _ hk] at e2; exact Bool.noConfusion e2
  · intro x hx
    rcases List.mem_append.mp hx with hx | hx
    · obtain ⟨y, hy, row, hrow, hpar, hfull⟩ := h1.via x hx
      refine ⟨y, ?_, row, hrow, hpar, hfull⟩
      rcases List.mem_cons.mp hy with rfl | hy
      · exact List.mem_cons_self _ _
      · exact List.mem_cons_of_mem _ (List.mem_append_left _ hy)
    · obtain ⟨y, hy, row, hrow, hpar, hfull⟩ := h2.via x hx
      refine ⟨y, ?_, row, hrow, hpar, hfull⟩
      rcases List.mem_cons.mp hy with rfl | hy
      · exact List.mem_cons_self _ _
      · exact List.mem_cons_of_mem _ (List.mem_append_right _ hy)
  · intro st' he
    obtain ⟨m1, m2, m3⟩ := h2.kept st' he
    refine ⟨?_, ?_, ?_⟩
    · intro x hx
      rcases List.mem_append.mp hx with hx | hx
      · apply m2
        rw [hn]
        exact k1 x hx
      · exact m1 x hx
    · intro k hk
      apply m2
      rw [hn]
      exact k2 k hk
    · intro x hx
      exact k3 x (hp x (m3 x hx))

/-- The visits of one recursive call, seen from the directory that lists the
entry: the directory of the call and the directories visited below it. -/
theorem visits_call {pr : Process} {R0 : List Row} {d : String} {st : MoveState}
    {nested : Catalog} {i : DirectoryEntry} {r : Res MoveState} {t' : List String}
    (hadd : AddEntryAt pr st.nested i (d ++ "/" ++ i.name) = (true, nested))
    (hrow : ∃ row ∈ R0, row.parent = pr.PH d ∧ i = GetDirent pr row)
    (h : Visits pr R0 (d ++ "/" ++ i.name) { st with nested := nested } r t') :
    Visits pr R0 d st r ((d ++ "/" ++ i.name) :: t') := by
  have hfresh := AddEntryAt_fresh hadd
  obtain ⟨a1, _⟩ := AddEntryAt_true hadd
  have hkeys : ∀ k, hasKey st.nested.rows k = true → hasKey nested.rows k = true :=
    hasKey_mono (by rw [a1]; exact List.prefix_append _ _)
  have hin : hasKey nested.rows (pr.PH (d ++ "/" ++ i.name)) = true := by
    rw [a1, hasKey_append]
    simp [BindDirent]
  have hlen : d.length < (d ++ "/" ++ i.name).length := by
    simp only [String.length_append]
    have h1 : "/".length = 1 := by decide
    omega
  refine ⟨?_, ?_, ?_, ?_, ?_⟩
  · intro x hx
    rcases List.mem_cons.mp hx with rfl | hx
    · exact hlen
    · exact lt_trans hlen (h.longer x hx)
  · rw [List.map_cons, List.nodup_cons]
    refine ⟨?_, h.nodup⟩
    intro hmem
    obtain ⟨x, hx, hxk⟩ := List.mem_map.mp hmem
    have e := h.fresh x hx
    simp only at e
    rw [hxk, hin] at e
    exact Bool.noConfusion e
  · intro x hx
    rcases List.mem_cons.mp hx with rfl | hx
    · exact hfresh
    · have e := h.fresh x hx
      simp only at e
      cases hk : hasKey st.nested.rows (pr.PH x) with
      | false => rfl
      | true => rw [hkeys _ hk] at e; exact Bool.noConfusion e
  · intro x hx
    rcases List.mem_cons.mp hx with rfl | hx
    · obtain ⟨row, hrow, hpar, rfl⟩ := hrow
      exact ⟨d, List.mem_cons_self _ _, row, hrow, hpar, rfl⟩
    · obtain ⟨y, hy, row, hrow, hpar, hfull⟩ := h.via x hx
      exact ⟨y, List.mem_cons_of_mem _ hy, row, hrow, hpar, hfull⟩
  · intro st' he
    obtain ⟨m1, m2, m3⟩ := h.kept st' he
    refine ⟨?_, fun k hk => m2 k (hkeys k hk), m3⟩
    intro x hx
    rcases List.mem_cons.mp hx with rfl | hx
    · exact m2 _ hin
    · exact m1 x hx

theorem moveListingTrace_visits {pr : Process} {R0 : List Row}
    {g : String → MoveState → Res MoveState × List String} {d : String}
    (hg : ∀ full st1, (∀ x ∈ st1.parent.rows, x ∈ R0) →
      ∃ t', (g full st1).2 = full :: t' ∧ Visits pr R0 full st1 (g full st1).1 t') :
    ∀ (l : List DirectoryEntry) (st : MoveState), (∀ x ∈ st.parent.rows, x ∈ R0) →
      (∀ i ∈ l, ∃ row ∈ R0, row.parent = pr.PH d ∧ i = GetDirent pr row) →
      Visits pr R0 d st (moveListingTrace pr g d l st).1 (moveListingTrace pr g d l st).2 := by
  intro l
  induction l with
  | nil => intro st _ _; exact visits_nil pr R0 d st
  | cons i rest ih =>
    intro st hsub hl
    have hrow := hl i (List.mem_cons_self _ _)
    have hrest : ∀ j ∈ rest, ∃ row ∈ R0, row.parent = pr.PH d ∧ j = GetDirent pr row :=
      fun j hj => hl j (List.mem_cons_of_mem _ hj)
    simp only [moveListingTrace]
    cases hadd : AddEntryAt pr st.nested i (d ++ "/" ++ i.name) with
    | mk ok nested =>
      cases ok with
      | false =>
        exact visits_fail (visits_nil pr R0 d st) (fun st' he => by simp at he)
      | true =>
        simp only
        obtain ⟨a1, _⟩ := AddEntryAt_true hadd
        have hkeys : ∀ k, hasKey st.nested.rows k = true → hasKey nested.rows k = true :=
          hasKey_mono (by rw [a1]; exact List.prefix_append _ _)
        have key : ∀ (st2 : MoveState) (t : List String),
            Visits pr R0 d st (.done true st2) t →
            Visits pr R0 d st
              (match RemoveEntry pr st2.parent (d ++ "/" ++ i.name) with
                | (false, parent) => (Res.done false { st2 with parent := parent }, t)
                | (true, parent) =>
                  ((moveListingTrace pr g d rest { st2 with parent := parent }).1,
                    t ++ (moveListingTrace pr g d rest { st2 with parent := parent }).2)).1
              (match RemoveEntry pr st2.parent (d ++ "/" ++ i.name) with
                | (false, parent) => (Res.done false { st2 with parent := parent }, t)
                | (true, parent) =>
                  ((moveListingTrace pr g d rest { st2 with parent := parent }).1,
                    t ++ (moveListingTrace pr g d rest { st2 with parent := parent }).2)).2 := by
          intro st2 t hv
          obtain ⟨_, _, k3⟩ := hv.kept st2 rfl
          cases hre : RemoveEntry pr st2.parent (d ++ "/" ++ i.name) with
          | mk ok2 parent =>
            cases ok2 with
            | false => exact visits_fail hv (fun st' he => by simp at he)
            | true =>
              simp only
              obtain ⟨b1, _⟩ := RemoveEntry_true hre
              have hp : ∀ x ∈ parent.rows, x ∈ st2.parent.rows := by
                intro x hx
                rw [b1] at hx
                exact (List.mem_filter.mp hx).1
              exact @visits_append pr R0 d st st2 { st2 with parent := parent } _ t _ hv rfl hp
                (ih { st2 with parent := parent } (fun x hx => hsub x (k3 x (hp x hx))) hrest)
        have hplain : Visits pr R0 d st (.done true { st with nested := nested }) [] :=
          ⟨fun _ h => absurd h (List.not_mem_nil _), List.nodup_nil,
            fun _ h => absurd h (List.not_mem_nil _), fun _ h => absurd h (List.not_mem_nil _),
            fun st' h => by
              simp only [Res.done.injEq, true_and] at h
              subst h
              exact ⟨fun _ h => absurd h (List.not_mem_nil _), hkeys, fun _ h => h⟩⟩
        by_cases hmnt : i.IsNestedCatalogMountpoint = true
        · simp only [hmnt, if_true]
          refine key { st with nested := nested, grand_child_mountpoints :=
            st.grand_child_mountpoints ++ [d ++ "/" ++ i.name] } [] ?_
          exact ⟨fun _ h => absurd h (List.not_mem_nil _), List.nodup_nil,
            fun _ h => absurd h (List.not_mem_nil _), fun _ h => absurd h (List.not_mem_nil _),
            fun st' h => by
              simp only [Res.done.injEq, true_and] at h
              subst h
              exact ⟨fun _ h => absurd h (List.not_mem_nil _), hkeys, fun _ h => h⟩⟩
        · by_cases hdir : i.IsDirectory = true
          · simp only [hmnt, hdir, if_true, if_false]
            obtain ⟨t', ht', hv⟩ := hg (d ++ "/" ++ i.name) { st with nested := nested } hsub
            have hv' := visits_call hadd hrow hv
            cases hcall : g (d ++ "/" ++ i.name) { st with nested := nested } with
            | mk r t =>
              rw [hcall] at ht' hv'
              simp only at ht' hv'
              subst ht'
              cases r with
              | abort => exact hv'
              | exhausted => exact hv'
              | done ok2 st2 =>
                cases ok2 with
                | false => exact hv'
                | true => exact key st2 _ hv'
          · simp only [hmnt, hdir, if_false]
            exact key { st with nested := nested } [] hplain

/-- The directories `MoveToNestedRecursively` is called on: the directory itself,
then directories that satisfy `Visits`. -/
theorem MoveToNestedRecursivelyTrace_visits (pr : Process) (R0 : List Row) :
    ∀ (f : Nat) (d : String) (st : MoveState), (∀ x ∈ st.parent.rows, x ∈ R0) →
      ∃ t', (MoveToNestedRecursivelyTrace pr f d st).2 = d :: t' ∧
        Visits pr R0 d st (MoveToNestedRecursivelyTrace pr f d st).1 t' := by
  intro f
  induction f with
  | zero =>
    intro d st _
    exact ⟨[], rfl, visits_fail (visits_nil pr R0 d st) (fun st' he => by
      simp [MoveToNestedRecursivelyTrace] at he)⟩
  | succ n ih =>
    intro d st hsub
    refine ⟨(moveListingTrace pr (MoveToNestedRecursivelyTrace pr n) d
      (ListingPath pr st.parent d) st).2, rfl, ?_⟩
    apply moveListingTrace_visits ih _ st hsub
    intro i hi
    unfold ListingPath at hi
    obtain ⟨row, hrow, rfl⟩ := List.mem_map.mp hi
    rw [List.mem_filter] at hrow
    exact ⟨row, hsub row hrow.1, by simpa using hrow.2, rfl⟩

theorem moveBudget_le_length (st : MoveState) : moveBudget st ≤ st.parent.rows.length :=
  List.countP_le_length _

/-- With a recursion bound of two more than the number of rows of the parent,
`Partition` returns. -/
theorem Partition_not_exhausted (pr : Process) (depth : Nat) (P C : Catalog)
    (h : P.rows.length + 2 ≤ depth) : Partition pr depth P C ≠ .exhausted := by
  unfold Partition
  cases h1 : MakeTransitionPoint pr P C.path with
  | abort => simp
  | exhausted =>
    unfold MakeTransitionPoint at h1
    cases hl : LookupPath pr P C.path with
    | none => rw [hl] at h1; simp at h1
    | some e =>
      rw [hl] at h1
      simp only [UpdateEntry] at h1
      split at h1 <;> simp at h1
  | done ok1 P1 =>
    cases ok1 with
    | false => simp
    | true =>
      simp only
      obtain ⟨_, _, _, _, _, _, hrows, _⟩ := MakeTransitionPoint_true h1
      cases h2 : MakeNestedRoot pr C with
      | abort => simp
      | exhausted =>
        unfold MakeNestedRoot at h2
        cases hl : LookupPath pr C C.path with
        | none => rw [hl] at h2; simp at h2
        | some e =>
          rw [hl] at h2
          simp only [UpdateEntry] at h2
          split at h2 <;> simp at h2
      | done ok2 C1 =>
        cases ok2 with
        | false => simp
        | true =>
          simp only
          have hne : MoveToNestedRecursively pr depth C1.path ⟨P1, C1, []⟩ ≠ .exhausted := by
            apply MoveToNestedRecursively_not_exhausted
            right
            have := moveBudget_le_length ⟨P1, C1, []⟩
            have hlen : P1.rows.length = P.rows.length := by
              rw [hrows]
              unfold sqlUpdate
              exact List.length_map _ _
            simp only at this
            omega
          cases h3 : MoveToNestedRecursively pr depth C1.path ⟨P1, C1, []⟩ with
          | abort => simp
          | exhausted => exact absurd h3 hne
          | done ok3 st =>
            cases ok3 with
            | false => simp
            | true => simp

/-- C30 (the subtree move terminates).  For every parent table, every nested
catalog and every start directory `d`, with a recursion bound of two more than
the number of rows of the parent, `MoveToNestedRecursively` returns, and it
returns the same with every larger bound.  The directories it is called on are
`d` followed by a list `t` without repetition; each directory of `t` is
strictly longer than `d` and is the path `y/name` of a row of the parent whose
parent hash is the hash of `y`, where `y` is `d` or a directory of `t` and is
strictly shorter.  No assumption on the path hash is needed: a directory is
entered only after its path hash went into the nested catalog as a new key. -/
theorem move_terminates (pr : Process) (d : String) (st : MoveState) (depth : Nat)
    (h : st.parent.rows.length + 2 ≤ depth) :
    MoveToNestedRecursively pr depth d st ≠ .exhausted ∧
    MoveToNestedRecursively pr depth d st =
      MoveToNestedRecursively pr (st.parent.rows.length + 2) d st ∧
    (MoveToNestedRecursivelyTrace pr depth d st).1 = MoveToNestedRecursively pr depth d st ∧
    (MoveToNestedRecursivelyTrace pr depth d st).2 =
      (MoveToNestedRecursivelyTrace pr (st.parent.rows.length + 2) d st).2 ∧
    ∃ t, (MoveToNestedRecursivelyTrace pr depth d st).2 = d :: t ∧ (d :: t).Nodup ∧
      (∀ x ∈ t, d.length < x.length) ∧
      (∀ x ∈ t, ∃ y ∈ d :: t, ∃ row ∈ st.parent.rows,
        row.parent = pr.PH y ∧ x = fullPath pr y row ∧ y.length < x.length) := by
  have hb := moveBudget_le_length st
  have hne : ∀ f, st.parent.rows.length + 2 ≤ f →
      MoveToNestedRecursively pr f d st ≠ .exhausted :=
    fun f hf => MoveToNestedRecursively_not_exhausted pr f d st (Or.inr (by omega))
  have hN : (MoveToNestedRecursivelyTrace pr (st.parent.rows.length + 2) d st).1 ≠
      .exhausted := by
    rw [MoveToNestedRecursivelyTrace_fst]
    exact hne _ (le_refl _)
  have hsame : MoveToNestedRecursivelyTrace pr depth d st =
      MoveToNestedRecursivelyTrace pr (st.parent.rows.length + 2) d st := by
    obtain ⟨k, rfl⟩ := Nat.exists_eq_add_of_le h
    exact MoveToNestedRecursivelyTrace_add pr _ d st hN k
  obtain ⟨t, ht, hv⟩ := MoveToNestedRecursivelyTrace_visits pr st.parent.rows depth d st
    (fun _ hx => hx)
  refine ⟨hne depth h, ?_, MoveToNestedRecursivelyTrace_fst pr depth d st, by rw [hsame],
    t, ht, ?_, hv.longer, ?_⟩
  · rw [← MoveToNestedRecursivelyTrace_fst, ← MoveToNestedRecursivelyTrace_fst, hsame]
  · rw [List.nodup_cons]
    refine ⟨fun hd => ?_, List.Nodup.of_map _ hv.nodup⟩
    exact absurd (hv.longer d hd) (lt_irrefl _)
  · intro x hx
    obtain ⟨y, hy, row, hrow, hpar, hfull⟩ := hv.via x hx
    refine ⟨y, hy, row, hrow, hpar, hfull, ?_⟩
    rw [hfull]
    simp only [fullPath, String.length_append]
    have h1 : "/".length = 1 := by decide
    omega

/-- Witness of C30 on scenario S4: from `/a/b` the move visits `/a/b` and
`/a/b/c` and returns. -/
theorem move_terminates_witness :
    (MoveToNestedRecursivelyTrace demoProcess 7 "/a/b" ⟨s4Parent, s4Child, []⟩).2 =
      ["/a/b", "/a/b/c"] ∧
    MoveToNestedRecursively demoProcess 7 "/a/b" ⟨s4Parent, s4Child, []⟩ ≠ .exhausted :=
  ⟨by decide,
    (move_terminates demoProcess "/a/b" ⟨s4Parent, s4Child, []⟩ 7 (by decide)).1⟩

end catalog
